import Mathlib

/-!
SquishyCoin: block index, active chain and cross-chain proof engine.

A shallow embedding of `src/chain.cpp` (`CChain`, `CBlockIndex`) and of the
proof-chaining functions of `src/crosschain.cpp`.

Conventions of the embedding

* `uint256` digests are natural numbers; the null digest `uint256()` is `0`.
* A `CBlockIndex*` is a `BlockPtr`: `none` is `NULL`, `some i` addresses the
  entry stored under `i` in the block map (the heap of index entries).
* `int` values are mathematical integers.  No operation of the embedded code
  increases a height, so no value leaves the range of `int` as long as the
  heights stored in the index are themselves `int` values (the exceptions,
  `nStep` of `GetLocator` and the sum of a boundary and the gap in
  `STAKED_era`, are discussed at their definitions).
* A function that can fail to return normally (a failed `assert`, an access
  outside a vector, a loop that runs out of fuel) returns an `Option`: `none`
  means "no normal return", `some r` means "returns `r`".
-/

namespace SquishyCoin

/-! ## Data model -/

/-- Digest type `uint256`. -/
abbrev uint256 := Nat

/-- Pointer to a block index entry (`CBlockIndex*`); `none` is `NULL`. -/
abbrev BlockPtr := Option Nat

/-- The fields of `CBlockIndex` used by `chain.cpp`. -/
structure CBlockIndex where
  /-- the value behind `phashBlock`, returned by `GetBlockHash()` -/
  hashBlock : uint256
  /-- pointer to the previous block -/
  pprev : BlockPtr
  /-- pointer to a non-adjacent ancestor -/
  pskip : BlockPtr
  /-- height of the entry in the chain -/
  nHeight : Int
  deriving DecidableEq, Repr

/-- The heap of block index entries: every address holds an entry. -/
abbrev BlockMap := Nat → CBlockIndex

/-! ## `chain.cpp`: skip heights and `GetAncestor` -/

/-- Source: `InvertLowestOne(int n) { return n & (n - 1); }`. -/
def InvertLowestOne (n : Int) : Int := Int.land n (n - 1)

/-- Source: `GetSkipHeight(int height)`. -/
def GetSkipHeight (height : Int) : Int :=
  if height < 2 then 0
  else if Int.land height 1 ≠ 0 then InvertLowestOne (InvertLowestOne (height - 1)) + 1
  else InvertLowestOne height

/-- The `while` loop of `CBlockIndex::GetAncestor`, with the loop variables
`pindexWalk` and `heightWalk`.  A failed `assert(pindexWalk->pprev)` and an
exhausted fuel give `none`. -/
def GetAncestorLoop (m : BlockMap) (height : Int) : Nat → BlockPtr → Int → Option BlockPtr
  | fuel, pindexWalk, heightWalk =>
    match pindexWalk with
    | none => some none
    | some w =>
      if heightWalk > height then
        match fuel with
        | 0 => none
        | fuel + 1 =>
          let heightSkip := GetSkipHeight heightWalk
          let heightSkipPrev := GetSkipHeight (heightWalk - 1)
          if (m w).pskip ≠ none ∧
              (heightSkip = height ∨
                (heightSkip > height ∧ ¬(heightSkipPrev < heightSkip - 2 ∧
                                          heightSkipPrev ≥ height))) then
            GetAncestorLoop m height fuel (m w).pskip heightSkip
          else
            match (m w).pprev with
            | none => none
            | some p => GetAncestorLoop m height fuel (some p) (heightWalk - 1)
      else some (some w)

/-- Source: `CBlockIndex::GetAncestor(int height)` called on entry `self`.
`heightWalk` strictly decreases and stays above `height ≥ 0`, so `nHeight`
iterations are enough fuel. -/
def GetAncestor (m : BlockMap) (self : Nat) (height : Int) : Option BlockPtr :=
  if height > (m self).nHeight ∨ height < 0 then some none
  else GetAncestorLoop m height (m self).nHeight.toNat (some self) (m self).nHeight

/-- Reference oracle (the naive walk of the specification): follow parent
links `n` times. -/
def parentWalk (m : BlockMap) : Nat → BlockPtr → BlockPtr
  | 0, p => p
  | _ + 1, none => none
  | n + 1, some i => parentWalk m n (m i).pprev

/-- Every entry of positive height has a parent of height exactly one less. -/
def ParentLinked (m : BlockMap) : Prop :=
  ∀ i, 0 < (m i).nHeight →
    ∃ p, (m i).pprev = some p ∧ (m p).nHeight = (m i).nHeight - 1

/-- Every skip pointer is null or points to the ancestor of its entry at
height `GetSkipHeight(nHeight)`. -/
def SkipLinked (m : BlockMap) : Prop :=
  ∀ i s, (m i).pskip = some s →
    parentWalk m ((m i).nHeight - GetSkipHeight (m i).nHeight).toNat (some i) = some s

/-- A well-formed block index: heights are non-negative, every parent link
goes down by exactly one, every entry above height 0 has a parent, and skip
pointers are null or the ancestor at the skip height. -/
structure WellFormed (m : BlockMap) : Prop where
  height_nonneg : ∀ i, 0 ≤ (m i).nHeight
  parent_height : ∀ i p, (m i).pprev = some p → (m p).nHeight = (m i).nHeight - 1
  has_parent : ∀ i, 0 < (m i).nHeight → (m i).pprev ≠ none
  skip_linked : SkipLinked m

/-- Source: `CBlockIndex::BuildSkip()` called on entry `self`; the result is
the updated heap. -/
def BuildSkip (m : BlockMap) (self : Nat) : Option BlockMap :=
  match (m self).pprev with
  | none => some m
  | some p =>
    match GetAncestor m p (GetSkipHeight (m self).nHeight) with
    | none => none
    | some r => some (fun i => if i = self then { m self with pskip := r } else m i)

/-- Attaching a new block: a freshly allocated entry at address `a` whose
parent is `p`, one higher than `p`, with no skip pointer yet. -/
def attachBlock (m : BlockMap) (a p : Nat) (hash : uint256) : BlockMap :=
  fun i => if i = a then
      { hashBlock := hash, pprev := some p, pskip := none, nHeight := (m p).nHeight + 1 }
    else m i

/-- Block indexes built from genesis entries by attaching each block to its
parent at a fresh address (one no entry points to) and calling `BuildSkip`
on it once. -/
inductive Built : BlockMap → Prop
  | genesis (hash : Nat → uint256) :
      Built (fun i => { hashBlock := hash i, pprev := none, pskip := none, nHeight := 0 })
  | attach (m m1 : BlockMap) (a p : Nat) (hash : uint256) :
      Built m → a ≠ p →
      (∀ i, (m i).pprev ≠ some a ∧ (m i).pskip ≠ some a) →
      BuildSkip (attachBlock m a p hash) a = some m1 →
      Built m1

/-! ## `chain.cpp`: the active chain `CChain` -/

/-- The vector `vChain` of `CChain`. -/
abbrev CChain := List BlockPtr

/-- Modelled from the spec: `chain_active_entry_at(height)`, the accessor
`CChain::operator[]` declared in `chain.h` (not among the sources): the entry
stored at the height, `NULL` outside the populated range. -/
def chainAt (vChain : CChain) (nHeight : Int) : BlockPtr :=
  if nHeight < 0 ∨ nHeight ≥ vChain.length then none
  else (vChain[nHeight.toNat]?).join

/-- Modelled from the spec: `chain_active_height()`, `CChain::Height()` of
`chain.h` (not among the sources): index of the last slot, `-1` when the chain
is empty. -/
def Height (vChain : CChain) : Int := (vChain.length : Int) - 1

/-- Modelled from the spec: the O(1) active-chain membership test
`CChain::Contains` of `chain.h` (not among the sources):
`chain[p.nHeight] == p`. -/
def Contains (m : BlockMap) (vChain : CChain) (pindex : Nat) : Bool :=
  chainAt vChain (m pindex).nHeight = some pindex

/-- Modelled from the spec: `CChain::Tip()` of `chain.h` (not among the
sources): the entry in the last slot, `NULL` when the chain is empty. -/
def Tip (vChain : CChain) : BlockPtr := chainAt vChain (Height vChain)

/-- The call `std::vector::resize(n)` on `vChain`: new slots hold `NULL`. -/
def resize (vChain : CChain) (n : Nat) : CChain :=
  vChain.take n ++ List.replicate (n - vChain.length) none

/-- The `while` loop of `CChain::SetTip`; the fuel counts evaluations of the
loop test on a non-null `pindex`.  Reading `vChain[pindex->nHeight]` outside
the vector and an exhausted fuel give `none`. -/
def SetTipLoop (m : BlockMap) : Nat → CChain → BlockPtr → Option CChain
  | _, vChain, none => some vChain
  | 0, _, some _ => none
  | fuel + 1, vChain, some i =>
    if (m i).nHeight < 0 then none
    else
      match vChain[(m i).nHeight.toNat]? with
      | none => none
      | some slot =>
        if slot ≠ some i then
          SetTipLoop m fuel (vChain.set (m i).nHeight.toNat (some i)) (m i).pprev
        else some vChain

/-- Source: `CChain::SetTip(CBlockIndex *pindex)`; the result is the new
`vChain`.  One iteration per height from `nHeight` down to 0 is enough
fuel in a well-formed index. -/
def SetTip (m : BlockMap) (vChain : CChain) (pindex : BlockPtr) : Option CChain :=
  match pindex with
  | none => some []
  | some e =>
    if (m e).nHeight + 1 < 0 then none
    else SetTipLoop m ((m e).nHeight + 1).toNat
      (resize vChain ((m e).nHeight + 1).toNat) (some e)

/-- The active chain is consistent: every slot `h` holds an entry of height
`h` whose parent, for `h > 0`, is the entry in slot `h - 1` (the empty chain
is consistent). -/
def Consistent (m : BlockMap) (vChain : CChain) : Prop :=
  ∀ h : Nat, h < vChain.length →
    ∃ i, vChain[h]? = some (some i) ∧ (m i).nHeight = (h : Int) ∧
      (0 < h → vChain[h - 1]? = some (m i).pprev)

/-- The `while` loop of `CChain::FindFork`; the fuel counts evaluations of the
loop test on a non-null `pindex`. -/
def FindForkLoop (m : BlockMap) (vChain : CChain) : Nat → BlockPtr → Option BlockPtr
  | _, none => some none
  | 0, some _ => none
  | fuel + 1, some i =>
    if Contains m vChain i then some (some i)
    else FindForkLoop m vChain fuel (m i).pprev

/-- Source: `CChain::FindFork(const CBlockIndex *pindex)`. -/
def FindFork (m : BlockMap) (vChain : CChain) (pindex : BlockPtr) : Option BlockPtr :=
  match pindex with
  | none => some none
  | some e =>
    if (m e).nHeight > Height vChain then
      match GetAncestor m e (Height vChain) with
      | none => none
      | some p => FindForkLoop m vChain ((m e).nHeight + 1).toNat p
    else FindForkLoop m vChain ((m e).nHeight + 1).toNat (some e)

/-- The `while` loop of `CChain::GetLocator` with the loop variables `pindex`,
`nStep` and `vHave`; the fuel counts iterations.  `nStep` is an `int` that
doubles once per entry after the tenth; it stays below four times the
starting height, so for heights below `2^29` the doubling is exact in `int`. -/
def GetLocatorLoop (m : BlockMap) (vChain : CChain) :
    Nat → BlockPtr → Int → List uint256 → Option (List uint256)
  | _, none, _, vHave => some vHave
  | 0, some _, _, _ => none
  | fuel + 1, some i, nStep, vHave =>
    let vHave1 := vHave ++ [(m i).hashBlock]
    if (m i).nHeight = 0 then some vHave1
    else
      let nHeight := max ((m i).nHeight - nStep) 0
      let next := if Contains m vChain i then some (chainAt vChain nHeight)
                  else GetAncestor m i nHeight
      match next with
      | none => none
      | some pnext =>
        let nStep1 := if vHave1.length > 10 then nStep * 2 else nStep
        GetLocatorLoop m vChain fuel pnext nStep1 vHave1

/-- Source: `CChain::GetLocator(const CBlockIndex *pindex)`; the result is the
vector `vHave` wrapped by the returned `CBlockLocator`.  The height of the
walked entry strictly decreases, so one iteration per height is enough fuel. -/
def GetLocator (m : BlockMap) (vChain : CChain) (pindex : BlockPtr) :
    Option (List uint256) :=
  let start := match pindex with
    | none => Tip vChain
    | some i => some i
  let fuel := match start with
    | none => 0
    | some i => (m i).nHeight.toNat + 1
  GetLocatorLoop m vChain fuel start 1 []

/-! ## `notaries_staked.cpp` and `crosschain.cpp`: symbols and authorities -/

/-- The test `symbol.find(p) == 0`: `p` is a leading substring of `symbol`. -/
def startsWith (p symbol : String) : Bool := p.data.isPrefixOf symbol.data

/-- Source: `is_STAKED(const std::string& symbol)`. -/
def is_STAKED (symbol : String) : Nat :=
  if symbol = "LABS" then 1
  else if startsWith "LABS" symbol then 2
  else if symbol = "CFEK" ∨ startsWith "CFEK" symbol then 3
  else if symbol = "TEST" ∨ startsWith "TEST" symbol then 4
  else if symbol = "THIS_CHAIN_IS_BANNED" then 255
  else 0

/-- The enumeration `CrosschainType`. -/
inductive CrosschainType
  | CROSSCHAIN_SQUISHY
  | CROSSCHAIN_TXSCL
  | CROSSCHAIN_STAKED
  deriving DecidableEq, Repr

/-- The call `symbol.c_str()` turned back into a `std::string`: the characters
before the first NUL. -/
def c_str (symbol : String) : String :=
  String.mk (symbol.data.takeWhile (fun c => c ≠ Char.ofNat 0))

/-- Source: `CrossChain::GetSymbolAuthority(const std::string& symbol)`. -/
def GetSymbolAuthority (symbol : String) : CrosschainType :=
  if startsWith "TXSCL" symbol then CrosschainType.CROSSCHAIN_TXSCL
  else if is_STAKED (c_str symbol) ≠ 0 then CrosschainType.CROSSCHAIN_STAKED
  else CrosschainType.CROSSCHAIN_SQUISHY

/-! ## `crosschain.cpp`: notarisations and the proof root -/

/-- The fields of `NotarisationData` read by `crosschain.cpp`. -/
structure NotarisationData where
  symbol : String
  ccId : Nat
  height : Int
  MoM : uint256
  MoMDepth : Int
  MoMoM : uint256
  txHash : uint256
  deriving DecidableEq, Repr

/-- A `Notarisation` is the pair of its transaction id and its data. -/
abbrev Notarisation := uint256 × NotarisationData

/-- The list `NotarisationsInBlock`. -/
abbrev NotarisationsInBlock := List Notarisation

/-- A Merkle branch (`MerkleBranch` of `cc/eval.h`): leaf position and the
sibling digests from leaf to root. -/
structure MerkleBranch where
  nIndex : Nat
  branch : List uint256
  deriving DecidableEq, Repr

/-- A `TxProof`: anchor transaction id and Merkle branch. -/
abbrev TxProof := uint256 × MerkleBranch

/-- The collaborators of the proof engine, none of which is defined in the
sources: the block index and active chain `chainActive`, the notarisation
store, the transaction lookup, and the Merkle primitives. -/
structure Env where
  /-- heap of block index entries -/
  blocks : BlockMap
  /-- the vector of `chainActive` -/
  chainActive : CChain
  /-- `GetBlockNotarisations(blockHash, out)`: `none` when it returns false -/
  GetBlockNotarisations : uint256 → Option NotarisationsInBlock
  /-- `eval->GetTxConfirmed(txid, tx, blockIdx)`: the height of the confirming
  block, `none` when it returns false -/
  GetTxConfirmed : uint256 → Option Int
  /-- `GetMerkleRoot(moms)` -/
  GetMerkleRoot : List uint256 → uint256
  /-- `CBlock::GetMerkleBranch(nIndex)` of a block whose transaction hashes are
  the given digests -/
  GetMerkleBranch : List uint256 → Nat → List uint256
  /-- `MerkleBranch::Exec(hash)` -/
  Exec : MerkleBranch → uint256 → uint256
  /-- `MerkleBranch::operator<<`: the left branch extended by the right one -/
  append : MerkleBranch → MerkleBranch → MerkleBranch

/-- The constant `NOTARISATION_SCAN_LIMIT_BLOCKS`. -/
def NOTARISATION_SCAN_LIMIT_BLOCKS : Nat := 1440

/-- Insertion into a `std::set<uint256>`, kept as a strictly increasing list. -/
def setInsert (x : uint256) : List uint256 → List uint256
  | [] => [x]
  | y :: ys =>
    if x < y then x :: y :: ys
    else if x = y then y :: ys
    else y :: setInsert x ys

/-- The first inner loop of `CalculateProofRoot` over the notarisations of one
block, on `(seenOwnNotarisations, destNotarisationTxid)`; the flag of the
result tells that `goto end` was taken. -/
def scanOwn (symbol : String) :
    List Notarisation → Int × uint256 → (Int × uint256) × Bool
  | [], st => (st, false)
  | nota :: rest, (seen, dest) =>
    if nota.2.symbol = symbol then
      if seen + 1 = 1 then scanOwn symbol rest (seen + 1, nota.1)
      else if seen + 1 = 7 then ((seen + 1, dest), true)
      else scanOwn symbol rest (seen + 1, dest)
    else scanOwn symbol rest (seen, dest)

/-- The second inner loop of `CalculateProofRoot`: the MoM of every
notarisation of the block with the authority of the requested symbol and the
target ccId is inserted into `tmp_moms`. -/
def collectMoms (authority : CrosschainType) (targetCCid : Nat) :
    List Notarisation → List uint256 → List uint256
  | [], tmp_moms => tmp_moms
  | nota :: rest, tmp_moms =>
    if GetSymbolAuthority nota.2.symbol = authority ∧ nota.2.ccId = targetCCid then
      collectMoms authority targetCCid rest (setInsert nota.2.MoM tmp_moms)
    else collectMoms authority targetCCid rest tmp_moms

/-- The loop variables of `CalculateProofRoot`. -/
structure ScanState where
  seenOwnNotarisations : Int
  destNotarisationTxid : uint256
  tmp_moms : List uint256
  deriving DecidableEq, Repr

/-- The block loop `for (i = 0; i < NOTARISATION_SCAN_LIMIT_BLOCKS; i++)` of
`CalculateProofRoot`; the first argument is the number of iterations left.
The flag of the result tells whether the loop was left through `goto end`.
Dereferencing a null `chainActive[kmdHeight - i]` gives `none`. -/
def CalculateProofRootLoop (env : Env) (symbol : String) (targetCCid : Nat)
    (kmdHeight : Int) : Nat → Int → ScanState → Option (ScanState × Bool)
  | 0, _, st => some (st, false)
  | n + 1, i, st =>
    if i > kmdHeight then some (st, false)
    else
      match chainAt env.chainActive (kmdHeight - i) with
      | none => none
      | some b =>
        match env.GetBlockNotarisations (env.blocks b).hashBlock with
        | none => CalculateProofRootLoop env symbol targetCCid kmdHeight n (i + 1) st
        | some notarisations =>
          match scanOwn symbol notarisations
              (st.seenOwnNotarisations, st.destNotarisationTxid) with
          | ((seen, dest), true) => some (⟨seen, dest, st.tmp_moms⟩, true)
          | ((seen, dest), false) =>
            let tmp_moms :=
              if seen ≥ 1 then
                collectMoms (GetSymbolAuthority symbol) targetCCid notarisations st.tmp_moms
              else st.tmp_moms
            CalculateProofRootLoop env symbol targetCCid kmdHeight n (i + 1)
              ⟨seen, dest, tmp_moms⟩

/-- Source: `CrossChain::CalculateProofRoot(symbol, targetCCid, kmdHeight, moms,
destNotarisationTxid)`.  The arguments `moms` and `destNotarisationTxid` are
the values of the two reference parameters at the call; the result is the
returned root with their values at the return. -/
def CalculateProofRoot (env : Env) (symbol : String) (targetCCid : Nat) (kmdHeight : Int)
    (moms : List uint256) (destNotarisationTxid : uint256) :
    Option (uint256 × List uint256 × uint256) :=
  if targetCCid < 2 then some (0, moms, destNotarisationTxid)
  else if kmdHeight < 0 ∨ kmdHeight > Height env.chainActive then
    some (0, moms, destNotarisationTxid)
  else
    match CalculateProofRootLoop env symbol targetCCid kmdHeight
        NOTARISATION_SCAN_LIMIT_BLOCKS 0 ⟨0, destNotarisationTxid, []⟩ with
    | none => none
    | some (_, false) => some (0, [], 0)
    | some (st, true) => some (env.GetMerkleRoot st.tmp_moms, st.tmp_moms,
        st.destNotarisationTxid)

/-- The `for` loop of `ScanNotarisationsFromHeight`; the first argument is the
number of heights left to visit. -/
def ScanNotarisationsLoop (env : Env) (f : Notarisation → Bool) :
    Nat → Int → Notarisation → Option (Int × Notarisation)
  | 0, _, found => some (0, found)
  | n + 1, h, found =>
    match chainAt env.chainActive h with
    | none => none
    | some b =>
      match env.GetBlockNotarisations (env.blocks b).hashBlock with
      | none => ScanNotarisationsLoop env f n (h + 1) found
      | some notarisations =>
        match notarisations.find? f with
        | some entry => some (h, entry)
        | none => ScanNotarisationsLoop env f n (h + 1) found

/-- Source: `ScanNotarisationsFromHeight(nHeight, f, found)`: the returned
height together with the value of `found` at the return; `none` when a null
`chainActive[h]` is dereferenced. -/
def ScanNotarisationsFromHeight (env : Env) (nHeight : Int) (f : Notarisation → Bool)
    (found : Notarisation) : Option (Int × Notarisation) :=
  let limit := min (nHeight + NOTARISATION_SCAN_LIMIT_BLOCKS) (Height env.chainActive)
  let start := max nHeight 1
  ScanNotarisationsLoop env f (limit - start).toNat start found

/-- The default-constructed `Notarisation nota`. -/
def emptyNotarisation : Notarisation := (0, ⟨"", 0, 0, 0, 0, 0, 0⟩)

/-- The search `for (nIndex = 0; nIndex < moms.size(); nIndex++)` for the
position of `MoM` in `moms`. -/
def findMoM (MoM : uint256) : List uint256 → Nat → Option Nat
  | [], _ => none
  | x :: rest, nIndex => if x = MoM then some nIndex else findMoM MoM rest (nIndex + 1)

/-- Source: `CrossChain::GetCrossChainProof(txid, targetSymbol, targetCCid,
assetChainProof, offset)`.  A thrown `std::runtime_error(msg)` is
`some (Except.error msg)`; `none` is a crash inside a callee. -/
def GetCrossChainProof (env : Env) (txid : uint256) (targetSymbol : String)
    (targetCCid : Nat) (assetChainProof : TxProof) (offset : Int) :
    Option (Except String TxProof) :=
  let MoM := env.Exec assetChainProof.2 txid
  match env.GetTxConfirmed assetChainProof.1 with
  | none => some (Except.error "Notarisation not found")
  | some blockHeight =>
    match ScanNotarisationsFromHeight env blockHeight
        (fun nota => nota.2.symbol = targetSymbol) emptyNotarisation with
    | none => none
    | some (scanned, _) =>
      if scanned = 0 then
        some (Except.error "Cannot find notarisation for target inclusive of source")
      else
        let kmdHeight := if offset ≠ 0 then scanned + offset else scanned
        match CalculateProofRoot env targetSymbol targetCCid kmdHeight [] 0 with
        | none => none
        | some (MoMoM, moms, targetChainNotarisationTxid) =>
          if MoMoM = 0 then some (Except.error "No MoMs found")
          else
            match findMoM MoM moms 0 with
            | none => some (Except.error "Couldn't find MoM within MoMoM set")
            | some nIndex =>
              let vBranch := env.GetMerkleBranch moms nIndex
              let newBranch := env.append assetChainProof.2 ⟨nIndex, vBranch⟩
              if env.Exec newBranch txid ≠ MoMoM then
                some (Except.error "Proof check failed")
              else some (Except.ok (targetChainNotarisationTxid, newBranch))

/-! ## Merkle branches -/

/-- Modelled from the spec: the Merkle branch check `CBlock::CheckMerkleBranch`
(declared outside the sources).  The branch lists the sibling digests from
leaf to root, lowest layer first; bit `k` of the leaf position `nIndex` tells
whether the running digest is the right (`1`) or the left (`0`) child at
layer `k`.  `Hash` is the two-to-one digest function. -/
def CheckMerkleBranch (Hash : uint256 → uint256 → uint256) (hash : uint256) :
    List uint256 → Nat → uint256
  | [], _ => hash
  | x :: rest, nIndex =>
    CheckMerkleBranch Hash (if nIndex % 2 = 1 then Hash x hash else Hash hash x) rest
      (nIndex / 2)

/-- Source: the step "concatenate branches" of `CrossChain::GetAssetchainProof`:
`nIndex = (nIndex << txBranch.size()) + nTxIndex` and `txBranch` inserted at
the front of `branch`.  Both positions are non-negative there. -/
def concatBranches (nIndex : Nat) (branch : List uint256) (nTxIndex : Nat)
    (txBranch : List uint256) : MerkleBranch :=
  ⟨(nIndex <<< txBranch.length) + nTxIndex, txBranch ++ branch⟩

/-- Source: `CrossChain::CheckMoMoM(kmdNotarisationHash, momom)`.  The lookup
`GetBackNotarisation(hash, bn)` of the notarisation store is a parameter
(`none` when it returns false); `none` as result is a crash inside the scan. -/
def CheckMoMoM (env : Env) (GetBackNotarisation : uint256 → Option Notarisation)
    (kmdNotarisationHash momom : uint256) : Option Bool :=
  match GetBackNotarisation kmdNotarisationHash with
  | none => some false
  | some bn =>
    match env.GetTxConfirmed bn.1 with
    | none => some false
    | some blockHeight =>
      match ScanNotarisationsFromHeight env (blockHeight - 100)
          (fun nota => nota.2.MoMoM = momom) emptyNotarisation with
      | none => none
      | some (h, _) => some (decide (h ≠ 0))

/-! ## `crosschain.cpp`: notary approvals -/

/-- A 33-byte public key. -/
abbrev PubKey := List Nat

/-- A serialized payload (`std::vector<uint8_t>`). -/
abbrev Bytes := List Nat

/-- What `CheckNotariesApproval` reads of a decoded `CMerkleBlock`. -/
structure CMerkleBlock where
  /-- the field `header.hashMerkleRoot` -/
  hashMerkleRoot : uint256
  /-- the root returned by `txn.ExtractMatches(prooftxids)` -/
  extractedRoot : uint256
  /-- the txids `txn.ExtractMatches` leaves in `prooftxids` -/
  matched : List uint256
  deriving DecidableEq, Repr

/-- The collaborators of `CheckNotariesApproval`, none of which is defined in
the sources; `Tx` is the type of transactions. -/
structure ApprovalEnv (Tx : Type) where
  /-- `eval->GetTxConfirmed(txid, tx, block)`: the transaction with
  `block.nHeight` and `block.GetBlockTime()`, `none` when it returns false -/
  GetTxConfirmed : uint256 → Option (Tx × Int × Int)
  /-- the test `!tx.vout.empty() && GetOpReturnData(tx.vout.back().scriptPubKey,
  vopret)` with the payload `vopret` -/
  GetOpReturnData : Tx → Option Bytes
  /-- the decoding `E_UNMARSHAL(vopret, ss >> txoutproof)` -/
  unmarshalTxOutProof : Bytes → Option Bytes
  /-- the decoding `E_UNMARSHAL(txoutproof, ss >> merkleBlock)` -/
  unmarshalMerkleBlock : Bytes → Option CMerkleBlock
  /-- `squishy_notaries(notaries_pubkeys, height, timestamp)`: from the
  content of the array `notaries_pubkeys` before the call, the returned number
  and the content of the array after the call -/
  squishy_notaries : List PubKey → Int → Int → Int × List PubKey
  /-- `CheckVinPubKey(tx, n, pubkey)` -/
  CheckVinPubKey : Tx → Nat → PubKey → Bool

/-- The variables `count`, `alreadySigned` and `notaries_pubkeys` of
`CheckNotariesApproval`, all declared before the loop over the approvals.  The
list `notaries_pubkeys` holds the slots of the array
`uint8_t notaries_pubkeys[64][33]` in order. -/
structure ApprovalState where
  count : Int
  alreadySigned : List PubKey
  notaries_pubkeys : List PubKey
  deriving DecidableEq, Repr

/-- The body of the loop `for (auto notarytxid : notaryTxids)` of
`CheckNotariesApproval` (built without `TESTMODE`); the log output is left
out.  The call of `squishy_notaries` works on the array as the approvals
before left it, and the signer loop `for (i = 0; i < 64; i++)` reads every slot
of the array, whatever number the call returned. -/
def approvalStep {Tx : Type} (env : ApprovalEnv Tx) (burntxid : uint256)
    (st : ApprovalState) (notarytxid : uint256) : ApprovalState :=
  match env.GetTxConfirmed notarytxid with
  | none => st
  | some (notarytx, nHeight, blockTime) =>
    match env.GetOpReturnData notarytx with
    | none => st
    | some vopret =>
      match env.unmarshalTxOutProof vopret with
      | none => st
      | some txoutproof =>
        match env.unmarshalMerkleBlock txoutproof with
        | none => st
        | some merkleBlock =>
          if merkleBlock.extractedRoot ≠ merkleBlock.hashMerkleRoot ∨
              burntxid ∈ merkleBlock.matched then
            if (env.squishy_notaries st.notaries_pubkeys nHeight blockTime).1 ≥ 0 then
              match (env.squishy_notaries st.notaries_pubkeys nHeight blockTime).2.find?
                  (fun pk => env.CheckVinPubKey notarytx 0 pk &&
                    !decide (pk ∈ st.alreadySigned)) with
              | some pk =>
                ⟨st.count + 1, st.alreadySigned ++ [pk],
                  (env.squishy_notaries st.notaries_pubkeys nHeight blockTime).2⟩
              | none =>
                ⟨st.count, st.alreadySigned,
                  (env.squishy_notaries st.notaries_pubkeys nHeight blockTime).2⟩
            else
              ⟨st.count, st.alreadySigned,
                (env.squishy_notaries st.notaries_pubkeys nHeight blockTime).2⟩
          else st

/-- Source: `CrossChain::CheckNotariesApproval(burntxid, notaryTxids)` (built
without `TESTMODE`).  The array `notaries_pubkeys` is declared without an
initial value; its content at entry is the argument `notaries_pubkeys`. -/
def CheckNotariesApproval {Tx : Type} (env : ApprovalEnv Tx) (notaries_pubkeys : List PubKey)
    (burntxid : uint256) (notaryTxids : List uint256) : Bool :=
  let st := notaryTxids.foldl (approvalStep env burntxid) ⟨0, [], notaries_pubkeys⟩
  if st.count < 5 then false else true

/-- The transaction, height and block time with which an approval reaches the
call of `squishy_notaries`: `none` when one of the tests before the call
fails. -/
def approvalCall {Tx : Type} (env : ApprovalEnv Tx) (burntxid : uint256)
    (notarytxid : uint256) : Option (Tx × Int × Int) :=
  match env.GetTxConfirmed notarytxid with
  | none => none
  | some (notarytx, nHeight, blockTime) =>
    match env.GetOpReturnData notarytx with
    | none => none
    | some vopret =>
      match env.unmarshalTxOutProof vopret with
      | none => none
      | some txoutproof =>
        match env.unmarshalMerkleBlock txoutproof with
        | none => none
        | some merkleBlock =>
          if merkleBlock.extractedRoot ≠ merkleBlock.hashMerkleRoot ∨
              burntxid ∈ merkleBlock.matched then
            some (notarytx, nHeight, blockTime)
          else none

/-- A valid approval of the burn signed by `pk`: a confirmed transaction whose
payload decodes to a partial-block proof that resolves to the Merkle root of
its header and proves `burntxid`, and for which, whatever the key array holds
before the call, `squishy_notaries` returns a number that is not negative and
leaves in the array the key `pk`, the one key of the array that signs the
first input of the transaction. -/
def ValidApproval {Tx : Type} (env : ApprovalEnv Tx) (burntxid : uint256)
    (notarytxid : uint256) (pk : PubKey) : Prop :=
  ∃ notarytx nHeight blockTime vopret txoutproof merkleBlock,
    env.GetTxConfirmed notarytxid = some (notarytx, nHeight, blockTime) ∧
    env.GetOpReturnData notarytx = some vopret ∧
    env.unmarshalTxOutProof vopret = some txoutproof ∧
    env.unmarshalMerkleBlock txoutproof = some merkleBlock ∧
    merkleBlock.extractedRoot = merkleBlock.hashMerkleRoot ∧
    burntxid ∈ merkleBlock.matched ∧
    ∀ pubkeys : List PubKey,
      0 ≤ (env.squishy_notaries pubkeys nHeight blockTime).1 ∧
      pk ∈ (env.squishy_notaries pubkeys nHeight blockTime).2 ∧
      ∀ k ∈ (env.squishy_notaries pubkeys nHeight blockTime).2,
        (env.CheckVinPubKey notarytx 0 k = true ↔ k = pk)

/-! ## `notaries_staked.cpp`: eras and their signer sets -/

/-- The constants and tables of `notaries_staked.h`, which is not among the
sources: `NUM_STAKED_ERAS`, `STAKED_ERA_GAP` and the arrays
`STAKED_NOTARIES_TIMESTAMP[NUM_STAKED_ERAS]`,
`num_notaries_STAKED[NUM_STAKED_ERAS]` and
`notaries_STAKED[NUM_STAKED_ERAS][64][2]` (name and hex public key of a
notary).  Only the entries at indexes inside the arrays are meant. -/
structure StakedTables where
  NUM_STAKED_ERAS : Nat
  STAKED_ERA_GAP : Int
  STAKED_NOTARIES_TIMESTAMP : Nat → Int
  num_notaries_STAKED : Nat → Int
  notaries_STAKED : Nat → Nat → String × String

/-- The value of a sum of two `int`s: the integer reduced to the 32 bits of
`int` in two's complement, which is what the compiled code computes (the C
language leaves the overflowing sum undefined). -/
def toInt32 (x : Int) : Int := (x + 2147483648) % 4294967296 - 2147483648

/-- The `for (int32_t i = 1; i < NUM_STAKED_ERAS; i++)` loop of `STAKED_era`;
the first argument is the number of iterations left, the second is `i`.  The
sum `STAKED_NOTARIES_TIMESTAMP[i-1] + STAKED_ERA_GAP` is a sum of two `int`s. -/
def STAKED_eraLoop (T : StakedTables) (timestamp : Int) : Nat → Nat → Int
  | 0, _ => 0
  | n + 1, i =>
    if timestamp ≤ T.STAKED_NOTARIES_TIMESTAMP i ∧
        timestamp ≥ toInt32 (T.STAKED_NOTARIES_TIMESTAMP (i - 1) + T.STAKED_ERA_GAP) then
      (i : Int) + 1
    else STAKED_eraLoop T timestamp n (i + 1)

/-- The sums `STAKED_NOTARIES_TIMESTAMP[i-1] + STAKED_ERA_GAP` that `STAKED_era`
computes, for `1 ≤ i < NUM_STAKED_ERAS`, lie in the range of `int`. -/
def EraSumsFit (T : StakedTables) : Prop :=
  ∀ j : Nat, j + 1 < T.NUM_STAKED_ERAS →
    -2147483648 ≤ T.STAKED_NOTARIES_TIMESTAMP j + T.STAKED_ERA_GAP ∧
    T.STAKED_NOTARIES_TIMESTAMP j + T.STAKED_ERA_GAP ≤ 2147483647

/-- Source: `STAKED_era(int timestamp)`. -/
def STAKED_era (T : StakedTables) (timestamp : Int) : Int :=
  if timestamp ≤ T.STAKED_NOTARIES_TIMESTAMP 0 then 1
  else STAKED_eraLoop T timestamp (T.NUM_STAKED_ERAS - 1) 1

/-- Conversion of an `int` to `int8_t`. -/
def toInt8 (x : Int) : Int := (x + 128) % 256 - 128

/-- Source: `numStakedNotaries(pubkeys, era)`: the returned count together
with the content of `pubkeys` at the return.  The helper `decode_hex` is not
among the sources and is a parameter; the cache `staked_pubkeys` holds what
`decode_hex` produced at the first call of the era.  `none` stands for an
access outside the tables or outside the 64 slots of `pubkeys`. -/
def numStakedNotaries (T : StakedTables) (decode_hex : String → PubKey)
    (pubkeys : List PubKey) (era : Int) : Option (Int × List PubKey) :=
  if era = 0 then some (64, List.replicate 64 (List.replicate 33 0))
  else if era - 1 < 0 ∨ era - 1 ≥ T.NUM_STAKED_ERAS then none
  else
    let num := T.num_notaries_STAKED (era - 1).toNat
    if num < 0 ∨ num > 64 then none
    else
      some (toInt8 num,
        (List.range num.toNat).map
            (fun i => decode_hex (T.notaries_STAKED (era - 1).toNat i).2)
          ++ pubkeys.drop num.toNat)

/-- The struct `CrosschainAuthority` of `crosschain.h`: `notaries` holds the
slots of `uint8_t notaries[64][33]` that have been written, `size` and
`requiredSigs` are `int8_t`. -/
structure CrosschainAuthority where
  notaries : List PubKey
  size : Int
  requiredSigs : Int
  deriving DecidableEq, Repr

/-- Value of a hexadecimal digit. -/
def hexDigit (c : Char) : Option Nat :=
  if '0' ≤ c ∧ c ≤ '9' then some (c.toNat - '0'.toNat)
  else if 'a' ≤ c ∧ c ≤ 'f' then some (c.toNat - 'a'.toNat + 10)
  else if 'A' ≤ c ∧ c ≤ 'F' then some (c.toNat - 'A'.toNat + 10)
  else none

/-- The conversion `sscanf(s, "%2hhx", out)` on a string that starts with two
hexadecimal digits: the byte they spell.  Other inputs are not modelled
(`none`). -/
def sscanf_2hhx (s : List Char) : Option Nat :=
  match s with
  | a :: b :: _ =>
    match hexDigit a, hexDigit b with
    | some x, some y => some (16 * x + y)
    | _, _ => none
  | _ => none

/-- The loop `for (size_t i=0; i<33; i++) sscanf(hex+(i*2), "%2hhx", key+i)` of
`Choose_auth_STAKED`; the first argument is the number of iterations left, the
second is `i`. -/
def scanKey (hex : List Char) : Nat → Nat → Option PubKey
  | 0, _ => some []
  | k + 1, i =>
    match sscanf_2hhx (hex.drop (i * 2)) with
    | none => none
    | some b => (scanKey hex k (i + 1)).map (fun key => b :: key)

/-- The loop `for (int n=0; n<auth.size; n++)` of `Choose_auth_STAKED` over the
keys of era index `e`; the first argument is the number of iterations left,
the second is `n`. -/
def scanKeys (T : StakedTables) (e : Nat) : Nat → Nat → Option (List PubKey)
  | 0, _ => some []
  | k + 1, n =>
    match scanKey (T.notaries_STAKED e n).2.data 33 0 with
    | none => none
    | some key => (scanKeys T e k (n + 1)).map (fun keys => key :: keys)

/-- Source: `Choose_auth_STAKED(int32_t chosen_era)`.  `none` stands for a read
outside the tables (`chosen_era - 1` is not an index of them), a write past the
64 slots of `auth.notaries`, or a key string outside the modelled inputs of
`sscanf`. -/
def Choose_auth_STAKED (T : StakedTables) (chosen_era : Int) :
    Option CrosschainAuthority :=
  if chosen_era - 1 < 0 ∨ chosen_era - 1 ≥ T.NUM_STAKED_ERAS then none
  else
    let num := T.num_notaries_STAKED (chosen_era - 1).toNat
    let size := toInt8 num
    if size > 64 then none
    else
      match scanKeys T (chosen_era - 1).toNat size.toNat 0 with
      | none => none
      | some notaries => some ⟨notaries, size, toInt8 (Int.tdiv num 5)⟩

/-- The bytes spelled by a string of pairs of hexadecimal digits, as the
specification words the decoding of a public key; `none` when the string is
not made of such pairs. -/
def decodeHexPairs : List Char → Option (List Nat)
  | [] => some []
  | [_] => none
  | a :: b :: rest =>
    match hexDigit a, hexDigit b, decodeHexPairs rest with
    | some x, some y, some bytes => some ((16 * x + y) :: bytes)
    | _, _, _ => none

/-! ## `crosschain.cpp`: the quorum check `CheckTxAuthority` -/

/-- The class `COutPoint`: `hash` and the `uint32_t n`. -/
structure COutPoint where
  hash : uint256
  n : Nat
  deriving DecidableEq, Repr

/-- The class `CTxIn`, reduced to the outpoint it spends. -/
structure CTxIn where
  prevout : COutPoint
  deriving DecidableEq, Repr

/-- The class `CTxOut`, reduced to the bytes of its `scriptPubKey`. -/
structure CTxOut where
  scriptPubKey : Bytes
  deriving DecidableEq, Repr

/-- The class `CTransaction`, reduced to `vin` and `vout`. -/
structure CTransaction where
  vin : List CTxIn
  vout : List CTxOut
  deriving DecidableEq, Repr

/-- The opcode `OP_CHECKSIG`. -/
def OP_CHECKSIG : Nat := 0xac

/-- The loop `for (int i=0; i<auth.size; i++)` of `CheckTxAuthority`: the first
slot not yet seen whose key equals the 33 bytes at `pk`.  The first argument
is the number of iterations left, the second is `i`; `some none` tells that
the loop ended without `goto found`, `none` stands for a read outside `seen`
or outside the written slots of `auth.notaries`. -/
def findNotary (auth : CrosschainAuthority) (seen : List Bool) (pk : Bytes) :
    Nat → Nat → Option (Option Nat)
  | 0, _ => some none
  | k + 1, i =>
    match seen[i]? with
    | none => none
    | some s =>
      if s = false then
        match auth.notaries[i]? with
        | none => none
        | some key =>
          if pk.take 33 = key.take 33 then some (some i)
          else findNotary auth seen pk k (i + 1)
      else findNotary auth seen pk k (i + 1)

/-- The loop over `tx.vin` of `CheckTxAuthority`.  The lookup
`eval->GetTxUnconfirmed(hash, tx, hashBlock)` is a parameter (`none` when it
returns false).  `none` as result stands for the read of `tx.vout[n]` with
`n == tx.vout.size()` or for a `none` of `findNotary`. -/
def CheckTxAuthorityLoop (GetTxUnconfirmed : uint256 → Option CTransaction)
    (auth : CrosschainAuthority) : List CTxIn → List Bool → Option Bool
  | [], _ => some true
  | txIn :: rest, seen =>
    match GetTxUnconfirmed txIn.prevout.hash with
    | none => some false
    | some tx =>
      if tx.vout.length < txIn.prevout.n then some false
      else
        match tx.vout[txIn.prevout.n]? with
        | none => none
        | some out =>
          if out.scriptPubKey.length ≠ 35 then some false
          else if out.scriptPubKey[0]? ≠ some 33 then some false
          else if out.scriptPubKey[34]? ≠ some OP_CHECKSIG then some false
          else
            match findNotary auth seen (out.scriptPubKey.drop 1) auth.size.toNat 0 with
            | none => none
            | some none => some false
            | some (some i) =>
              CheckTxAuthorityLoop GetTxUnconfirmed auth rest (seen.set i true)

/-- Source: `CrossChain::CheckTxAuthority(const CTransaction &tx,
CrosschainAuthority auth)`.  In `tx.vin.size() < auth.requiredSigs` the
`int8_t` is converted to `size_t`. -/
def CheckTxAuthority (GetTxUnconfirmed : uint256 → Option CTransaction)
    (tx : CTransaction) (auth : CrosschainAuthority) : Option Bool :=
  if (tx.vin.length : Int) < auth.requiredSigs % 2 ^ 64 then some false
  else CheckTxAuthorityLoop GetTxUnconfirmed auth tx.vin (List.replicate 64 false)

/-! ## `crosschain.cpp`: `CompleteImportTransaction` -/

/-- The collaborators of `CompleteImportTransaction`, none of which is defined
in the sources, over the types of transactions, import proofs and payout
lists: the two decoders (`none` when they return false), the test
`ImportProof::IsMerkleBranch` with the branch it extracts, `CTransaction::GetHash`,
the constructor `ImportProof(TxProof)` and `MakeImportCoinTransaction`. -/
structure ImportEnv (Tx Proof Payouts : Type) where
  /-- `UnmarshalImportTx(importTx, proof, burnTx, payouts)` -/
  UnmarshalImportTx : Tx → Option (Proof × Tx × Payouts)
  /-- `UnmarshalBurnTx(burnTx, targetSymbol, &targetCCid, payoutsHash, rawproof)` -/
  UnmarshalBurnTx : Tx → Option (String × Nat × uint256 × Bytes)
  /-- `proof.IsMerkleBranch(merkleBranch)` -/
  IsMerkleBranch : Proof → Option TxProof
  /-- `burnTx.GetHash()` -/
  GetHash : Tx → uint256
  /-- `ImportProof newProof(newMerkleBranch)` -/
  ImportProof : TxProof → Proof
  /-- `MakeImportCoinTransaction(newProof, burnTx, payouts)` -/
  MakeImportCoinTransaction : Proof → Tx → Payouts → Tx

/-- Source: `CrossChain::CompleteImportTransaction(CTransaction &importTx,
int32_t offset)`.  The result pairs the way the call ends (`error msg` for a
thrown `std::runtime_error(msg)`) with the value of the reference parameter
`importTx` at that point; `none` is a crash inside `GetCrossChainProof`.  The
symbol reaches `GetCrossChainProof` as the C string `targetSymbol.data()`. -/
def CompleteImportTransaction {Tx Proof Payouts : Type} (I : ImportEnv Tx Proof Payouts)
    (env : Env) (importTx : Tx) (offset : Int) : Option (Except String Unit × Tx) :=
  match I.UnmarshalImportTx importTx with
  | none => some (Except.error "Couldn't unmarshal importTx", importTx)
  | some (proof, burnTx, payouts) =>
    match I.UnmarshalBurnTx burnTx with
    | none => some (Except.error "Couldn't unmarshal burnTx", importTx)
    | some (targetSymbol, targetCCid, _, _) =>
      match I.IsMerkleBranch proof with
      | none => some (Except.error "Incorrect import tx proof", importTx)
      | some merkleBranch =>
        match GetCrossChainProof env (I.GetHash burnTx) (c_str targetSymbol) targetCCid
            merkleBranch offset with
        | none => none
        | some (Except.error msg) => some (Except.error msg, importTx)
        | some (Except.ok newMerkleBranch) =>
          some (Except.ok (),
            I.MakeImportCoinTransaction (I.ImportProof newMerkleBranch) burnTx payouts)

/-! ## `chain.cpp`: the slots written by `SetTip` -/

/-- The `while` loop of `CChain::SetTip` as in `SetTipLoop`, recording beside
the resulting vector the heights of the slots assigned by
`vChain[pindex->nHeight] = pindex`, in the order of the assignments. -/
def SetTipLoopTrace (m : BlockMap) : Nat → CChain → BlockPtr → Option (CChain × List Nat)
  | _, vChain, none => some (vChain, [])
  | 0, _, some _ => none
  | fuel + 1, vChain, some i =>
    if (m i).nHeight < 0 then none
    else
      match vChain[(m i).nHeight.toNat]? with
      | none => none
      | some slot =>
        if slot ≠ some i then
          (SetTipLoopTrace m fuel (vChain.set (m i).nHeight.toNat (some i)) (m i).pprev).map
            (fun r => (r.1, (m i).nHeight.toNat :: r.2))
        else some (vChain, [])

/-- The function `CChain::SetTip` as in `SetTip`, with the heights of the slots
its loop assigns. -/
def SetTipTrace (m : BlockMap) (vChain : CChain) (pindex : BlockPtr) :
    Option (CChain × List Nat) :=
  match pindex with
  | none => some ([], [])
  | some e =>
    if (m e).nHeight + 1 < 0 then none
    else SetTipLoopTrace m ((m e).nHeight + 1).toNat
      (resize vChain ((m e).nHeight + 1).toNat) (some e)

/-- The input `txIn` can be credited to the signer slot `i` of `auth`: the
slot is below `auth.size` and the output the input spends is a 35-byte
pay-to-pubkey script (push of 33 bytes, key, `OP_CHECKSIG`) whose 33-byte key
equals `auth.notaries[i]`. -/
def SpendsNotaryOutput (GetTxUnconfirmed : uint256 → Option CTransaction)
    (auth : CrosschainAuthority) (txIn : CTxIn) (i : Nat) : Prop :=
  (i : Int) < auth.size ∧
  ∃ prev out key, GetTxUnconfirmed txIn.prevout.hash = some prev ∧
    prev.vout[txIn.prevout.n]? = some out ∧
    out.scriptPubKey.length = 35 ∧ out.scriptPubKey[0]? = some 33 ∧
    out.scriptPubKey[34]? = some OP_CHECKSIG ∧
    auth.notaries[i]? = some key ∧
    (out.scriptPubKey.drop 1).take 33 = key.take 33

/-! ## `chain.cpp`: the iterations of `GetAncestor` -/

/-- The `while` loop of `CBlockIndex::GetAncestor` as in `GetAncestorLoop`,
recording beside the result the values of `pindexWalk` and `heightWalk` with
which each iteration of the loop body starts, in order. -/
def GetAncestorLoopTrace (m : BlockMap) (height : Int) :
    Nat → BlockPtr → Int → Option BlockPtr × List (Nat × Int)
  | fuel, pindexWalk, heightWalk =>
    match pindexWalk with
    | none => (some none, [])
    | some w =>
      if heightWalk > height then
        match fuel with
        | 0 => (none, [])
        | fuel + 1 =>
          let heightSkip := GetSkipHeight heightWalk
          let heightSkipPrev := GetSkipHeight (heightWalk - 1)
          if (m w).pskip ≠ none ∧
              (heightSkip = height ∨
                (heightSkip > height ∧ ¬(heightSkipPrev < heightSkip - 2 ∧
                                          heightSkipPrev ≥ height))) then
            ((GetAncestorLoopTrace m height fuel (m w).pskip heightSkip).1,
              (w, heightWalk) :: (GetAncestorLoopTrace m height fuel (m w).pskip heightSkip).2)
          else
            match (m w).pprev with
            | none => (none, [(w, heightWalk)])
            | some p =>
              ((GetAncestorLoopTrace m height fuel (some p) (heightWalk - 1)).1,
                (w, heightWalk) ::
                  (GetAncestorLoopTrace m height fuel (some p) (heightWalk - 1)).2)
      else (some (some w), [])

/-- The function `CBlockIndex::GetAncestor` as in `GetAncestor`, with the
states of its loop iterations. -/
def GetAncestorTrace (m : BlockMap) (self : Nat) (height : Int) :
    Option BlockPtr × List (Nat × Int) :=
  if height > (m self).nHeight ∨ height < 0 then (some none, [])
  else GetAncestorLoopTrace m height (m self).nHeight.toNat (some self) (m self).nHeight

/-- The value of `nStep` in `CChain::GetLocator` while `vHave` holds `s`
hashes: 1 up to ten hashes, then doubled once per further hash. -/
def locatorStep (s : Nat) : Int := if s ≤ 10 then 1 else 2 ^ (s - 10)

/-! ## The scan window of `CalculateProofRoot` -/

/-- The notarisations stored for the block of the active chain at height `h`:
what `GetBlockNotarisations` yields for `chainActive[h]`, and nothing when it
returns false or the slot is null. -/
def blockNotarisations (env : Env) (h : Int) : NotarisationsInBlock :=
  match chainAt env.chainActive h with
  | none => []
  | some b => (env.GetBlockNotarisations (env.blocks b).hashBlock).getD []

/-- The notarisations of the blocks `kmdHeight - i`, `kmdHeight - i - 1`, ...
(at most `n` blocks, none below height 0) in scan order: highest block first,
stored order within a block. -/
def scanWindow (env : Env) (kmdHeight : Int) : Nat → Int → List Notarisation
  | 0, _ => []
  | n + 1, i =>
    if i > kmdHeight then []
    else blockNotarisations env (kmdHeight - i) ++ scanWindow env kmdHeight n (i + 1)

/-- The notarisations of a list that carry the requested symbol. -/
def ownNotarisations (symbol : String) (l : List Notarisation) : List Notarisation :=
  l.filter (fun nota => decide (nota.2.symbol = symbol))

/-! ## `crosschain.cpp`: the blocks examined by the scans -/

/-- The loop of `ScanNotarisationsFromHeight` as in `ScanNotarisationsLoop`,
recording beside the result the heights `h` whose block `chainActive[h]` it
reads, in the order of the reads. -/
def ScanNotarisationsLoopTrace (env : Env) (f : Notarisation → Bool) :
    Nat → Int → Notarisation → Option (Int × Notarisation) × List Int
  | 0, _, found => (some (0, found), [])
  | n + 1, h, found =>
    match chainAt env.chainActive h with
    | none => (none, [h])
    | some b =>
      match env.GetBlockNotarisations (env.blocks b).hashBlock with
      | none =>
        ((ScanNotarisationsLoopTrace env f n (h + 1) found).1,
          h :: (ScanNotarisationsLoopTrace env f n (h + 1) found).2)
      | some notarisations =>
        match notarisations.find? f with
        | some entry => (some (h, entry), [h])
        | none =>
          ((ScanNotarisationsLoopTrace env f n (h + 1) found).1,
            h :: (ScanNotarisationsLoopTrace env f n (h + 1) found).2)

/-- The function `ScanNotarisationsFromHeight` with the heights of the blocks
it reads. -/
def ScanNotarisationsFromHeightTrace (env : Env) (nHeight : Int) (f : Notarisation → Bool)
    (found : Notarisation) : Option (Int × Notarisation) × List Int :=
  let limit := min (nHeight + NOTARISATION_SCAN_LIMIT_BLOCKS) (Height env.chainActive)
  let start := max nHeight 1
  ScanNotarisationsLoopTrace env f (limit - start).toNat start found

/-- The function `CrossChain::CheckMoMoM` as in `CheckMoMoM`, with the heights
of the blocks its scan reads. -/
def CheckMoMoMTrace (env : Env) (GetBackNotarisation : uint256 → Option Notarisation)
    (kmdNotarisationHash momom : uint256) : Option Bool × List Int :=
  match GetBackNotarisation kmdNotarisationHash with
  | none => (some false, [])
  | some bn =>
    match env.GetTxConfirmed bn.1 with
    | none => (some false, [])
    | some blockHeight =>
      match ScanNotarisationsFromHeightTrace env (blockHeight - 100)
          (fun nota => nota.2.MoMoM = momom) emptyNotarisation with
      | (none, visited) => (none, visited)
      | (some (h, _), visited) => (some (decide (h ≠ 0)), visited)

/-- The block loop of `CalculateProofRoot` as in `CalculateProofRootLoop`,
recording beside the result the heights `kmdHeight - i` whose block it reads,
in the order of the reads. -/
def CalculateProofRootLoopTrace (env : Env) (symbol : String) (targetCCid : Nat)
    (kmdHeight : Int) : Nat → Int → ScanState → Option (ScanState × Bool) × List Int
  | 0, _, st => (some (st, false), [])
  | n + 1, i, st =>
    if i > kmdHeight then (some (st, false), [])
    else
      match chainAt env.chainActive (kmdHeight - i) with
      | none => (none, [kmdHeight - i])
      | some b =>
        match env.GetBlockNotarisations (env.blocks b).hashBlock with
        | none =>
          ((CalculateProofRootLoopTrace env symbol targetCCid kmdHeight n (i + 1) st).1,
            (kmdHeight - i) ::
              (CalculateProofRootLoopTrace env symbol targetCCid kmdHeight n (i + 1) st).2)
        | some notarisations =>
          match scanOwn symbol notarisations
              (st.seenOwnNotarisations, st.destNotarisationTxid) with
          | ((seen, dest), true) => (some (⟨seen, dest, st.tmp_moms⟩, true), [kmdHeight - i])
          | ((seen, dest), false) =>
            let tmp_moms :=
              if seen ≥ 1 then
                collectMoms (GetSymbolAuthority symbol) targetCCid notarisations st.tmp_moms
              else st.tmp_moms
            ((CalculateProofRootLoopTrace env symbol targetCCid kmdHeight n (i + 1)
                ⟨seen, dest, tmp_moms⟩).1,
              (kmdHeight - i) ::
                (CalculateProofRootLoopTrace env symbol targetCCid kmdHeight n (i + 1)
                  ⟨seen, dest, tmp_moms⟩).2)

/-- The function `CrossChain::CalculateProofRoot` as in `CalculateProofRoot`,
with the heights of the blocks it reads. -/
def CalculateProofRootTrace (env : Env) (symbol : String) (targetCCid : Nat)
    (kmdHeight : Int) (moms : List uint256) (destNotarisationTxid : uint256) :
    Option (uint256 × List uint256 × uint256) × List Int :=
  if targetCCid < 2 then (some (0, moms, destNotarisationTxid), [])
  else if kmdHeight < 0 ∨ kmdHeight > Height env.chainActive then
    (some (0, moms, destNotarisationTxid), [])
  else
    match CalculateProofRootLoopTrace env symbol targetCCid kmdHeight
        NOTARISATION_SCAN_LIMIT_BLOCKS 0 ⟨0, destNotarisationTxid, []⟩ with
    | (none, visited) => (none, visited)
    | (some (_, false), visited) => (some (0, [], 0), visited)
    | (some (st, true), visited) =>
      (some (env.GetMerkleRoot st.tmp_moms, st.tmp_moms, st.destNotarisationTxid), visited)

/-! ## A concrete index, chain and environment

A main chain of heights 0 to 4 (entries 0 to 4) and a side branch leaving it
after height 1 (entries 5 and 6), with the skip pointers `BuildSkip` computes.
Every other address holds an unconnected genesis entry. -/

/-- The example block index. -/
def exampleIndex : BlockMap
  | 0 => ⟨100, none, none, 0⟩
  | 1 => ⟨101, some 0, some 0, 1⟩
  | 2 => ⟨102, some 1, some 0, 2⟩
  | 3 => ⟨103, some 2, some 1, 3⟩
  | 4 => ⟨104, some 3, some 0, 4⟩
  | 5 => ⟨205, some 1, some 0, 2⟩
  | 6 => ⟨206, some 5, some 1, 3⟩
  | _ => ⟨0, none, none, 0⟩

/-- An index of unconnected genesis entries. -/
def exampleGenesis : BlockMap := fun _ => ⟨0, none, none, 0⟩

/-- The example active chain: the main chain up to entry 4. -/
def exampleChain : CChain := [some 0, some 1, some 2, some 3, some 4]

/-- A toy two-to-one digest function. -/
def exampleHash (a b : uint256) : uint256 := 3 * a + 5 * b + 1

/-- A notarisation of the example store. -/
def exampleNota (txid : uint256) (symbol : String) (MoM : uint256) : Notarisation :=
  (txid, ⟨symbol, 2, 0, MoM, 1, 0, txid⟩)

/-- The example environment: block 3 holds one notarisation of chain `B`,
block 2 the notarisation of chain `A` whose MoM is `67`, block 1 six more
notarisations of `B`.  Merkle trees have at most two leaves. -/
def exampleEnv : Env where
  blocks := exampleIndex
  chainActive := exampleChain
  GetBlockNotarisations := fun hash =>
    if hash = 103 then some [exampleNota 31 "B" 50]
    else if hash = 102 then some [exampleNota 21 "A" 67]
    else if hash = 101 then
      some [exampleNota 11 "B" 40, exampleNota 12 "B" 41, exampleNota 13 "B" 42,
            exampleNota 14 "B" 43, exampleNota 15 "B" 44, exampleNota 16 "B" 45]
    else none
  GetTxConfirmed := fun txid => if txid = 21 then some 2 else none
  GetMerkleRoot := fun leaves =>
    match leaves with
    | [] => 0
    | [x] => x
    | x :: y :: _ => exampleHash x y
  GetMerkleBranch := fun leaves nIndex =>
    match leaves, nIndex with
    | [_, y], 0 => [y]
    | [x, _], 1 => [x]
    | _, _ => []
  Exec := fun b hash => CheckMerkleBranch exampleHash hash b.branch b.nIndex
  append := fun a b => ⟨a.nIndex + (b.nIndex <<< a.branch.length), a.branch ++ b.branch⟩

/-- The source proof of the example: transaction `7` with sibling `9` under
the MoM `67`, anchored by the notarisation `21` of chain `A`. -/
def exampleProof : TxProof := (21, ⟨0, [9]⟩)

/-- A second example store on the same chain, in which the MoMs `50` and `67`
each occur twice in the scanned blocks. -/
def exampleEnvDup : Env :=
  { exampleEnv with
    GetBlockNotarisations := fun hash =>
      if hash = 103 then some [exampleNota 31 "B" 50, exampleNota 32 "A" 67]
      else if hash = 102 then some [exampleNota 21 "A" 67, exampleNota 22 "A" 50]
      else if hash = 101 then
        some [exampleNota 11 "B" 40, exampleNota 12 "B" 41, exampleNota 13 "B" 42,
              exampleNota 14 "B" 43, exampleNota 15 "B" 44, exampleNota 16 "B" 45]
      else none }

/-- An example store of approvals of the burn `500`, with transactions named
by their txid.  Transactions 1 to 5 carry a proof that resolves to the header
root and proves the burn; 6 to 8 carry a proof whose extracted root differs
from the header root and that proves nothing; 9 has no payload; the payload
of 10 does not decode; 11 resolves to the header root without proving the
burn; 12 is signed by a key outside the notary set; other txids are not
confirmed.  Transaction `t` is signed by the key `[t]`.  The resolver writes
every slot it leaves in the array. -/
def exampleApprovalEnv : ApprovalEnv Nat where
  GetTxConfirmed := fun txid => if 1 ≤ txid ∧ txid ≤ 12 then some (txid, 10, 1000) else none
  GetOpReturnData := fun tx => if tx = 9 then none else some [tx]
  unmarshalTxOutProof := fun vopret => if vopret = [10] then none else some vopret
  unmarshalMerkleBlock := fun txoutproof =>
    match txoutproof with
    | [tx] =>
      if tx ≤ 5 then some ⟨77, 77, [500]⟩
      else if tx ≤ 8 then some ⟨77, 13, []⟩
      else if tx = 11 then some ⟨77, 77, []⟩
      else if tx = 12 then some ⟨77, 77, [500]⟩
      else none
    | _ => none
  squishy_notaries := fun _ _ _ => (8, [[1], [2], [3], [4], [5], [6], [7], [8]])
  CheckVinPubKey := fun tx n pk => decide (n = 0 ∧ pk = [tx])

/-- An example back-notarisation lookup: the hash `31` resolves to the
transaction `21`, the hash `32` to the unconfirmed transaction `90`. -/
def exampleBackNotarisation (hash : uint256) : Option Notarisation :=
  if hash = 31 then some (exampleNota 21 "B" 0)
  else if hash = 32 then some (exampleNota 90 "B" 0)
  else none

/-- Example tables of three eras ending at the timestamps 100, 200 and 300,
with a gap of 10 and 2, 5 and 11 notaries; every era has the same two first
keys. -/
def exampleTables : StakedTables where
  NUM_STAKED_ERAS := 3
  STAKED_ERA_GAP := 10
  STAKED_NOTARIES_TIMESTAMP := fun i =>
    match i with
    | 0 => 100
    | 1 => 200
    | 2 => 300
    | _ => 0
  num_notaries_STAKED := fun i =>
    match i with
    | 0 => 2
    | 1 => 5
    | 2 => 11
    | _ => 0
  notaries_STAKED := fun _ n =>
    if n = 0 then
      ("alice", "020123456789abcdef0123456789abcdef0123456789abcdef0123456789abcdef")
    else ("bob", "03fedcba9876543210FEDCBA9876543210fedcba9876543210FEDCBA9876543210")

/-- Example tables of two eras whose boundaries lie next to the largest `int`:
the sum of the first boundary and the gap exceeds it. -/
def exampleTablesOverflow : StakedTables where
  NUM_STAKED_ERAS := 2
  STAKED_ERA_GAP := 10
  STAKED_NOTARIES_TIMESTAMP := fun i =>
    match i with
    | 0 => 2147483640
    | 1 => 2147483645
    | _ => 0
  num_notaries_STAKED := fun _ => 2
  notaries_STAKED := exampleTables.notaries_STAKED

/-- An example decoder for `decode_hex`. -/
def exampleDecode (hex : String) : PubKey := (decodeHexPairs hex.data).getD []

/-- An example compressed public key: the byte 2 followed by 32 bytes `b`. -/
def exampleKey (b : Nat) : PubKey := 2 :: List.replicate 32 b

/-- Example tables of two eras, the first up to the timestamp 100 with one
notary, the second from 110 to 200 with five notaries; the keys are the
example keys of the bytes `0x10` and `0x20` to `0x24`. -/
def exampleEraTables : StakedTables where
  NUM_STAKED_ERAS := 2
  STAKED_ERA_GAP := 10
  STAKED_NOTARIES_TIMESTAMP := fun i =>
    match i with
    | 0 => 100
    | 1 => 200
    | _ => 0
  num_notaries_STAKED := fun i =>
    match i with
    | 0 => 1
    | 1 => 5
    | _ => 0
  notaries_STAKED := fun e n =>
    match e, n with
    | 0, 0 => ("n10", "021010101010101010101010101010101010101010101010101010101010101010")
    | 1, 0 => ("n20", "022020202020202020202020202020202020202020202020202020202020202020")
    | 1, 1 => ("n21", "022121212121212121212121212121212121212121212121212121212121212121")
    | 1, 2 => ("n22", "022222222222222222222222222222222222222222222222222222222222222222")
    | 1, 3 => ("n23", "022323232323232323232323232323232323232323232323232323232323232323")
    | 1, 4 => ("n24", "022424242424242424242424242424242424242424242424242424242424242424")
    | _, _ => ("", "")

/-- An example content of the key array `uint8_t notaries_pubkeys[64][33]` at
entry: zero bytes in every slot. -/
def exampleKeyArray : List PubKey := List.replicate 64 (List.replicate 33 0)

/-- An example store of approvals of the burn `500` on a chain with the
example eras, with transactions named by their txid.  Every transaction
carries a proof that resolves to the header root and proves the burn.
Transactions 1 to 4 are confirmed at the block time 150 and signed by the
first four keys of era 2 (bytes `0x20` to `0x23`); transaction 9 is confirmed
at the block time 50 and signed by the fifth key of era 2 (byte `0x24`).  For
`squishy_notaries`, which is not among the sources, the store takes the era of
the block time and the function of the sources that fills a key array of this
type, `numStakedNotaries`; it reports `-1` where that function does not
return. -/
def exampleStaleEnv : ApprovalEnv Nat where
  GetTxConfirmed := fun txid =>
    if 1 ≤ txid ∧ txid ≤ 4 then some (txid, 10, 150)
    else if txid = 9 then some (9, 5, 50)
    else none
  GetOpReturnData := fun tx => some [tx]
  unmarshalTxOutProof := fun vopret => some vopret
  unmarshalMerkleBlock := fun _ => some ⟨77, 77, [500]⟩
  squishy_notaries := fun pubkeys _ timestamp =>
    (numStakedNotaries exampleEraTables exampleDecode pubkeys
      (STAKED_era exampleEraTables timestamp)).getD (-1, pubkeys)
  CheckVinPubKey := fun tx n pk =>
    decide (n = 0 ∧ pk = exampleKey (if tx = 9 then 36 else 31 + tx))

/-- An example pay-to-pubkey script for the key made of 33 bytes `b`. -/
def exampleScript (b : Nat) : Bytes := 33 :: List.replicate 33 b ++ [OP_CHECKSIG]

/-- An example lookup of unconfirmed transactions: transaction `t` (for
`1 ≤ t ≤ 9`) has the single output paying to the key of bytes `t`. -/
def exampleGetTxUnconfirmed (hash : uint256) : Option CTransaction :=
  if 1 ≤ hash ∧ hash ≤ 9 then some ⟨[], [⟨exampleScript hash⟩]⟩ else none

/-- Example collaborators of `CompleteImportTransaction`, with transactions
named by numbers: the import transaction `70` carries the example proof, the
burn transaction `7` towards chain `B` and the payouts `[5]`; the import
transaction `71` carries a burn transaction that does not decode, `72` a proof
that is not a Merkle branch, `73` a proof anchored at an unknown notarisation;
other transactions do not decode. -/
def exampleImportEnv : ImportEnv Nat (Option TxProof) (List Nat) where
  UnmarshalImportTx := fun tx =>
    if tx = 70 then some (some exampleProof, 7, [5])
    else if tx = 71 then some (some exampleProof, 8, [5])
    else if tx = 72 then some (none, 7, [5])
    else if tx = 73 then some (some (99, ⟨0, [9]⟩), 7, [5])
    else none
  UnmarshalBurnTx := fun tx => if tx = 7 then some ("B", 2, 0, []) else none
  IsMerkleBranch := fun proof => proof
  GetHash := fun tx => tx
  ImportProof := fun proof => some proof
  MakeImportCoinTransaction := fun proof burnTx payouts =>
    match proof with
    | some p => 1000 * p.1 + 100 * p.2.nIndex + 10 * burnTx + payouts.length
    | none => 0

/-- The side branch of the example index as active chain: entries 0, 1, 5, 6. -/
def exampleSideChain : CChain := [some 0, some 1, some 5, some 6]

/-- A third example store on the same chain: as `exampleEnv`, but the
notarisation of block 3 carries the MoM `90`, larger than the MoM `67` met in
block 2 after it. -/
def exampleEnvOrder : Env :=
  { exampleEnv with
    GetBlockNotarisations := fun hash =>
      if hash = 103 then some [exampleNota 31 "B" 90]
      else if hash = 102 then some [exampleNota 21 "A" 67]
      else if hash = 101 then
        some [exampleNota 11 "B" 40, exampleNota 12 "B" 41, exampleNota 13 "B" 42,
              exampleNota 14 "B" 43, exampleNota 15 "B" 44, exampleNota 16 "B" 45]
      else none }

/-- An index holding one unbranched chain: entry `i` has height `i`, hash
`1000 + i` and parent `i - 1`. -/
def exampleLongIndex : BlockMap := fun i =>
  ⟨1000 + i, if i = 0 then none else some (i - 1), none, i⟩

/-- An example store on the first 130 entries of the unbranched chain: the
only notarisation sits in block 120 and carries the MoMoM `77`; the
transaction `21` is confirmed in block 101. -/
def exampleLongEnv : Env :=
  { exampleEnv with
    blocks := exampleLongIndex
    chainActive := (List.range 130).map some
    GetBlockNotarisations := fun hash =>
      if hash = 1120 then some [(55, ⟨"B", 2, 0, 0, 1, 77, 55⟩)] else none
    GetTxConfirmed := fun txid => if txid = 21 then some 101 else none }

/-- An example authority of three signers with the keys of bytes 2, 1 and 5,
two of which must sign. -/
def exampleAuthority : CrosschainAuthority :=
  ⟨[List.replicate 33 2, List.replicate 33 1, List.replicate 33 5], 3, 2⟩

/-! ### Arithmetic of skip heights -/

theorem InvertLowestOne_nonneg (n : Int) (h : 0 ≤ n) : 0 ≤ InvertLowestOne n := by
  obtain ⟨k, rfl⟩ := Int.eq_ofNat_of_zero_le h
  unfold InvertLowestOne
  cases k with
  | zero => exact Int.ofNat_nonneg _
  | succ k =>
    have : ((k + 1 : Nat) : Int) - 1 = (k : Nat) := by push_cast; ring
    rw [this]
    exact Int.ofNat_nonneg _

theorem InvertLowestOne_lt (n : Int) (h : 0 < n) : InvertLowestOne n < n := by
  obtain ⟨k, rfl⟩ := Int.eq_ofNat_of_zero_le (le_of_lt h)
  unfold InvertLowestOne
  cases k with
  | zero => exact absurd h (by simp)
  | succ k =>
    have : ((k + 1 : Nat) : Int) - 1 = (k : Nat) := by push_cast; ring
    rw [this]
    show (((k + 1) &&& k : Nat) : Int) < ((k + 1 : Nat) : Int)
    have := @Nat.and_le_right (k + 1) k
    omega

theorem InvertLowestOne_le (n : Int) (h : 0 ≤ n) : InvertLowestOne n ≤ n := by
  rcases eq_or_lt_of_le h with h0 | h0
  · subst h0
    show ((Nat.ldiff 0 0 : Nat) : Int) ≤ 0
    simp [Nat.ldiff]
  · exact le_of_lt (InvertLowestOne_lt n h0)

theorem GetSkipHeight_nonneg (h : Int) : 0 ≤ GetSkipHeight h := by
  unfold GetSkipHeight
  split
  · exact le_refl _
  · split
    · have := InvertLowestOne_nonneg (InvertLowestOne (h - 1))
        (InvertLowestOne_nonneg _ (by omega))
      omega
    · exact InvertLowestOne_nonneg _ (by omega)

theorem GetSkipHeight_lt (h : Int) (hpos : 0 < h) : GetSkipHeight h < h := by
  unfold GetSkipHeight
  split
  · exact hpos
  · split
    · have h1 := InvertLowestOne_lt (h - 1) (by omega)
      have h2 := InvertLowestOne_le (InvertLowestOne (h - 1))
        (InvertLowestOne_nonneg _ (by omega))
      omega
    · exact InvertLowestOne_lt h hpos

/-! ### The naive walk -/

theorem parentWalk_none (m : BlockMap) (n : Nat) : parentWalk m n none = none := by
  cases n <;> rfl

theorem parentWalk_add (m : BlockMap) (a b : Nat) (p : BlockPtr) :
    parentWalk m (a + b) p = parentWalk m b (parentWalk m a p) := by
  induction a generalizing p with
  | zero => simp [parentWalk]
  | succ a ih =>
    cases p with
    | none => simp [parentWalk_none]
    | some i =>
      have : a + 1 + b = (a + b) + 1 := by omega
      rw [this]
      simp only [parentWalk]
      exact ih _

theorem parentWalk_succ (m : BlockMap) (n : Nat) (i : Nat) :
    parentWalk m (n + 1) (some i) = parentWalk m n (m i).pprev := rfl

/-- In a parent-linked index the naive walk of `k` steps from an entry of
height at least `k` reaches an entry exactly `k` lower. -/
theorem parentWalk_height (m : BlockMap) (hpar : ParentLinked m) (k : Nat) (i : Nat)
    (hk : (k : Int) ≤ (m i).nHeight) :
    ∃ a, parentWalk m k (some i) = some a ∧ (m a).nHeight = (m i).nHeight - k := by
  induction k generalizing i with
  | zero => exact ⟨i, rfl, by simp⟩
  | succ k ih =>
    obtain ⟨p, hp, hh⟩ := hpar i (by push_cast at hk; omega)
    obtain ⟨a, ha, hah⟩ := ih p (by push_cast at hk; omega)
    refine ⟨a, ?_, ?_⟩
    · rw [parentWalk_succ, hp]; exact ha
    · push_cast; omega

/-! ### `GetAncestor` against the naive walk -/

theorem GetAncestorLoop_eq (m : BlockMap) (hpar : ParentLinked m) (hskip : SkipLinked m)
    (height : Int) (h0 : 0 ≤ height) :
    ∀ (fuel : Nat) (w : Nat) (heightWalk : Int),
      (m w).nHeight = heightWalk → height ≤ heightWalk → heightWalk.toNat ≤ fuel →
      GetAncestorLoop m height fuel (some w) heightWalk
        = some (parentWalk m (heightWalk - height).toNat (some w)) := by
  intro fuel
  induction fuel with
  | zero =>
    intro w hW hw hle hfuel
    have : hW = height := by omega
    subst this
    simp [GetAncestorLoop, parentWalk]
  | succ fuel ih =>
    intro w hW hw hle hfuel
    unfold GetAncestorLoop
    simp only
    by_cases hgt : hW > height
    · rw [if_pos hgt]
      have hpos : 0 < hW := by omega
      have hsl := GetSkipHeight_lt hW hpos
      have hsn := GetSkipHeight_nonneg hW
      split
      · rename_i hc
        obtain ⟨hne, hcond⟩ := hc
        obtain ⟨s, hs⟩ := Option.ne_none_iff_exists'.mp hne
        have hge : height ≤ GetSkipHeight hW := by
          rcases hcond with h | h
          · omega
          · omega
        have hwalk := hskip w s hs
        rw [hw] at hwalk
        obtain ⟨a, ha, hah⟩ := parentWalk_height m hpar
          (hW - GetSkipHeight hW).toNat w (by rw [hw]; omega)
        rw [hwalk] at ha
        cases ha
        have hsh : (m s).nHeight = GetSkipHeight hW := by rw [hah, hw]; omega
        rw [hs, ih s (GetSkipHeight hW) hsh hge (by omega)]
        have hsplit : (hW - height).toNat
            = (hW - GetSkipHeight hW).toNat + (GetSkipHeight hW - height).toNat := by omega
        rw [hsplit, parentWalk_add, hwalk]
      · obtain ⟨p, hp, hph⟩ := hpar w (by rw [hw]; exact hpos)
        rw [hp]
        simp only
        rw [ih p (hW - 1) (by rw [hph, hw]) (by omega) (by omega)]
        have hsplit : (hW - height).toNat = (hW - 1 - height).toNat + 1 := by omega
        rw [hsplit, parentWalk_succ, hp]
    · rw [if_neg hgt]
      have : hW = height := by omega
      subst this
      simp [parentWalk]

theorem GetAncestor_walk (m : BlockMap) (hpar : ParentLinked m)
    (hskip : SkipLinked m) (e : Nat) (h : Int) (h0 : 0 ≤ h) (h1 : h ≤ (m e).nHeight) :
    GetAncestor m e h = some (parentWalk m ((m e).nHeight - h).toNat (some e)) := by
  unfold GetAncestor
  rw [if_neg (by omega)]
  exact GetAncestorLoop_eq m hpar hskip h h0 _ e _ rfl h1 (le_refl _)

theorem GetAncestor_out_of_range (m : BlockMap) (e : Nat) (h : Int)
    (hr : h < 0 ∨ h > (m e).nHeight) : GetAncestor m e h = some none := by
  unfold GetAncestor
  rw [if_pos (by omega)]

theorem WellFormed.parentLinked {m : BlockMap} (hwf : WellFormed m) : ParentLinked m := by
  intro i hi
  obtain ⟨p, hp⟩ := Option.ne_none_iff_exists'.mp (hwf.has_parent i hi)
  exact ⟨p, hp, hwf.parent_height i p hp⟩

/-- In a well-formed index the ancestor at every height in range exists. -/
theorem WellFormed.ancestor_exists {m : BlockMap} (hwf : WellFormed m) (e : Nat) (h : Int)
    (h0 : 0 ≤ h) (h1 : h ≤ (m e).nHeight) :
    ∃ a, parentWalk m ((m e).nHeight - h).toNat (some e) = some a ∧ (m a).nHeight = h := by
  obtain ⟨a, ha, hh⟩ := parentWalk_height m hwf.parentLinked ((m e).nHeight - h).toNat e
    (by omega)
  exact ⟨a, ha, by rw [hh]; omega⟩

/-- A genesis entry has no parent in a well-formed index. -/
theorem WellFormed.genesis_no_parent {m : BlockMap} (hwf : WellFormed m) (i : Nat)
    (h : (m i).nHeight = 0) : (m i).pprev = none := by
  cases hp : (m i).pprev with
  | none => rfl
  | some p =>
    have h1 := hwf.parent_height i p hp
    have h2 := hwf.height_nonneg p
    omega

/-- The naive walk only reads parent links. -/
theorem parentWalk_congr (m m1 : BlockMap) (hp : ∀ i, (m1 i).pprev = (m i).pprev)
    (k : Nat) (p : BlockPtr) : parentWalk m1 k p = parentWalk m k p := by
  induction k generalizing p with
  | zero => rfl
  | succ k ih =>
    cases p with
    | none => rfl
    | some i => rw [parentWalk_succ, parentWalk_succ, hp, ih]

/-- The heap after `BuildSkip` stored the pointer `r` in entry `e`. -/
theorem WellFormed.set_skip {m : BlockMap} (hwf : WellFormed m) (e s : Nat)
    (hs : parentWalk m ((m e).nHeight - GetSkipHeight (m e).nHeight).toNat (some e) = some s) :
    WellFormed (fun i => if i = e then { m e with pskip := some s } else m i) := by
  have hpp : ∀ i, ((fun i => if i = e then { m e with pskip := some s } else m i) i).pprev
      = (m i).pprev := by
    intro i; by_cases hi : i = e <;> simp [hi]
  have hhh : ∀ i, ((fun i => if i = e then { m e with pskip := some s } else m i) i).nHeight
      = (m i).nHeight := by
    intro i; by_cases hi : i = e <;> simp [hi]
  refine ⟨?_, ?_, ?_, ?_⟩
  · intro i; rw [hhh]; exact hwf.height_nonneg i
  · intro i p hp; rw [hpp] at hp; rw [hhh, hhh]; exact hwf.parent_height i p hp
  · intro i hi; rw [hhh] at hi; rw [hpp]; exact hwf.has_parent i hi
  · intro i t ht
    rw [hhh, parentWalk_congr m _ hpp]
    by_cases hi : i = e
    · subst hi
      simp at ht
      rw [← ht]; exact hs
    · simp [hi] at ht
      exact hwf.skip_linked i t ht

/-- What `BuildSkip` does on an entry with a parent in a well-formed index. -/
theorem BuildSkip_with_parent (m : BlockMap) (hwf : WellFormed m) (e p : Nat)
    (hp : (m e).pprev = some p) :
    ∃ s, parentWalk m ((m e).nHeight - GetSkipHeight (m e).nHeight).toNat (some e) = some s ∧
      GetAncestor m p (GetSkipHeight (m e).nHeight) = some (some s) ∧
      BuildSkip m e = some (fun i => if i = e then { m e with pskip := some s } else m i) := by
  have hph := hwf.parent_height e p hp
  have hpn := hwf.height_nonneg p
  have hlt := GetSkipHeight_lt (m e).nHeight (by omega)
  have hnn := GetSkipHeight_nonneg (m e).nHeight
  obtain ⟨s, hs, _⟩ := hwf.ancestor_exists p (GetSkipHeight (m e).nHeight) hnn (by omega)
  have hga := GetAncestor_walk m hwf.parentLinked hwf.skip_linked p
    (GetSkipHeight (m e).nHeight) hnn (by omega)
  rw [hs] at hga
  have hsplit : ((m e).nHeight - GetSkipHeight (m e).nHeight).toNat
      = ((m p).nHeight - GetSkipHeight (m e).nHeight).toNat + 1 := by omega
  refine ⟨s, ?_, hga, ?_⟩
  · rw [hsplit, parentWalk_succ, hp]; exact hs
  · unfold BuildSkip
    rw [hp]
    simp only
    rw [hga]

theorem WellFormed.attachBlock {m : BlockMap} (hwf : WellFormed m) (a p : Nat) (hash : uint256)
    (hap : a ≠ p) (hfresh : ∀ i, (m i).pprev ≠ some a ∧ (m i).pskip ≠ some a) :
    WellFormed (attachBlock m a p hash) := by
  have hne : ∀ i, i ≠ a → SquishyCoin.attachBlock m a p hash i = m i := by
    intro i hi; simp [SquishyCoin.attachBlock, hi]
  have hat : SquishyCoin.attachBlock m a p hash a
      = { hashBlock := hash, pprev := some p, pskip := none, nHeight := (m p).nHeight + 1 } := by
    simp [SquishyCoin.attachBlock]
  have hwalk : ∀ k i, i ≠ a →
      parentWalk (SquishyCoin.attachBlock m a p hash) k (some i) = parentWalk m k (some i) := by
    intro k
    induction k with
    | zero => intro i _; rfl
    | succ k ih =>
      intro i hi
      rw [parentWalk_succ, parentWalk_succ, hne i hi]
      cases hq : (m i).pprev with
      | none => simp [parentWalk_none]
      | some q =>
        have : q ≠ a := by
          intro h; subst h; exact (hfresh i).1 hq
        exact ih q this
  refine ⟨?_, ?_, ?_, ?_⟩
  · intro i
    by_cases hi : i = a
    · subst hi; rw [hat]; have := hwf.height_nonneg p; simp; omega
    · rw [hne i hi]; exact hwf.height_nonneg i
  · intro i q hq
    by_cases hi : i = a
    · subst hi
      rw [hat] at hq
      simp at hq
      subst hq
      rw [hne p (Ne.symm hap), hat]
      simp
    · rw [hne i hi] at hq
      have hqa : q ≠ a := by
        intro h; subst h; exact (hfresh i).1 hq
      rw [hne i hi, hne q hqa]
      exact hwf.parent_height i q hq
  · intro i hi
    by_cases hia : i = a
    · subst hia; rw [hat]; simp
    · rw [hne i hia] at hi ⊢; exact hwf.has_parent i hi
  · intro i s hs
    by_cases hia : i = a
    · subst hia; rw [hat] at hs; simp at hs
    · rw [hne i hia] at hs ⊢
      rw [hwalk _ i hia]
      exact hwf.skip_linked i s hs

/-- Every index built from genesis with `BuildSkip` is well-formed. -/
theorem Built.wellFormed {m : BlockMap} (hb : Built m) : WellFormed m := by
  induction hb with
  | genesis hash =>
    refine ⟨?_, ?_, ?_, ?_⟩
    · intro i; simp
    · intro i p hp; simp at hp
    · intro i hi; simp at hi
    · intro i s hs; simp at hs
  | attach m m1 a p hash _ hap hfresh hbs ih =>
    have hwa := ih.attachBlock a p hash hap hfresh
    have hpp : (attachBlock m a p hash a).pprev = some p := by simp [attachBlock]
    obtain ⟨s, hs, _, hb⟩ := BuildSkip_with_parent _ hwa a p hpp
    rw [hb] at hbs
    cases hbs
    exact hwa.set_skip a s hs

/-! ### `SetTip` -/

theorem resize_length (v : CChain) (n : Nat) : (resize v n).length = n := by
  simp [resize, List.length_take]
  omega

theorem resize_getElem? (v : CChain) (n j : Nat) (h : j < n) :
    (resize v n)[j]? = if j < v.length then v[j]? else some none := by
  simp only [resize, List.getElem?_append, List.getElem?_take, List.getElem?_replicate,
    List.length_take]
  split_ifs <;> first | rfl | omega

/-- In a consistent chain the slots below a slot hold the parents of its entry. -/
theorem Consistent.walk {m : BlockMap} {v : CChain} (hc : Consistent m v) :
    ∀ (d k a : Nat), k < v.length → v[k]? = some (some a) → d ≤ k →
      v[k - d]? = some (parentWalk m d (some a)) := by
  intro d
  induction d with
  | zero => intro k a _ hk _; simpa [parentWalk] using hk
  | succ d ih =>
    intro k a hlt hk hd
    obtain ⟨i, hi, _, hprev⟩ := hc k hlt
    rw [hk] at hi
    cases hi
    have hp := hprev (by omega)
    obtain ⟨j, hj, _, _⟩ := hc (k - 1) (by omega)
    rw [hp] at hj
    have hpj : (m a).pprev = some j := Option.some.inj hj
    have := ih (k - 1) j (by omega) (by rw [hp, hpj]) (by omega)
    rw [parentWalk_succ, hpj, ← this]
    congr 1
    omega

theorem SetTipLoop_spec (m : BlockMap) (hwf : WellFormed m) (v : CChain)
    (hc : Consistent m v) (e H : Nat) :
    ∀ (k fuel : Nat) (w : CChain) (a : Nat), k + 1 ≤ fuel → k ≤ H →
      parentWalk m (H - k) (some e) = some a → (m a).nHeight = (k : Int) →
      w.length = H + 1 →
      (∀ j, k < j → j ≤ H → w[j]? = some (parentWalk m (H - j) (some e))) →
      (∀ j, j ≤ k → w[j]? = (resize v (H + 1))[j]?) →
      ∃ w1, SetTipLoop m fuel w (some a) = some w1 ∧ w1.length = H + 1 ∧
        ∀ j, j ≤ H → w1[j]? = some (parentWalk m (H - j) (some e)) := by
  intro k
  induction k with
  | zero =>
    intro fuel w a hfuel hkH ha hah hlen habove hbelow
    obtain ⟨f, rfl⟩ : ∃ f, fuel = f + 1 := ⟨fuel - 1, by omega⟩
    have hslot := hbelow 0 (le_refl _)
    rw [resize_getElem? v (H + 1) 0 (by omega)] at hslot
    have hdone : ∃ w1, SetTipLoop m f (w.set 0 (some a)) (m a).pprev = some w1 ∧
        w1.length = H + 1 ∧
        ∀ j, j ≤ H → w1[j]? = some (parentWalk m (H - j) (some e)) := by
      rw [hwf.genesis_no_parent a (by simpa using hah)]
      refine ⟨w.set 0 (some a), by cases f <;> rfl, by simp [hlen], ?_⟩
      intro j hj
      by_cases hj0 : j = 0
      · subst hj0; rw [List.getElem?_set_self (by omega), ← ha]
      · rw [List.getElem?_set_ne (by omega)]; exact habove j (by omega) hj
    rw [SetTipLoop, hah]
    rw [if_neg (by simp)]
    simp only [Int.toNat_ofNat, Nat.cast_zero, Int.toNat_zero]
    by_cases hv : 0 < v.length
    · rw [if_pos hv] at hslot
      obtain ⟨i, hi, _, _⟩ := hc 0 hv
      rw [hi] at hslot
      rw [hslot]
      simp only
      by_cases hia : i = a
      · subst hia
        rw [if_neg (by simp)]
        refine ⟨w, rfl, hlen, ?_⟩
        intro j hj
        by_cases hj0 : j = 0
        · subst hj0; rw [hslot, ← ha]
        · exact habove j (by omega) hj
      · rw [if_pos (by simpa using hia)]
        exact hdone
    · rw [if_neg hv] at hslot
      rw [hslot]
      simp only
      rw [if_pos (by simp)]
      exact hdone
  | succ k ih =>
    intro fuel w a hfuel hkH ha hah hlen habove hbelow
    obtain ⟨f, rfl⟩ : ∃ f, fuel = f + 1 := ⟨fuel - 1, by omega⟩
    have hslot := hbelow (k + 1) (le_refl _)
    rw [resize_getElem? v (H + 1) (k + 1) (by omega)] at hslot
    obtain ⟨p, hp⟩ := Option.ne_none_iff_exists'.mp (hwf.has_parent a (by rw [hah]; omega))
    have hph : (m p).nHeight = (k : Int) := by
      rw [hwf.parent_height a p hp, hah]; push_cast; omega
    have hwp : parentWalk m (H - k) (some e) = some p := by
      have : H - k = (H - (k + 1)) + 1 := by omega
      rw [this, parentWalk_add, ha]
      simp [parentWalk, hp]
    have hcont : ∃ w1, SetTipLoop m f (w.set (k + 1) (some a)) (m a).pprev = some w1 ∧
          w1.length = H + 1 ∧
          ∀ j, j ≤ H → w1[j]? = some (parentWalk m (H - j) (some e)) := by
      rw [hp]
      refine ih f (w.set (k + 1) (some a)) p (by omega) (by omega) hwp hph
        (by simp [hlen]) ?_ ?_
      · intro j hj hjH
        by_cases hjk : j = k + 1
        · subst hjk; rw [List.getElem?_set_self (by omega), ← ha]
        · rw [List.getElem?_set_ne (by omega)]; exact habove j (by omega) hjH
      · intro j hj
        rw [List.getElem?_set_ne (by omega)]; exact hbelow j (by omega)
    rw [SetTipLoop, hah]
    rw [if_neg (by omega)]
    simp only [Int.toNat_ofNat]
    by_cases hv : k + 1 < v.length
    · rw [if_pos hv] at hslot
      obtain ⟨i, hi, _, _⟩ := hc (k + 1) hv
      rw [hi] at hslot
      rw [hslot]
      simp only
      by_cases hia : i = a
      · subst hia
        rw [if_neg (by simp)]
        refine ⟨w, rfl, hlen, ?_⟩
        intro j hj
        by_cases hjk : j ≤ k + 1
        · rw [hbelow j hjk, resize_getElem? v (H + 1) j (by omega), if_pos (by omega)]
          have := hc.walk (k + 1 - j) (k + 1) i hv hi (by omega)
          have hidx : k + 1 - (k + 1 - j) = j := by omega
          rw [hidx] at this
          rw [this]
          have hsplit : H - j = (H - (k + 1)) + (k + 1 - j) := by omega
          rw [hsplit, parentWalk_add, ha]
        · exact habove j (by omega) hj
      · rw [if_pos (by simpa using hia)]
        exact hcont
    · rw [if_neg hv] at hslot
      rw [hslot]
      simp only
      rw [if_pos (by simp)]
      exact hcont

/-- The result of `SetTip` on a non-null entry of a well-formed index. -/
theorem SetTip_spec (m : BlockMap) (hwf : WellFormed m) (v : CChain) (hc : Consistent m v)
    (e : Nat) :
    ∃ v1, SetTip m v (some e) = some v1 ∧ (v1.length : Int) = (m e).nHeight + 1 ∧
      (∀ h : Nat, (h : Int) ≤ (m e).nHeight →
        v1[h]? = some (parentWalk m ((m e).nHeight - h).toNat (some e))) := by
  obtain ⟨H, hH⟩ := Int.eq_ofNat_of_zero_le (hwf.height_nonneg e)
  have hfuel : ((m e).nHeight + 1).toNat = H + 1 := by omega
  obtain ⟨w1, hw1, hlen, hall⟩ := SetTipLoop_spec m hwf v hc e H H (H + 1)
    (resize v (H + 1)) e (le_refl _) (le_refl _) (by simp [parentWalk]) hH
    (resize_length v (H + 1)) (fun j h1 h2 => by omega) (fun j _ => rfl)
  refine ⟨w1, ?_, ?_, ?_⟩
  · unfold SetTip
    simp only
    rw [if_neg (by omega), hfuel]
    exact hw1
  · rw [hlen, hH]; push_cast; rfl
  · intro h hh
    have : ((m e).nHeight - h).toNat = H - h := by omega
    rw [this]
    exact hall h (by omega)

/-- A chain whose slots hold the ancestors of `e` by height is consistent. -/
theorem Consistent.of_ancestors (m : BlockMap) (hwf : WellFormed m) (e : Nat) (v1 : CChain)
    (hlen : (v1.length : Int) = (m e).nHeight + 1)
    (hall : ∀ h : Nat, (h : Int) ≤ (m e).nHeight →
      v1[h]? = some (parentWalk m ((m e).nHeight - h).toNat (some e))) :
    Consistent m v1 := by
  intro h hh
  have hle : (h : Int) ≤ (m e).nHeight := by omega
  obtain ⟨a, ha, hah⟩ := hwf.ancestor_exists e h (by omega) hle
  refine ⟨a, by rw [hall h hle, ha], hah, ?_⟩
  intro hpos
  rw [hall (h - 1) (by omega)]
  have hsplit : ((m e).nHeight - ((h - 1 : Nat) : Int)).toNat
      = ((m e).nHeight - h).toNat + 1 := by omega
  rw [hsplit, parentWalk_add, ha]
  simp [parentWalk]

/-! ### `FindFork` -/

/-- Heights along the naive walk in a well-formed index. -/
theorem WellFormed.walk_height {m : BlockMap} (hwf : WellFormed m) :
    ∀ (d e q : Nat), parentWalk m d (some e) = some q →
      (m q).nHeight = (m e).nHeight - d := by
  intro d
  induction d with
  | zero => intro e q h; simp [parentWalk] at h; subst h; simp
  | succ d ih =>
    intro e q h
    rw [parentWalk_succ] at h
    cases hp : (m e).pprev with
    | none => rw [hp, parentWalk_none] at h; cases h
    | some p =>
      rw [hp] at h
      rw [ih p q h, hwf.parent_height e p hp]
      push_cast; omega

theorem chainAt_some_lt (v : CChain) (h : Int) (q : Nat) (hq : chainAt v h = some q) :
    0 ≤ h ∧ h < v.length := by
  unfold chainAt at hq
  split at hq
  · cases hq
  · omega

theorem Contains_height_le (m : BlockMap) (v : CChain) (q : Nat)
    (hq : Contains m v q = true) : (m q).nHeight ≤ Height v := by
  unfold Contains at hq
  have := chainAt_some_lt v _ q (by simpa using hq)
  unfold Height
  omega

theorem FindForkLoop_spec (m : BlockMap) (hwf : WellFormed m) (v : CChain) :
    ∀ (fuel a : Nat), (m a).nHeight + 1 ≤ fuel →
      ∃ r, FindForkLoop m v fuel (some a) = some r ∧
        (∀ p, r = some p → ∃ d, parentWalk m d (some a) = some p ∧ Contains m v p = true ∧
          ∀ d1 q, d1 < d → parentWalk m d1 (some a) = some q → Contains m v q = false) ∧
        (r = none → ∀ d q, parentWalk m d (some a) = some q → Contains m v q = false) := by
  intro fuel
  induction fuel with
  | zero =>
    intro a ha
    have := hwf.height_nonneg a
    omega
  | succ fuel ih =>
    intro a ha
    rw [FindForkLoop]
    by_cases hc : Contains m v a = true
    · rw [if_pos hc]
      refine ⟨some a, rfl, ?_, ?_⟩
      · intro p hp
        cases hp
        exact ⟨0, rfl, hc, fun d1 q h _ => by omega⟩
      · intro h; cases h
    · rw [if_neg hc]
      have hcf : Contains m v a = false := by simpa using hc
      cases hp : (m a).pprev with
      | none =>
        refine ⟨none, by cases fuel <;> rfl, ?_, ?_⟩
        · intro p h; cases h
        · intro _ d q hq
          cases d with
          | zero => simp [parentWalk] at hq; subst hq; exact hcf
          | succ d => rw [parentWalk_succ, hp, parentWalk_none] at hq; cases hq
      | some p =>
        have hph := hwf.parent_height a p hp
        obtain ⟨r, hr, hsome, hnone⟩ := ih p (by omega)
        refine ⟨r, hr, ?_, ?_⟩
        · intro x hx
          obtain ⟨d, hd, hcx, hmin⟩ := hsome x hx
          refine ⟨d + 1, by rw [parentWalk_succ, hp]; exact hd, hcx, ?_⟩
          intro d1 q hd1 hq
          cases d1 with
          | zero => simp [parentWalk] at hq; subst hq; exact hcf
          | succ d1 =>
            rw [parentWalk_succ, hp] at hq
            exact hmin d1 q (by omega) hq
        · intro hrn d q hq
          cases d with
          | zero => simp [parentWalk] at hq; subst hq; exact hcf
          | succ d =>
            rw [parentWalk_succ, hp] at hq
            exact hnone hrn d q hq

/-- What `FindFork` returns on a non-null entry of a well-formed index. -/
theorem FindFork_spec (m : BlockMap) (hwf : WellFormed m) (v : CChain) (e : Nat) :
    ∃ r, FindFork m v (some e) = some r ∧
      (∀ p, r = some p → (∃ d, parentWalk m d (some e) = some p) ∧ Contains m v p = true ∧
        ∀ q d, parentWalk m d (some e) = some q → Contains m v q = true →
          (m q).nHeight ≤ (m p).nHeight) ∧
      (r = none → ∀ q d, parentWalk m d (some e) = some q → Contains m v q = false) := by
  have hnn := hwf.height_nonneg e
  by_cases hgt : (m e).nHeight > Height v
  · -- the entry is above the active chain: clamp to the chain height first
    by_cases hempty : Height v < 0
    · have hga := GetAncestor_out_of_range m e (Height v) (Or.inl hempty)
      refine ⟨none, ?_, (fun p h => by cases h), ?_⟩
      · simp only [FindFork]
        rw [if_pos hgt, hga]
        simp [FindForkLoop]
      · intro _ q d _
        by_contra hq
        have := Contains_height_le m v q (by simpa using hq)
        have := hwf.height_nonneg q
        omega
    · have h0 : 0 ≤ Height v := by omega
      obtain ⟨a, ha, hah⟩ := hwf.ancestor_exists e (Height v) h0 (le_of_lt hgt)
      have hga := GetAncestor_walk m hwf.parentLinked hwf.skip_linked e (Height v) h0
        (le_of_lt hgt)
      rw [ha] at hga
      obtain ⟨r, hr, hsome, hnone⟩ := FindForkLoop_spec m hwf v
        ((m e).nHeight + 1).toNat a (by omega)
      have habove : ∀ q d, parentWalk m d (some e) = some q → Contains m v q = true →
          ((m e).nHeight - Height v).toNat ≤ d := by
        intro q d hq hcq
        have h1 := hwf.walk_height d e q hq
        have h2 := Contains_height_le m v q hcq
        omega
      have hshift : ∀ q d, parentWalk m d (some e) = some q → Contains m v q = true →
          parentWalk m (d - ((m e).nHeight - Height v).toNat) (some a) = some q := by
        intro q d hq hcq
        have hle := habove q d hq hcq
        rw [← ha, ← parentWalk_add]
        have : ((m e).nHeight - Height v).toNat + (d - ((m e).nHeight - Height v).toNat) = d := by
          omega
        rw [this]; exact hq
      refine ⟨r, ?_, ?_, ?_⟩
      · simp only [FindFork]
        rw [if_pos hgt, hga]
        exact hr
      · intro p hp
        obtain ⟨d, hd, hcp, hmin⟩ := hsome p hp
        refine ⟨⟨((m e).nHeight - Height v).toNat + d, ?_⟩, hcp, ?_⟩
        · rw [parentWalk_add, ha]; exact hd
        · intro q d1 hq hcq
          have hq1 := hshift q d1 hq hcq
          have hle := habove q d1 hq hcq
          have hge : d ≤ d1 - ((m e).nHeight - Height v).toNat := by
            by_contra hlt
            have := hmin _ q (by omega) hq1
            rw [this] at hcq
            cases hcq
          have h1 := hwf.walk_height d1 e q hq
          have h2 := hwf.walk_height d a p hd
          omega
      · intro hrn q d hq
        by_contra hcq
        have hcq1 : Contains m v q = true := by simpa using hcq
        have := hnone hrn _ q (hshift q d hq hcq1)
        rw [this] at hcq1
        cases hcq1
  · obtain ⟨r, hr, hsome, hnone⟩ := FindForkLoop_spec m hwf v
      ((m e).nHeight + 1).toNat e (by omega)
    refine ⟨r, ?_, ?_, fun hrn q d hq => hnone hrn d q hq⟩
    · simp only [FindFork]
      rw [if_neg hgt]
      exact hr
    · intro p hp
      obtain ⟨d, hd, hcp, hmin⟩ := hsome p hp
      refine ⟨⟨d, hd⟩, hcp, ?_⟩
      intro q d1 hq hcq
      have hge : d ≤ d1 := by
        by_contra hlt
        have := hmin d1 q (by omega) hq
        rw [this] at hcq
        cases hcq
      have h1 := hwf.walk_height d1 e q hq
      have h2 := hwf.walk_height d e p hd
      omega

/-! ### `GetLocator` -/

theorem GetLocatorLoop_genesis (m : BlockMap) (v : CChain) (fuel i : Nat) (nStep : Int)
    (vHave : List uint256) (h0 : (m i).nHeight = 0) :
    GetLocatorLoop m v (fuel + 1) (some i) nStep vHave = some (vHave ++ [(m i).hashBlock]) := by
  rw [GetLocatorLoop]
  simp [h0]

/-- The active chain slot read by `GetLocator` for a member of a consistent
chain is the ancestor at that height. -/
theorem Consistent.chainAt_walk {m : BlockMap} {v : CChain} (hc : Consistent m v) (i : Nat)
    (hi : Contains m v i = true) (h : Int) (h0 : 0 ≤ h) (h1 : h ≤ (m i).nHeight) :
    chainAt v h = parentWalk m ((m i).nHeight - h).toNat (some i) := by
  unfold Contains at hi
  have hci : chainAt v (m i).nHeight = some i := by simpa using hi
  obtain ⟨hlo, hhi⟩ := chainAt_some_lt v _ i hci
  have hslot : v[(m i).nHeight.toNat]? = some (some i) := by
    unfold chainAt at hci
    rw [if_neg (by omega)] at hci
    cases hs : v[(m i).nHeight.toNat]? with
    | none =>
      have := List.getElem?_eq_none_iff.mp hs
      omega
    | some slot => rw [hs] at hci; simp at hci; rw [hci]
  have hw := hc.walk ((m i).nHeight - h).toNat (m i).nHeight.toNat i (by omega) hslot (by omega)
  have hidx : (m i).nHeight.toNat - ((m i).nHeight - h).toNat = h.toNat := by omega
  rw [hidx] at hw
  unfold chainAt
  rw [if_neg (by omega), hw]
  rfl

/-- One iteration of the `GetLocator` loop above genesis moves to the
ancestor at height `max(nHeight - nStep, 0)`. -/
theorem GetLocatorLoop_step (m : BlockMap) (hwf : WellFormed m) (v : CChain)
    (hc : Consistent m v) (fuel i : Nat) (nStep : Int) (vHave : List uint256)
    (hpos : (m i).nHeight ≠ 0) (hstep : 0 ≤ nStep) :
    ∃ j, parentWalk m ((m i).nHeight - max ((m i).nHeight - nStep) 0).toNat (some i) = some j ∧
      (m j).nHeight = max ((m i).nHeight - nStep) 0 ∧
      GetLocatorLoop m v (fuel + 1) (some i) nStep vHave
        = GetLocatorLoop m v fuel (some j)
            (if (vHave ++ [(m i).hashBlock]).length > 10 then nStep * 2 else nStep)
            (vHave ++ [(m i).hashBlock]) := by
  have hnn := hwf.height_nonneg i
  have h0 : 0 ≤ max ((m i).nHeight - nStep) 0 := le_max_right _ _
  have h1 : max ((m i).nHeight - nStep) 0 ≤ (m i).nHeight := by
    rcases max_cases ((m i).nHeight - nStep) 0 with h | h <;> omega
  obtain ⟨j, hj, hjh⟩ := hwf.ancestor_exists i _ h0 h1
  refine ⟨j, hj, hjh, ?_⟩
  rw [GetLocatorLoop]
  simp only [if_neg hpos]
  by_cases hci : Contains m v i = true
  · rw [if_pos hci, hc.chainAt_walk i hci _ h0 h1, hj]
  · rw [if_neg hci, GetAncestor_walk m hwf.parentLinked hwf.skip_linked i _ h0 h1, hj]

theorem GetLocatorLoop_spec (m : BlockMap) (hwf : WellFormed m) (v : CChain)
    (hc : Consistent m v) :
    ∀ (fuel i : Nat) (nStep : Int) (vHave : List uint256), 1 ≤ nStep →
      (m i).nHeight + 1 ≤ fuel →
      ∃ ids : List Nat,
        GetLocatorLoop m v fuel (some i) nStep vHave
          = some (vHave ++ ids.map (fun a => (m a).hashBlock)) ∧
        ids.head? = some i ∧
        (∀ a ∈ ids, ∃ d, parentWalk m d (some i) = some a) ∧
        ids.Pairwise (fun a b => (m a).nHeight > (m b).nHeight) ∧
        ∃ g, ids.getLast? = some g ∧ (m g).nHeight = 0 := by
  intro fuel
  induction fuel with
  | zero =>
    intro i _ _ _ hf
    have := hwf.height_nonneg i
    omega
  | succ fuel ih =>
    intro i nStep vHave hstep hf
    by_cases h0 : (m i).nHeight = 0
    · refine ⟨[i], ?_, rfl, ?_, by simp, i, rfl, h0⟩
      · rw [GetLocatorLoop_genesis m v fuel i nStep vHave h0]; rfl
      · intro a ha
        simp at ha
        subst ha
        exact ⟨0, rfl⟩
    · obtain ⟨j, hj, hjh, heq⟩ := GetLocatorLoop_step m hwf v hc fuel i nStep vHave h0
        (by omega)
      have hnn := hwf.height_nonneg i
      have hlt : (m j).nHeight < (m i).nHeight := by
        rw [hjh]
        rcases max_cases ((m i).nHeight - nStep) 0 with h | h <;> omega
      obtain ⟨ids, hids, hhead, hanc, hpair, g, hg, hg0⟩ := ih j
        (if (vHave ++ [(m i).hashBlock]).length > 10 then nStep * 2 else nStep)
        (vHave ++ [(m i).hashBlock]) (by split <;> omega) (by omega)
      refine ⟨i :: ids, ?_, rfl, ?_, ?_, g, ?_, hg0⟩
      · rw [heq, hids]
        simp
      · intro a ha
        rcases List.mem_cons.mp ha with h | h
        · subst h; exact ⟨0, rfl⟩
        · obtain ⟨d, hd⟩ := hanc a h
          refine ⟨((m i).nHeight - max ((m i).nHeight - nStep) 0).toNat + d, ?_⟩
          rw [parentWalk_add, hj]; exact hd
      · refine List.Pairwise.cons ?_ hpair
        intro a ha
        obtain ⟨d, hd⟩ := hanc a ha
        have := hwf.walk_height d j a hd
        omega
      · cases ids with
        | nil => simp at hhead
        | cons x xs => rw [List.getLast?_cons_cons]; exact hg

/-- The number of hashes added once the step doubles (ten or more hashes
collected): from height at most `nStep * 2^k - nStep` at most `k + 1`. -/
theorem GetLocatorLoop_length_doubling (m : BlockMap) (hwf : WellFormed m) (v : CChain)
    (hc : Consistent m v) :
    ∀ (k fuel i : Nat) (nStep : Int) (vHave : List uint256), 1 ≤ nStep →
      (m i).nHeight + 1 ≤ fuel → 10 ≤ vHave.length →
      (m i).nHeight + nStep ≤ nStep * 2 ^ k →
      ∃ out, GetLocatorLoop m v fuel (some i) nStep vHave = some out ∧
        out.length ≤ vHave.length + k + 1 := by
  intro k
  induction k with
  | zero =>
    intro fuel i nStep vHave hstep hf _ hb
    have hnn := hwf.height_nonneg i
    have h0 : (m i).nHeight = 0 := by simp at hb; omega
    obtain ⟨f, rfl⟩ : ∃ f, fuel = f + 1 := ⟨fuel - 1, by omega⟩
    exact ⟨_, GetLocatorLoop_genesis m v f i nStep vHave h0, by simp⟩
  | succ k ih =>
    intro fuel i nStep vHave hstep hf hlen hb
    have hnn := hwf.height_nonneg i
    obtain ⟨f, rfl⟩ : ∃ f, fuel = f + 1 := ⟨fuel - 1, by omega⟩
    by_cases h0 : (m i).nHeight = 0
    · exact ⟨_, GetLocatorLoop_genesis m v f i nStep vHave h0, by simp⟩
    · obtain ⟨j, _, hjh, heq⟩ := GetLocatorLoop_step m hwf v hc f i nStep vHave h0
        (by omega)
      have hlen1 : (vHave ++ [(m i).hashBlock]).length > 10 := by simp; omega
      rw [if_pos hlen1] at heq
      have hpow : (1 : Int) ≤ 2 ^ k := one_le_pow₀ (by norm_num)
      have hmul : nStep ≤ nStep * 2 ^ k := le_mul_of_one_le_right (by omega) hpow
      have hB : nStep * 2 ^ (k + 1) = nStep * 2 * 2 ^ k := by ring
      have hB2 : nStep * 2 * 2 ^ k = 2 * (nStep * 2 ^ k) := by ring
      obtain ⟨out, hout, hol⟩ := ih f j (nStep * 2) (vHave ++ [(m i).hashBlock])
        (by omega)
        (by rw [hjh]; rcases max_cases ((m i).nHeight - nStep) 0 with h | h <;> omega)
        (by simp; omega)
        (by rw [hjh]; rcases max_cases ((m i).nHeight - nStep) 0 with h | h <;> omega)
      refine ⟨out, by rw [heq]; exact hout, ?_⟩
      simp at hol
      omega

/-- The number of hashes added while the step is still 1 (`d` more hashes
until the tenth). -/
theorem GetLocatorLoop_length_unit (m : BlockMap) (hwf : WellFormed m) (v : CChain)
    (hc : Consistent m v) (k : Nat) :
    ∀ (d fuel i : Nat) (vHave : List uint256),
      (m i).nHeight + 1 ≤ fuel → vHave.length + d = 10 →
      (m i).nHeight + 1 ≤ d + 2 ^ k →
      ∃ out, GetLocatorLoop m v fuel (some i) 1 vHave = some out ∧
        out.length ≤ vHave.length + d + k + 1 := by
  intro d
  induction d with
  | zero =>
    intro fuel i vHave hf hlen hb
    obtain ⟨out, hout, hol⟩ := GetLocatorLoop_length_doubling m hwf v hc k fuel i 1 vHave
      (le_refl _) hf (by omega) (by push_cast at hb; omega)
    exact ⟨out, hout, by omega⟩
  | succ d ih =>
    intro fuel i vHave hf hlen hb
    have hnn := hwf.height_nonneg i
    obtain ⟨f, rfl⟩ : ∃ f, fuel = f + 1 := ⟨fuel - 1, by omega⟩
    by_cases h0 : (m i).nHeight = 0
    · exact ⟨_, GetLocatorLoop_genesis m v f i 1 vHave h0, by simp; omega⟩
    · obtain ⟨j, _, hjh, heq⟩ := GetLocatorLoop_step m hwf v hc f i 1 vHave h0 (by omega)
      have hlen1 : ¬ (vHave ++ [(m i).hashBlock]).length > 10 := by simp; omega
      rw [if_neg hlen1] at heq
      have hjh1 : (m j).nHeight = (m i).nHeight - 1 := by
        rw [hjh]; rcases max_cases ((m i).nHeight - 1) 0 with h | h <;> omega
      obtain ⟨out, hout, hol⟩ := ih f j (vHave ++ [(m i).hashBlock])
        (by omega) (by simp; omega) (by push_cast at hb ⊢; omega)
      refine ⟨out, by rw [heq]; exact hout, ?_⟩
      simp at hol
      omega

/-! ### `CalculateProofRoot` and `GetCrossChainProof` -/

theorem scanOwn_no_match (symbol : String) (ns : List Notarisation) (st : Int × uint256)
    (hno : ∀ nota ∈ ns, nota.2.symbol ≠ symbol) : scanOwn symbol ns st = (st, false) := by
  induction ns generalizing st with
  | nil => rfl
  | cons nota rest ih =>
    obtain ⟨seen, dest⟩ := st
    rw [scanOwn, if_neg (hno nota (List.mem_cons_self _ _))]
    exact ih _ (fun x hx => hno x (List.mem_cons_of_mem _ hx))

/-- Without a notarisation of the requested symbol in the scanned blocks the
block loop of `CalculateProofRoot` runs to its end with its state unchanged. -/
theorem CalculateProofRootLoop_no_match (env : Env) (symbol : String) (targetCCid : Nat)
    (kmdHeight : Int)
    (hno : ∀ i : Int, 0 ≤ i → i ≤ kmdHeight → i < NOTARISATION_SCAN_LIMIT_BLOCKS →
      ∃ b, chainAt env.chainActive (kmdHeight - i) = some b ∧
        ∀ ns, env.GetBlockNotarisations (env.blocks b).hashBlock = some ns →
          ∀ nota ∈ ns, nota.2.symbol ≠ symbol) :
    ∀ (n : Nat) (i : Int) (st : ScanState), 0 ≤ i →
      i + n ≤ NOTARISATION_SCAN_LIMIT_BLOCKS → st.seenOwnNotarisations = 0 →
      CalculateProofRootLoop env symbol targetCCid kmdHeight n i st = some (st, false) := by
  intro n
  induction n with
  | zero => intro i st _ _ _; rfl
  | succ n ih =>
    intro i st hi hn hseen
    rw [CalculateProofRootLoop]
    by_cases hgt : i > kmdHeight
    · rw [if_pos hgt]
    · rw [if_neg hgt]
      obtain ⟨b, hb, hns⟩ := hno i hi (by omega) (by push_cast at hn; omega)
      rw [hb]
      simp only
      cases hg : env.GetBlockNotarisations (env.blocks b).hashBlock with
      | none => exact ih (i + 1) st (by omega) (by push_cast at hn ⊢; omega) hseen
      | some ns =>
        simp only
        rw [scanOwn_no_match symbol ns _ (hns ns hg)]
        simp only [hseen]
        rw [if_neg (by omega)]
        have := ih (i + 1) st (by omega) (by push_cast at hn ⊢; omega) hseen
        rw [← hseen]
        exact this

theorem ownNotarisations_append (symbol : String) (a b : List Notarisation) :
    ownNotarisations symbol (a ++ b) = ownNotarisations symbol a ++ ownNotarisations symbol b := by
  simp [ownNotarisations]

/-- The first inner loop in closed form: the counter grows by the number of
notarisations of the symbol, capped at 7 where the loop is left, and the
anchor is set by the first of them when the counter was 0. -/
theorem scanOwn_spec (symbol : String) :
    ∀ (ns : List Notarisation) (seen : Int) (dest : uint256), 0 ≤ seen → seen < 7 →
      scanOwn symbol ns (seen, dest)
        = ((min (seen + (ownNotarisations symbol ns).length) 7,
            if seen = 0 then ((ownNotarisations symbol ns).head?.map Prod.fst).getD dest
            else dest),
           decide (7 ≤ seen + (ownNotarisations symbol ns).length)) := by
  intro ns
  induction ns with
  | nil =>
    intro seen dest h0 h7
    simp [scanOwn, ownNotarisations]
    refine ⟨by omega, by omega⟩
  | cons nota rest ih =>
    intro seen dest h0 h7
    by_cases hown : nota.2.symbol = symbol
    · have hf : ownNotarisations symbol (nota :: rest) = nota :: ownNotarisations symbol rest := by
        simp [ownNotarisations, hown]
      rw [scanOwn, if_pos hown, hf]
      by_cases h1 : seen + 1 = 1
      · have hs : seen = 0 := by omega
        subst hs
        rw [if_pos h1, ih (0 + 1) nota.1 (by omega) (by omega)]
        simp only [List.length_cons, List.head?_cons, Option.map_some', Option.getD_some]
        refine Prod.ext (Prod.ext ?_ ?_) ?_
        · simp only; push_cast; omega
        · simp
        · simp only; push_cast
          congr 1
          apply propext
          constructor <;> intro h <;> omega
      · rw [if_neg h1]
        by_cases h7e : seen + 1 = 7
        · rw [if_pos h7e]
          refine Prod.ext (Prod.ext ?_ ?_) ?_
          · simp only [List.length_cons]; push_cast; omega
          · simp only; rw [if_neg (by omega)]
          · simp only [List.length_cons]; push_cast
            symm
            rw [decide_eq_true_iff]
            omega
        · rw [if_neg h7e, ih (seen + 1) dest (by omega) (by omega)]
          refine Prod.ext (Prod.ext ?_ ?_) ?_
          · simp only [List.length_cons]; push_cast; congr 1; omega
          · simp only; rw [if_neg (by omega), if_neg (by omega)]
          · simp only [List.length_cons]; push_cast
            congr 1
            apply propext
            constructor <;> intro h <;> omega
    · have hf : ownNotarisations symbol (nota :: rest) = ownNotarisations symbol rest := by
        simp [ownNotarisations, hown]
      rw [scanOwn, if_neg hown, hf]
      exact ih seen dest h0 h7

/-- One iteration of the block loop of `CalculateProofRoot` on a non-null slot,
in terms of the notarisations stored for the block. -/
theorem CalculateProofRootLoop_succ (env : Env) (symbol : String) (targetCCid : Nat)
    (kmdHeight : Int) (n : Nat) (i : Int) (st : ScanState) (hi : ¬ i > kmdHeight)
    (hb : chainAt env.chainActive (kmdHeight - i) ≠ none) :
    CalculateProofRootLoop env symbol targetCCid kmdHeight (n + 1) i st
      = match scanOwn symbol (blockNotarisations env (kmdHeight - i))
            (st.seenOwnNotarisations, st.destNotarisationTxid) with
        | ((seen, dest), true) => some (⟨seen, dest, st.tmp_moms⟩, true)
        | ((seen, dest), false) =>
          CalculateProofRootLoop env symbol targetCCid kmdHeight n (i + 1)
            ⟨seen, dest,
              if seen ≥ 1 then
                collectMoms (GetSymbolAuthority symbol) targetCCid
                  (blockNotarisations env (kmdHeight - i)) st.tmp_moms
              else st.tmp_moms⟩ := by
  obtain ⟨b, hb1⟩ := Option.ne_none_iff_exists'.mp hb
  rw [CalculateProofRootLoop, if_neg hi]
  simp only [blockNotarisations, hb1]
  cases hg : env.GetBlockNotarisations (env.blocks b).hashBlock with
  | none =>
    simp only [Option.getD_none, scanOwn, collectMoms, ite_self]
  | some ns =>
    simp only [Option.getD_some]

/-- A returning block loop went through non-null slots only. -/
theorem CalculateProofRootLoop_slot (env : Env) (symbol : String) (targetCCid : Nat)
    (kmdHeight : Int) (n : Nat) (i : Int) (st : ScanState) (r : ScanState × Bool)
    (hi : ¬ i > kmdHeight)
    (hr : CalculateProofRootLoop env symbol targetCCid kmdHeight (n + 1) i st = some r) :
    chainAt env.chainActive (kmdHeight - i) ≠ none := by
  intro hnone
  rw [CalculateProofRootLoop, if_neg hi, hnone] at hr
  cases hr

/-- What the block loop of `CalculateProofRoot` returns, in terms of the scan
window: it leaves through `goto end` exactly when the counter reaches 7, and
the anchor is the txid of the first notarisation of the symbol when the
counter started at 0. -/
theorem CalculateProofRootLoop_result (env : Env) (symbol : String) (targetCCid : Nat)
    (kmdHeight : Int) :
    ∀ (n : Nat) (i : Int) (st st1 : ScanState) (flag : Bool),
      0 ≤ st.seenOwnNotarisations → st.seenOwnNotarisations < 7 →
      CalculateProofRootLoop env symbol targetCCid kmdHeight n i st = some (st1, flag) →
      flag = decide (7 ≤ st.seenOwnNotarisations
        + (ownNotarisations symbol (scanWindow env kmdHeight n i)).length) ∧
      st1.destNotarisationTxid
        = (if st.seenOwnNotarisations = 0 then
            ((ownNotarisations symbol (scanWindow env kmdHeight n i)).head?.map Prod.fst).getD
              st.destNotarisationTxid
          else st.destNotarisationTxid) := by
  intro n
  induction n with
  | zero =>
    intro i st st1 flag h0 h7 hr
    simp only [CalculateProofRootLoop, Option.some.injEq, Prod.mk.injEq] at hr
    obtain ⟨hst, hfl⟩ := hr
    subst hst; subst hfl
    simp [scanWindow, ownNotarisations]
    omega
  | succ n ih =>
    intro i st st1 flag h0 h7 hr
    by_cases hi : i > kmdHeight
    · rw [CalculateProofRootLoop, if_pos hi] at hr
      simp only [Option.some.injEq, Prod.mk.injEq] at hr
      obtain ⟨hst, hfl⟩ := hr
      subst hst; subst hfl
      simp [scanWindow, hi, ownNotarisations]
      omega
    · have hb := CalculateProofRootLoop_slot env symbol targetCCid kmdHeight n i st _ hi hr
      rw [CalculateProofRootLoop_succ env symbol targetCCid kmdHeight n i st hi hb,
        scanOwn_spec symbol _ _ _ h0 h7] at hr
      have hw : scanWindow env kmdHeight (n + 1) i
          = blockNotarisations env (kmdHeight - i) ++ scanWindow env kmdHeight n (i + 1) := by
        rw [scanWindow, if_neg hi]
      rw [hw, ownNotarisations_append, List.length_append]
      generalize hown : ownNotarisations symbol (blockNotarisations env (kmdHeight - i)) = own at hr ⊢
      generalize hrest : ownNotarisations symbol (scanWindow env kmdHeight n (i + 1)) = rest at ih ⊢
      by_cases hend : 7 ≤ st.seenOwnNotarisations + (own.length : Int)
      · simp only [hend, decide_True, Option.some.injEq, Prod.mk.injEq] at hr
        obtain ⟨hst, hfl⟩ := hr
        subst hst; subst hfl
        refine ⟨?_, ?_⟩
        · symm; rw [decide_eq_true_iff]; push_cast; omega
        · cases own with
          | nil => simp at hend; omega
          | cons x xs => simp
      · simp only [hend, decide_False] at hr
        have hmin : min (st.seenOwnNotarisations + (own.length : Int)) 7
            = st.seenOwnNotarisations + own.length := by omega
        rw [hmin] at hr
        obtain ⟨hflag, hdest⟩ := ih (i + 1) _ st1 flag (by simp only; omega)
          (by simp only; omega) hr
        simp only [hrest] at hflag hdest
        refine ⟨?_, ?_⟩
        · rw [hflag]; push_cast
          congr 1
          apply propext
          constructor <;> intro h <;> omega
        · rw [hdest]
          cases own with
          | nil => simp
          | cons x xs =>
            have hne : ¬ (st.seenOwnNotarisations + ((x :: xs).length : Int) = 0) := by
              simp only [List.length_cons]; push_cast; omega
            rw [if_neg hne]
            simp

/-- On populated slots the block loop of `CalculateProofRoot` returns. -/
theorem CalculateProofRootLoop_returns (env : Env) (symbol : String) (targetCCid : Nat)
    (kmdHeight : Int)
    (hpop : ∀ i : Int, 0 ≤ i → i ≤ kmdHeight → i < 1440 →
      chainAt env.chainActive (kmdHeight - i) ≠ none) :
    ∀ (n : Nat) (i : Int) (st : ScanState), 0 ≤ i → i + n ≤ 1440 →
      ∃ r, CalculateProofRootLoop env symbol targetCCid kmdHeight n i st = some r := by
  intro n
  induction n with
  | zero => intro i st _ _; exact ⟨_, rfl⟩
  | succ n ih =>
    intro i st hi hn
    by_cases hgt : i > kmdHeight
    · exact ⟨_, by rw [CalculateProofRootLoop, if_pos hgt]⟩
    · have hb := hpop i hi (by omega) (by push_cast at hn; omega)
      rw [CalculateProofRootLoop_succ env symbol targetCCid kmdHeight n i st hgt hb]
      split
      · exact ⟨_, rfl⟩
      · exact ih (i + 1) _ (by omega) (by push_cast at hn ⊢; omega)

/-! ### The MoM set of `CalculateProofRoot` -/

theorem mem_setInsert (x y : uint256) (l : List uint256) :
    y ∈ setInsert x l ↔ y = x ∨ y ∈ l := by
  induction l with
  | nil => simp [setInsert]
  | cons z zs ih =>
    rw [setInsert]
    split
    · simp
    · split
      · rename_i hxz
        subst hxz
        simp
      · simp only [List.mem_cons, ih]
        tauto

theorem setInsert_sorted (x : uint256) (l : List uint256) (hl : l.Pairwise (· < ·)) :
    (setInsert x l).Pairwise (· < ·) := by
  induction l with
  | nil => simp [setInsert]
  | cons z zs ih =>
    rw [setInsert]
    rw [List.pairwise_cons] at hl
    split
    · rename_i hlt
      refine List.Pairwise.cons ?_ (List.Pairwise.cons hl.1 hl.2)
      intro a ha
      rcases List.mem_cons.mp ha with h | h
      · subst h; exact hlt
      · exact lt_trans hlt (hl.1 a h)
    · split
      · exact List.Pairwise.cons hl.1 hl.2
      · rename_i h1 h2
        refine List.Pairwise.cons ?_ (ih hl.2)
        intro a ha
        rcases (mem_setInsert x a zs).mp ha with h | h
        · subst h
          show z < a
          exact lt_of_le_of_ne (Nat.le_of_not_lt h1) (fun hza => h2 hza.symm)
        · exact hl.1 a h

theorem collectMoms_sorted (authority : CrosschainType) (targetCCid : Nat) :
    ∀ (ns : List Notarisation) (moms : List uint256), moms.Pairwise (· < ·) →
      (collectMoms authority targetCCid ns moms).Pairwise (· < ·) := by
  intro ns
  induction ns with
  | nil => intro moms h; exact h
  | cons nota rest ih =>
    intro moms h
    rw [collectMoms]
    split
    · exact ih _ (setInsert_sorted _ _ h)
    · exact ih _ h

theorem collectMoms_mono (authority : CrosschainType) (targetCCid : Nat) (y : uint256) :
    ∀ (ns : List Notarisation) (moms : List uint256), y ∈ moms →
      y ∈ collectMoms authority targetCCid ns moms := by
  intro ns
  induction ns with
  | nil => intro moms h; exact h
  | cons nota rest ih =>
    intro moms h
    rw [collectMoms]
    split
    · exact ih _ ((mem_setInsert _ _ _).mpr (Or.inr h))
    · exact ih _ h

theorem collectMoms_mem (authority : CrosschainType) (targetCCid : Nat) (nota : Notarisation)
    (hauth : GetSymbolAuthority nota.2.symbol = authority) (hcc : nota.2.ccId = targetCCid) :
    ∀ (ns : List Notarisation) (moms : List uint256), nota ∈ ns →
      nota.2.MoM ∈ collectMoms authority targetCCid ns moms := by
  intro ns
  induction ns with
  | nil => intro moms h; cases h
  | cons x rest ih =>
    intro moms h
    rw [collectMoms]
    rcases List.mem_cons.mp h with hx | hx
    · subst hx
      rw [if_pos ⟨hauth, hcc⟩]
      exact collectMoms_mono _ _ _ _ _ ((mem_setInsert _ _ _).mpr (Or.inl rfl))
    · split
      · exact ih _ hx
      · exact ih _ hx

/-- The set `tmp_moms` stays strictly increasing and only grows along the
block loop. -/
theorem CalculateProofRootLoop_moms (env : Env) (symbol : String) (targetCCid : Nat)
    (kmdHeight : Int) :
    ∀ (n : Nat) (i : Int) (st : ScanState) (r : ScanState × Bool),
      0 ≤ st.seenOwnNotarisations → st.seenOwnNotarisations < 7 →
      CalculateProofRootLoop env symbol targetCCid kmdHeight n i st = some r →
      (st.tmp_moms.Pairwise (· < ·) → r.1.tmp_moms.Pairwise (· < ·)) ∧
      (∀ y, y ∈ st.tmp_moms → y ∈ r.1.tmp_moms) := by
  intro n
  induction n with
  | zero =>
    intro i st r _ _ hr
    simp only [CalculateProofRootLoop, Option.some.injEq] at hr
    subst hr
    exact ⟨id, fun _ h => h⟩
  | succ n ih =>
    intro i st r h0 h7 hr
    by_cases hi : i > kmdHeight
    · rw [CalculateProofRootLoop, if_pos hi] at hr
      simp only [Option.some.injEq] at hr
      subst hr
      exact ⟨id, fun _ h => h⟩
    · have hb := CalculateProofRootLoop_slot env symbol targetCCid kmdHeight n i st _ hi hr
      rw [CalculateProofRootLoop_succ env symbol targetCCid kmdHeight n i st hi hb,
        scanOwn_spec symbol _ _ _ h0 h7] at hr
      by_cases hend : 7 ≤ st.seenOwnNotarisations
          + ((ownNotarisations symbol (blockNotarisations env (kmdHeight - i))).length : Int)
      · simp only [hend, decide_True, Option.some.injEq] at hr
        subst hr
        exact ⟨id, fun _ h => h⟩
      · simp only [hend, decide_False] at hr
        obtain ⟨hs, hm⟩ := ih (i + 1) _ r (by simp only; omega) (by simp only; omega) hr
        simp only at hs hm
        refine ⟨fun hsorted => hs ?_, fun y hy => hm y ?_⟩
        · split
          · exact collectMoms_sorted _ _ _ _ hsorted
          · exact hsorted
        · split
          · exact collectMoms_mono _ _ _ _ _ hy
          · exact hy

/-- The blocks that contribute to `tmp_moms`: block `kmdHeight - (i + j)`
contributes when the counter, after the notarisations of the blocks up to and
including it, is at least 1 and below 7. -/
theorem CalculateProofRootLoop_collects (env : Env) (symbol : String) (targetCCid : Nat)
    (kmdHeight : Int) :
    ∀ (n : Nat) (i : Int) (st : ScanState) (r : ScanState × Bool) (j : Nat),
      0 ≤ st.seenOwnNotarisations → st.seenOwnNotarisations < 7 →
      CalculateProofRootLoop env symbol targetCCid kmdHeight n i st = some r →
      j < n → i + j ≤ kmdHeight →
      1 ≤ st.seenOwnNotarisations
        + (ownNotarisations symbol (scanWindow env kmdHeight (j + 1) i)).length →
      st.seenOwnNotarisations
        + (ownNotarisations symbol (scanWindow env kmdHeight (j + 1) i)).length < 7 →
      ∀ nota ∈ blockNotarisations env (kmdHeight - (i + j)),
        GetSymbolAuthority nota.2.symbol = GetSymbolAuthority symbol →
        nota.2.ccId = targetCCid → nota.2.MoM ∈ r.1.tmp_moms := by
  intro n
  induction n with
  | zero => intro i st r j _ _ _ hj; omega
  | succ n ih =>
    intro i st r j h0 h7 hr hj hij h1 hlt nota hmem hauth hcc
    have hi : ¬ i > kmdHeight := by omega
    have hb := CalculateProofRootLoop_slot env symbol targetCCid kmdHeight n i st _ hi hr
    rw [CalculateProofRootLoop_succ env symbol targetCCid kmdHeight n i st hi hb,
      scanOwn_spec symbol _ _ _ h0 h7] at hr
    have hw : scanWindow env kmdHeight (j + 1) i
        = blockNotarisations env (kmdHeight - i) ++ scanWindow env kmdHeight j (i + 1) := by
      rw [scanWindow, if_neg hi]
    rw [hw, ownNotarisations_append, List.length_append] at h1 hlt
    push_cast at h1 hlt
    have hend : ¬ 7 ≤ st.seenOwnNotarisations
        + ((ownNotarisations symbol (blockNotarisations env (kmdHeight - i))).length : Int) := by
      omega
    simp only [hend, decide_False] at hr
    have hmin : min (st.seenOwnNotarisations
        + ((ownNotarisations symbol (blockNotarisations env (kmdHeight - i))).length : Int)) 7
        = st.seenOwnNotarisations
          + (ownNotarisations symbol (blockNotarisations env (kmdHeight - i))).length := by
      omega
    rw [hmin] at hr
    cases j with
    | zero =>
      simp only [scanWindow, ownNotarisations, List.filter_nil, List.length_nil,
        Nat.cast_zero, add_zero] at h1
      have hge : st.seenOwnNotarisations
          + ((ownNotarisations symbol (blockNotarisations env (kmdHeight - i))).length : Int)
          ≥ 1 := by
        simpa [ownNotarisations] using h1
      rw [if_pos hge] at hr
      have hmono := (CalculateProofRootLoop_moms env symbol targetCCid kmdHeight n (i + 1) _ r
        (by simp only; omega) (by simp only; omega) hr).2
      apply hmono
      simp only
      have hidx : kmdHeight - (i + ((0 : Nat) : Int)) = kmdHeight - i := by simp
      rw [hidx] at hmem
      exact collectMoms_mem _ _ nota hauth hcc _ _ hmem
    | succ j =>
      have hidx : kmdHeight - (i + ((j + 1 : Nat) : Int)) = kmdHeight - (i + 1 + (j : Int)) := by
        push_cast; ring
      rw [hidx] at hmem
      refine ih (i + 1) _ r j (by simp only; omega) (by simp only; omega) hr (by omega)
        (by push_cast at hij; omega) ?_ ?_ nota hmem hauth hcc
      · simp only; omega
      · simp only; omega

/-- The value returned by `CalculateProofRoot` when its block loop is left
through `goto end`. -/
theorem CalculateProofRoot_of_success (env : Env) (symbol : String) (targetCCid : Nat)
    (kmdHeight : Int) (moms : List uint256) (dest : uint256) (st : ScanState)
    (hcc : 2 ≤ targetCCid) (hlo : 0 ≤ kmdHeight) (hhi : kmdHeight ≤ Height env.chainActive)
    (hsucc : CalculateProofRootLoop env symbol targetCCid kmdHeight
      NOTARISATION_SCAN_LIMIT_BLOCKS 0 ⟨0, dest, []⟩ = some (st, true)) :
    CalculateProofRoot env symbol targetCCid kmdHeight moms dest
      = some (env.GetMerkleRoot st.tmp_moms, st.tmp_moms, st.destNotarisationTxid) := by
  unfold CalculateProofRoot
  rw [if_neg (by omega), if_neg (by omega), hsucc]

/-- The value returned by `CalculateProofRoot` when its block loop runs to its
end. -/
theorem CalculateProofRoot_of_fallthrough (env : Env) (symbol : String) (targetCCid : Nat)
    (kmdHeight : Int) (moms : List uint256) (dest : uint256) (st : ScanState)
    (hcc : 2 ≤ targetCCid) (hlo : 0 ≤ kmdHeight) (hhi : kmdHeight ≤ Height env.chainActive)
    (hfall : CalculateProofRootLoop env symbol targetCCid kmdHeight
      NOTARISATION_SCAN_LIMIT_BLOCKS 0 ⟨0, dest, []⟩ = some (st, false)) :
    CalculateProofRoot env symbol targetCCid kmdHeight moms dest = some (0, [], 0) := by
  unfold CalculateProofRoot
  rw [if_neg (by omega), if_neg (by omega), hfall]

/-- The anchor on the success path is the first notarisation of the symbol in
the scan window. -/
theorem CalculateProofRootLoop_anchor (env : Env) (symbol : String) (targetCCid : Nat)
    (kmdHeight : Int) (dest : uint256) (st : ScanState)
    (hsucc : CalculateProofRootLoop env symbol targetCCid kmdHeight
      NOTARISATION_SCAN_LIMIT_BLOCKS 0 ⟨0, dest, []⟩ = some (st, true)) :
    7 ≤ (ownNotarisations symbol
        (scanWindow env kmdHeight NOTARISATION_SCAN_LIMIT_BLOCKS 0)).length ∧
    ∃ nota, (ownNotarisations symbol
        (scanWindow env kmdHeight NOTARISATION_SCAN_LIMIT_BLOCKS 0)).head? = some nota ∧
      st.destNotarisationTxid = nota.1 := by
  obtain ⟨hflag, hdest⟩ := CalculateProofRootLoop_result env symbol targetCCid kmdHeight
    NOTARISATION_SCAN_LIMIT_BLOCKS 0 _ st true (le_refl _) (by simp) hsucc
  simp only [zero_add, if_true] at hflag hdest
  have h7 : (7 : Int) ≤ (ownNotarisations symbol
      (scanWindow env kmdHeight NOTARISATION_SCAN_LIMIT_BLOCKS 0)).length := by
    have := hflag.symm
    rwa [decide_eq_true_iff] at this
  refine ⟨by exact_mod_cast h7, ?_⟩
  cases hown : ownNotarisations symbol
      (scanWindow env kmdHeight NOTARISATION_SCAN_LIMIT_BLOCKS 0) with
  | nil => rw [hown] at h7; simp at h7
  | cons x xs =>
    rw [hown] at hdest
    exact ⟨x, rfl, by simpa using hdest⟩

/-! ### `ScanNotarisationsFromHeight` -/

theorem blockNotarisations_of_slot (env : Env) (h : Int) (b : Nat)
    (hb : chainAt env.chainActive h = some b) :
    blockNotarisations env h = (env.GetBlockNotarisations (env.blocks b).hashBlock).getD [] := by
  simp [blockNotarisations, hb]

/-- The forward loop on populated slots: either nothing in the range satisfies
`f` and `(0, found)` is returned, or the first height with a satisfying
notarisation is returned with the first such notarisation of its block. -/
theorem ScanNotarisationsLoop_spec (env : Env) (f : Notarisation → Bool) :
    ∀ (n : Nat) (h : Int) (found : Notarisation),
      (∀ h1 : Int, h ≤ h1 → h1 < h + n → chainAt env.chainActive h1 ≠ none) →
      ∃ r, ScanNotarisationsLoop env f n h found = some r ∧
        ((r = (0, found) ∧
            ∀ h1 : Int, h ≤ h1 → h1 < h + n → ∀ x ∈ blockNotarisations env h1, f x = false) ∨
          (h ≤ r.1 ∧ r.1 < h + n ∧ (blockNotarisations env r.1).find? f = some r.2 ∧
            ∀ h1 : Int, h ≤ h1 → h1 < r.1 → ∀ x ∈ blockNotarisations env h1, f x = false)) := by
  intro n
  induction n with
  | zero =>
    intro h found _
    exact ⟨(0, found), rfl, Or.inl ⟨rfl, fun h1 h2 h3 => by simp at h3; omega⟩⟩
  | succ n ih =>
    intro h found hpop
    obtain ⟨b, hb⟩ := Option.ne_none_iff_exists'.mp (hpop h (le_refl _) (by push_cast; omega))
    have hblock := blockNotarisations_of_slot env h b hb
    obtain ⟨r, hr, hcase⟩ := ih (h + 1) found
      (fun h1 h2 h3 => hpop h1 (by omega) (by push_cast; omega))
    have hskip : (∀ x ∈ blockNotarisations env h, f x = false) →
        ScanNotarisationsLoop env f n (h + 1) found = ScanNotarisationsLoop env f (n + 1) h found →
        ∃ r, ScanNotarisationsLoop env f (n + 1) h found = some r ∧
          ((r = (0, found) ∧
              ∀ h1 : Int, h ≤ h1 → h1 < h + (n + 1 : Nat) →
                ∀ x ∈ blockNotarisations env h1, f x = false) ∨
            (h ≤ r.1 ∧ r.1 < h + (n + 1 : Nat) ∧
              (blockNotarisations env r.1).find? f = some r.2 ∧
              ∀ h1 : Int, h ≤ h1 → h1 < r.1 →
                ∀ x ∈ blockNotarisations env h1, f x = false)) := by
      intro hnone heq
      refine ⟨r, by rw [← heq]; exact hr, ?_⟩
      rcases hcase with ⟨hr0, hall⟩ | ⟨h1, h2, h3, h4⟩
      · refine Or.inl ⟨hr0, ?_⟩
        intro h1 h2 h3 x hx
        by_cases he : h1 = h
        · subst he; exact hnone x hx
        · exact hall h1 (by omega) (by push_cast at h3; omega) x hx
      · refine Or.inr ⟨by omega, by push_cast; omega, h3, ?_⟩
        intro h5 h6 h7 x hx
        by_cases he : h5 = h
        · subst he; exact hnone x hx
        · exact h4 h5 (by omega) h7 x hx
    cases hg : env.GetBlockNotarisations (env.blocks b).hashBlock with
    | none =>
      rw [hg] at hblock
      refine hskip (by rw [hblock]; intro x hx; simp at hx) ?_
      rw [ScanNotarisationsLoop, hb]
      simp only [hg]
    | some ns =>
      rw [hg] at hblock
      simp only [Option.getD_some] at hblock
      cases hf : ns.find? f with
      | none =>
        have hnone : ∀ x ∈ blockNotarisations env h, f x = false := by
          rw [hblock]
          intro x hx
          have := List.find?_eq_none.mp hf x hx
          simpa using this
        refine hskip hnone ?_
        rw [ScanNotarisationsLoop, hb]
        simp only [hg, hf]
      | some entry =>
        refine ⟨(h, entry), ?_, Or.inr ⟨le_refl _, by push_cast; omega, ?_, ?_⟩⟩
        · rw [ScanNotarisationsLoop, hb]
          simp only [hg, hf]
        · simp only [hblock, hf]
        · intro h1 h2 h3; omega

/-- The result of `ScanNotarisationsFromHeight` on populated slots. -/
theorem ScanNotarisationsFromHeight_spec (env : Env) (nHeight : Int) (f : Notarisation → Bool)
    (found : Notarisation)
    (hpop : ∀ h : Int, max nHeight 1 ≤ h → h < min (nHeight + 1440) (Height env.chainActive) →
      chainAt env.chainActive h ≠ none) :
    ∃ r, ScanNotarisationsFromHeight env nHeight f found = some r ∧
      ((r = (0, found) ∧
          ∀ h : Int, max nHeight 1 ≤ h → h < min (nHeight + 1440) (Height env.chainActive) →
            ∀ x ∈ blockNotarisations env h, f x = false) ∨
        (max nHeight 1 ≤ r.1 ∧ r.1 < min (nHeight + 1440) (Height env.chainActive) ∧
          (blockNotarisations env r.1).find? f = some r.2 ∧
          ∀ h : Int, max nHeight 1 ≤ h → h < r.1 →
            ∀ x ∈ blockNotarisations env h, f x = false)) := by
  have hlim : (min (nHeight + (NOTARISATION_SCAN_LIMIT_BLOCKS : Int)) (Height env.chainActive))
      = min (nHeight + 1440) (Height env.chainActive) := by
    simp [NOTARISATION_SCAN_LIMIT_BLOCKS]
  obtain ⟨r, hr, hcase⟩ := ScanNotarisationsLoop_spec env f
    (min (nHeight + 1440) (Height env.chainActive) - max nHeight 1).toNat (max nHeight 1) found
    (fun h1 h2 h3 => hpop h1 h2 (by omega))
  refine ⟨r, ?_, ?_⟩
  · unfold ScanNotarisationsFromHeight
    simp only [hlim]
    exact hr
  · rcases hcase with ⟨hr0, hall⟩ | ⟨h1, h2, h3, h4⟩
    · exact Or.inl ⟨hr0, fun h h5 h6 => hall h h5 (by omega)⟩
    · exact Or.inr ⟨h1, by omega, h3, h4⟩

/-! ### `CheckNotariesApproval` -/

/-- The loop body in two stages: the tests before the call of
`squishy_notaries`, which do not read the state, and the call with the signer
loop. -/
theorem approvalStep_eq {Tx : Type} (env : ApprovalEnv Tx) (burntxid : uint256)
    (st : ApprovalState) (t : uint256) :
    approvalStep env burntxid st t
      = match approvalCall env burntxid t with
        | none => st
        | some (tx, nHeight, blockTime) =>
          if (env.squishy_notaries st.notaries_pubkeys nHeight blockTime).1 ≥ 0 then
            match (env.squishy_notaries st.notaries_pubkeys nHeight blockTime).2.find?
                (fun pk => env.CheckVinPubKey tx 0 pk &&
                  !decide (pk ∈ st.alreadySigned)) with
            | some pk =>
              ⟨st.count + 1, st.alreadySigned ++ [pk],
                (env.squishy_notaries st.notaries_pubkeys nHeight blockTime).2⟩
            | none =>
              ⟨st.count, st.alreadySigned,
                (env.squishy_notaries st.notaries_pubkeys nHeight blockTime).2⟩
          else
            ⟨st.count, st.alreadySigned,
              (env.squishy_notaries st.notaries_pubkeys nHeight blockTime).2⟩ := by
  unfold approvalStep approvalCall
  cases h1 : env.GetTxConfirmed t with
  | none => rfl
  | some r =>
    obtain ⟨tx, nHeight, blockTime⟩ := r
    simp only
    cases h2 : env.GetOpReturnData tx with
    | none => rfl
    | some vopret =>
      simp only
      cases h3 : env.unmarshalTxOutProof vopret with
      | none => rfl
      | some txoutproof =>
        simp only
        cases h4 : env.unmarshalMerkleBlock txoutproof with
        | none => rfl
        | some mb =>
          simp only
          by_cases h5 : mb.extractedRoot ≠ mb.hashMerkleRoot ∨ burntxid ∈ mb.matched
          · rw [if_pos h5, if_pos h5]
          · rw [if_neg h5, if_neg h5]

/-- One approval either leaves the count and the counted keys alone or counts
one key that is in the array after the call, signs its first input and was
not counted before. -/
theorem approvalStep_cases {Tx : Type} (env : ApprovalEnv Tx) (burntxid : uint256)
    (st : ApprovalState) (t : uint256) :
    ((approvalStep env burntxid st t).count = st.count ∧
      (approvalStep env burntxid st t).alreadySigned = st.alreadySigned) ∨
    ∃ tx nHeight blockTime pk, approvalCall env burntxid t = some (tx, nHeight, blockTime) ∧
      pk ∈ (env.squishy_notaries st.notaries_pubkeys nHeight blockTime).2 ∧
      env.CheckVinPubKey tx 0 pk = true ∧ pk ∉ st.alreadySigned ∧
      (approvalStep env burntxid st t).count = st.count + 1 ∧
      (approvalStep env burntxid st t).alreadySigned = st.alreadySigned ++ [pk] := by
  rw [approvalStep_eq]
  cases hs : approvalCall env burntxid t with
  | none => exact Or.inl ⟨rfl, rfl⟩
  | some r =>
    obtain ⟨tx, nHeight, blockTime⟩ := r
    simp only
    by_cases h6 : (env.squishy_notaries st.notaries_pubkeys nHeight blockTime).1 ≥ 0
    · rw [if_pos h6]
      cases hf : (env.squishy_notaries st.notaries_pubkeys nHeight blockTime).2.find?
          (fun pk => env.CheckVinPubKey tx 0 pk && !decide (pk ∈ st.alreadySigned)) with
      | none => exact Or.inl ⟨rfl, rfl⟩
      | some pk =>
        have hmem := List.mem_of_find?_eq_some hf
        have hp := List.find?_some hf
        simp only [Bool.and_eq_true, Bool.not_eq_true', decide_eq_false_iff_not] at hp
        exact Or.inr ⟨tx, nHeight, blockTime, pk, rfl, hmem, hp.1, hp.2, rfl, rfl⟩
    · rw [if_neg h6]
      exact Or.inl ⟨rfl, rfl⟩

/-- The invariant of the approval loop: `count` is the number of keys in
`alreadySigned`, which holds no key twice. -/
theorem approvalStep_invariant {Tx : Type} (env : ApprovalEnv Tx) (burntxid : uint256)
    (st : ApprovalState) (t : uint256)
    (hinv : st.count = st.alreadySigned.length ∧ st.alreadySigned.Nodup) :
    (approvalStep env burntxid st t).count
        = (approvalStep env burntxid st t).alreadySigned.length ∧
      (approvalStep env burntxid st t).alreadySigned.Nodup ∧
      st.count ≤ (approvalStep env burntxid st t).count ∧
      (approvalStep env burntxid st t).count ≤ st.count + 1 ∧
      ∀ k ∈ st.alreadySigned, k ∈ (approvalStep env burntxid st t).alreadySigned := by
  rcases approvalStep_cases env burntxid st t with
    ⟨h1, h2⟩ | ⟨tx, nHeight, blockTime, pk, _, _, _, hn, h1, h2⟩
  · rw [h1, h2]
    exact ⟨hinv.1, hinv.2, le_refl _, by omega, fun k hk => hk⟩
  · rw [h1, h2]
    refine ⟨?_, ?_, by simp, by simp, fun k hk => by simp [hk]⟩
    · simp only [List.length_append, List.length_singleton]
      push_cast
      rw [hinv.1]
    · rw [List.nodup_append]
      refine ⟨hinv.2, by simp, ?_⟩
      intro a ha hb
      simp at hb
      subst hb
      exact hn ha

theorem approvalFold_invariant {Tx : Type} (env : ApprovalEnv Tx) (burntxid : uint256) :
    ∀ (txids : List uint256) (st : ApprovalState),
      st.count = st.alreadySigned.length ∧ st.alreadySigned.Nodup →
      (txids.foldl (approvalStep env burntxid) st).count
          = (txids.foldl (approvalStep env burntxid) st).alreadySigned.length ∧
        (txids.foldl (approvalStep env burntxid) st).alreadySigned.Nodup ∧
        st.count ≤ (txids.foldl (approvalStep env burntxid) st).count ∧
        (txids.foldl (approvalStep env burntxid) st).count ≤ st.count + txids.length ∧
        ∀ k ∈ st.alreadySigned, k ∈ (txids.foldl (approvalStep env burntxid) st).alreadySigned := by
  intro txids
  induction txids with
  | nil => intro st hinv; exact ⟨hinv.1, hinv.2, le_refl _, by simp, fun k hk => hk⟩
  | cons t rest ih =>
    intro st hinv
    obtain ⟨h1, h2, h3, h4, h5⟩ := approvalStep_invariant env burntxid st t hinv
    obtain ⟨g1, g2, g3, g4, g5⟩ := ih (approvalStep env burntxid st t) ⟨h1, h2⟩
    simp only [List.foldl_cons, List.length_cons]
    refine ⟨g1, g2, by omega, by push_cast; omega, fun k hk => g5 k (h5 k hk)⟩

/-- A valid approval by a key not counted before is counted. -/
theorem approvalStep_valid {Tx : Type} (env : ApprovalEnv Tx) (burntxid : uint256)
    (st : ApprovalState) (t : uint256) (pk : PubKey)
    (hv : ValidApproval env burntxid t pk) (hn : pk ∉ st.alreadySigned) :
    (approvalStep env burntxid st t).count = st.count + 1 ∧
    (approvalStep env burntxid st t).alreadySigned = st.alreadySigned ++ [pk] := by
  obtain ⟨tx, nHeight, blockTime, vopret, txoutproof, mb, h1, h2, h3, h4, h5, h6, hkeys⟩ := hv
  obtain ⟨h7, h8, h9⟩ := hkeys st.notaries_pubkeys
  have hs : approvalCall env burntxid t = some (tx, nHeight, blockTime) := by
    unfold approvalCall
    simp only [h1, h2, h3, h4]
    rw [if_pos (Or.inr h6)]
  rcases approvalStep_cases env burntxid st t with
    ⟨hc1, hc2⟩ | ⟨tx1, nHeight1, blockTime1, k, hs1, hmem, hc, _, hr1, hr2⟩
  · exfalso
    rw [approvalStep_eq, hs] at hc1
    simp only at hc1
    rw [if_pos h7] at hc1
    cases hf : (env.squishy_notaries st.notaries_pubkeys nHeight blockTime).2.find?
        (fun pk => env.CheckVinPubKey tx 0 pk && !decide (pk ∈ st.alreadySigned)) with
    | none =>
      have := List.find?_eq_none.mp hf pk h8
      simp [(h9 pk h8).mpr rfl, hn] at this
    | some k =>
      rw [hf] at hc1
      simp at hc1
  · rw [hs] at hs1
    simp only [Option.some.injEq, Prod.mk.injEq] at hs1
    obtain ⟨htx, hh, hb⟩ := hs1
    subst htx; subst hh; subst hb
    have := (h9 k hmem).mp hc
    subst this
    exact ⟨hr1, hr2⟩

/-- Valid approvals by pairwise distinct keys are all counted. -/
theorem approvalFold_valid {Tx : Type} (env : ApprovalEnv Tx) (burntxid : uint256) :
    ∀ (txids : List uint256) (pks : List PubKey) (st : ApprovalState),
      List.Forall₂ (ValidApproval env burntxid) txids pks →
      (st.alreadySigned ++ pks).Nodup →
      (txids.foldl (approvalStep env burntxid) st).count = st.count + txids.length ∧
      (txids.foldl (approvalStep env burntxid) st).alreadySigned
        = st.alreadySigned ++ pks := by
  intro txids pks st hall
  induction hall generalizing st with
  | nil => intro _; simp
  | @cons t pk rest pks1 hv _ ih =>
    intro hnd
    have hn : pk ∉ st.alreadySigned := by
      intro hmem
      rw [List.nodup_append] at hnd
      exact hnd.2.2 hmem (List.mem_cons_self _ _)
    obtain ⟨e1, e2⟩ := approvalStep_valid env burntxid st t pk hv hn
    simp only [List.foldl_cons]
    have hnd2 : ((approvalStep env burntxid st t).alreadySigned ++ pks1).Nodup := by
      rw [e2]; simpa using hnd
    obtain ⟨g1, g2⟩ := ih (approvalStep env burntxid st t) hnd2
    rw [g1, g2, e1, e2]
    refine ⟨?_, by simp⟩
    simp only [List.length_cons]
    push_cast
    ring

/-- An approval that fails one of the tests before the call of
`squishy_notaries` leaves the whole state alone, the key array included. -/
theorem approvalStep_of_no_call {Tx : Type} (env : ApprovalEnv Tx) (burntxid : uint256)
    (st : ApprovalState) (t : uint256) (h : approvalCall env burntxid t = none) :
    approvalStep env burntxid st t = st := by
  rw [approvalStep_eq, h]

/-- An approval that fails one of the tests before the call of
`squishy_notaries` can be taken out of the list without changing the result. -/
theorem CheckNotariesApproval_of_no_call {Tx : Type} (env : ApprovalEnv Tx)
    (pubkeys : List PubKey) (burntxid : uint256) (t : uint256)
    (h : approvalCall env burntxid t = none) (pre post : List uint256) :
    CheckNotariesApproval env pubkeys burntxid (pre ++ t :: post)
      = CheckNotariesApproval env pubkeys burntxid (pre ++ post) := by
  unfold CheckNotariesApproval
  simp only [List.foldl_append, List.foldl_cons, approvalStep_of_no_call env burntxid _ t h]

/-- When every key that signs the first input of an approval is already
counted, the approval leaves the count and the counted keys alone, whatever
the key array holds. -/
theorem approvalStep_of_counted {Tx : Type} (env : ApprovalEnv Tx) (burntxid : uint256)
    (st : ApprovalState) (t : uint256)
    (h : ∀ tx nHeight blockTime, approvalCall env burntxid t = some (tx, nHeight, blockTime) →
      ∀ k, env.CheckVinPubKey tx 0 k = true → k ∈ st.alreadySigned) :
    (approvalStep env burntxid st t).count = st.count ∧
    (approvalStep env burntxid st t).alreadySigned = st.alreadySigned := by
  rcases approvalStep_cases env burntxid st t with
    h1 | ⟨tx, nHeight, blockTime, pk, hs, _, hc, hn, _, _⟩
  · exact h1
  · exact absurd (h tx nHeight blockTime hs pk hc) hn

/-- Appending an approval whose first input is signed by already counted keys
only does not change the result. -/
theorem CheckNotariesApproval_append_counted {Tx : Type} (env : ApprovalEnv Tx)
    (pubkeys : List PubKey) (burntxid : uint256) (txids : List uint256) (t : uint256)
    (h : ∀ tx nHeight blockTime, approvalCall env burntxid t = some (tx, nHeight, blockTime) →
      ∀ k, env.CheckVinPubKey tx 0 k = true →
        k ∈ (txids.foldl (approvalStep env burntxid) ⟨0, [], pubkeys⟩).alreadySigned) :
    CheckNotariesApproval env pubkeys burntxid (txids ++ [t])
      = CheckNotariesApproval env pubkeys burntxid txids := by
  unfold CheckNotariesApproval
  simp only [List.foldl_append, List.foldl_cons, List.foldl_nil]
  rw [(approvalStep_of_counted env burntxid _ t h).1]

/-! ### `STAKED_era` and the signer sets -/

theorem toInt32_of_fits (x : Int) (h1 : -2147483648 ≤ x) (h2 : x ≤ 2147483647) :
    toInt32 x = x := by
  unfold toInt32
  omega

/-- When the sums fit in an `int`, the sum the loop computes at index `j` is
the sum of the integers. -/
theorem EraSumsFit_sum (T : StakedTables) (hfit : EraSumsFit T) (j : Nat) (h1 : 1 ≤ j)
    (h2 : j < T.NUM_STAKED_ERAS) :
    toInt32 (T.STAKED_NOTARIES_TIMESTAMP (j - 1) + T.STAKED_ERA_GAP)
      = T.STAKED_NOTARIES_TIMESTAMP (j - 1) + T.STAKED_ERA_GAP := by
  obtain ⟨a, b⟩ := hfit (j - 1) (by omega)
  exact toInt32_of_fits _ a b

theorem STAKED_eraLoop_zero (T : StakedTables) (t : Int) :
    ∀ (n s : Nat),
      (∀ j, s ≤ j → j < s + n →
        ¬ (t ≤ T.STAKED_NOTARIES_TIMESTAMP j ∧
           t ≥ toInt32 (T.STAKED_NOTARIES_TIMESTAMP (j - 1) + T.STAKED_ERA_GAP))) →
      STAKED_eraLoop T t n s = 0 := by
  intro n
  induction n with
  | zero => intro s _; rfl
  | succ n ih =>
    intro s h
    rw [STAKED_eraLoop, if_neg (h s (le_refl s) (by omega))]
    exact ih (s + 1) (fun j hj1 hj2 => h j (by omega) (by omega))

/-- Inside a gap after a boundary `STAKED_era` is 0. -/
theorem STAKED_era_of_gap (T : StakedTables) (hfit : EraSumsFit T)
    (hinc : ∀ a b, a < b → b < T.NUM_STAKED_ERAS →
      T.STAKED_NOTARIES_TIMESTAMP a < T.STAKED_NOTARIES_TIMESTAMP b)
    (t : Int) (i : Nat) (hi : 1 ≤ i)
    (hiN : i < T.NUM_STAKED_ERAS)
    (hlo : T.STAKED_NOTARIES_TIMESTAMP (i - 1) < t)
    (hhi : t < T.STAKED_NOTARIES_TIMESTAMP (i - 1) + T.STAKED_ERA_GAP) :
    STAKED_era T t = 0 := by
  have hmono : ∀ a b, a ≤ b → b < T.NUM_STAKED_ERAS →
      T.STAKED_NOTARIES_TIMESTAMP a ≤ T.STAKED_NOTARIES_TIMESTAMP b := by
    intro a b hab hb
    rcases Nat.lt_or_ge a b with h | h
    · exact le_of_lt (hinc a b h hb)
    · have : a = b := by omega
      subst this; exact le_refl _
  have h0 : ¬ t ≤ T.STAKED_NOTARIES_TIMESTAMP 0 := by
    have := hmono 0 (i - 1) (Nat.zero_le _) (by omega)
    omega
  rw [STAKED_era, if_neg h0]
  apply STAKED_eraLoop_zero
  intro j hj1 hj2
  rintro ⟨h1, h2⟩
  rw [EraSumsFit_sum T hfit j (by omega) (by omega)] at h2
  rcases Nat.lt_trichotomy j i with h | h | h
  · have := hmono j (i - 1) (by omega) (by omega)
    omega
  · subst h; omega
  · have := hmono i (j - 1) (by omega) (by omega)
    have := hinc (i - 1) i (by omega) hiN
    omega

theorem toInt8_of_small (x : Int) (h0 : -128 ≤ x) (h1 : x ≤ 127) : toInt8 x = x := by
  unfold toInt8; omega

theorem drop_two_hex (hex : List Char) (i : Nat) (h : i * 2 + 1 < hex.length) :
    hex.drop (i * 2) = hex[i * 2] :: hex[i * 2 + 1] :: hex.drop ((i + 1) * 2) := by
  rw [List.drop_eq_getElem_cons (by omega : i * 2 < hex.length),
    List.drop_eq_getElem_cons h, show (i + 1) * 2 = i * 2 + 1 + 1 by omega]

theorem scanKey_eq_decode :
    ∀ (k i : Nat) (hex : List Char), hex.length = 2 * (i + k) →
      (∀ c ∈ hex, (hexDigit c).isSome = true) →
      scanKey hex k i = decodeHexPairs (hex.drop (i * 2)) ∧
        (scanKey hex k i).isSome = true := by
  intro k
  induction k with
  | zero =>
    intro i hex hlen _
    have : hex.drop (i * 2) = [] := List.drop_eq_nil_of_le (by omega)
    rw [this]; exact ⟨rfl, rfl⟩
  | succ k ih =>
    intro i hex hlen hall
    have hlt2 : i * 2 + 1 < hex.length := by omega
    have ha := hall hex[i * 2] (List.getElem_mem _)
    have hb := hall hex[i * 2 + 1] (List.getElem_mem _)
    obtain ⟨x, hx⟩ := Option.isSome_iff_exists.mp ha
    obtain ⟨y, hy⟩ := Option.isSome_iff_exists.mp hb
    obtain ⟨ih1, ih2⟩ := ih (i + 1) hex (by omega) hall
    obtain ⟨v, hv⟩ := Option.isSome_iff_exists.mp ih2
    have hs : sscanf_2hhx (hex.drop (i * 2)) = some (16 * x + y) := by
      rw [drop_two_hex hex i hlt2]; simp only [sscanf_2hhx, hx, hy]
    have hd : decodeHexPairs (hex.drop (i * 2)) = some ((16 * x + y) :: v) := by
      rw [drop_two_hex hex i hlt2, decodeHexPairs, hx, hy, ← ih1, hv]
    rw [scanKey, hs, hv, hd]
    exact ⟨rfl, rfl⟩

theorem decodeHexPairs_length :
    ∀ (n : Nat) (s : List Char) (bytes : List Nat), s.length ≤ n →
      decodeHexPairs s = some bytes → 2 * bytes.length = s.length := by
  intro n
  induction n with
  | zero =>
    intro s bytes hs h
    have : s = [] := List.length_eq_zero.mp (by omega)
    subst this
    simp [decodeHexPairs] at h
    subst h; rfl
  | succ n ih =>
    intro s bytes hs h
    match s, h with
    | [], h => simp [decodeHexPairs] at h; subst h; rfl
    | [_], h => simp [decodeHexPairs] at h
    | a :: b :: rest, h =>
      rw [decodeHexPairs] at h
      split at h
      · rename_i x y bs _ _ hr
        cases h
        have := ih rest bs (by simp at hs; omega) hr
        simp; omega
      · cases h

theorem scanKeys_eq (T : StakedTables) (e : Nat) :
    ∀ (k n : Nat),
      (∀ j, n ≤ j → j < n + k → (T.notaries_STAKED e j).2.data.length = 66 ∧
        ∀ c ∈ (T.notaries_STAKED e j).2.data, (hexDigit c).isSome = true) →
      ∃ keys, scanKeys T e k n = some keys ∧ keys.length = k ∧
        ∀ j, j < k → keys[j]? = decodeHexPairs (T.notaries_STAKED e (n + j)).2.data := by
  intro k
  induction k with
  | zero => intro n _; exact ⟨[], rfl, rfl, fun j hj => absurd hj (Nat.not_lt_zero j)⟩
  | succ k ih =>
    intro n h
    obtain ⟨hlen, hall⟩ := h n (le_refl n) (by omega)
    obtain ⟨keys, hk, hkl, hkj⟩ := ih (n + 1) (fun j h1 h2 => h j (by omega) (by omega))
    obtain ⟨hkey, hsome⟩ :=
      scanKey_eq_decode 33 0 (T.notaries_STAKED e n).2.data (by omega) hall
    simp only [Nat.zero_mul, List.drop_zero] at hkey
    obtain ⟨key, hkeyeq⟩ := Option.isSome_iff_exists.mp hsome
    refine ⟨key :: keys, ?_, by simp [hkl], ?_⟩
    · rw [scanKeys, hkeyeq, hk]; rfl
    · intro j hj
      cases j with
      | zero => simp [← hkey, hkeyeq]
      | succ j =>
        have := hkj j (by omega)
        rw [show n + (j + 1) = n + 1 + j by omega, ← this]
        simp


theorem findNotary_zero (auth : CrosschainAuthority) (seen : List Bool) (pk : Bytes)
    (i : Nat) : findNotary auth seen pk 0 i = some none := rfl

/-! ### Symbols -/

/-- Two leading substrings of one symbol are comparable. -/
theorem startsWith_exclusive (p q symbol : String)
    (h : (p.data.isPrefixOf q.data || q.data.isPrefixOf p.data) = false)
    (hp : startsWith p symbol = true) (hq : startsWith q symbol = true) : False := by
  unfold startsWith at hp hq
  rw [List.isPrefixOf_iff_prefix] at hp hq
  rcases List.prefix_or_prefix_of_prefix hp hq with h1 | h1
  · rw [← List.isPrefixOf_iff_prefix] at h1; simp [h1] at h
  · rw [← List.isPrefixOf_iff_prefix] at h1; simp [h1] at h

theorem startsWith_self (p : String) : startsWith p p = true := by
  unfold startsWith
  rw [List.isPrefixOf_iff_prefix]

/-- On a symbol without a NUL character `c_str` is the identity. -/
theorem c_str_of_no_nul (symbol : String) (h : Char.ofNat 0 ∉ symbol.data) :
    c_str symbol = symbol := by
  unfold c_str
  have : symbol.data.takeWhile (fun c => c ≠ Char.ofNat 0) = symbol.data := by
    rw [List.takeWhile_eq_self_iff]
    intro c hc
    simp only [ne_eq, decide_not, Bool.not_eq_eq_eq_not, Bool.not_true, decide_eq_false_iff_not]
    rintro rfl
    exact h hc
  rw [this]

/-! ### The slots written by `SetTip` -/

theorem SetTipLoopTrace_fst (m : BlockMap) :
    ∀ (fuel : Nat) (v : CChain) (p : BlockPtr),
      (SetTipLoopTrace m fuel v p).map Prod.fst = SetTipLoop m fuel v p := by
  intro fuel
  induction fuel with
  | zero =>
    intro v p
    cases p <;> rfl
  | succ f ih =>
    intro v p
    cases p with
    | none => rfl
    | some i =>
      rw [SetTipLoopTrace, SetTipLoop]
      split_ifs with h1
      · rfl
      · cases hs : v[(m i).nHeight.toNat]? with
        | none => rfl
        | some slot =>
          simp only []
          split_ifs with h2
          · rw [← ih, Option.map_map]
            rfl
          · rfl

theorem SetTipTrace_fst (m : BlockMap) (v : CChain) (p : BlockPtr) :
    (SetTipTrace m v p).map Prod.fst = SetTip m v p := by
  cases p with
  | none => rfl
  | some e =>
    unfold SetTipTrace SetTip
    simp only []
    split_ifs
    · rfl
    · exact SetTipLoopTrace_fst m _ _ _

theorem range_map_sub_succ (k n : Nat) :
    (List.range (n + 1)).map (fun d => k + 1 - d)
      = (k + 1) :: (List.range n).map (fun d => k - d) := by
  rw [List.range_succ_eq_map, List.map_cons, List.map_map]
  congr 1
  apply List.map_congr_left
  intro d _
  simp

/-- The loop of `SetTip` from height `k` down to the first shared slot: it
assigns the slots `k`, `k - 1`, ..., `M`, where the slots below `M` of the old
chain hold the ancestors of `e` and the slots from `M` on do not. -/
theorem SetTipLoopTrace_spec (m : BlockMap) (hwf : WellFormed m) (v : CChain)
    (hc : Consistent m v) (e H M : Nat)
    (hshared : 0 < M → v[M - 1]? = some (parentWalk m (H - (M - 1)) (some e)))
    (hdiff : ∀ j, M ≤ j → j ≤ H → v[j]? ≠ some (parentWalk m (H - j) (some e))) :
    ∀ (d k fuel : Nat) (w : CChain) (a : Nat), k = M + d → k + 1 ≤ fuel → k ≤ H →
      parentWalk m (H - k) (some e) = some a → (m a).nHeight = (k : Int) →
      w.length = H + 1 →
      (∀ j, j ≤ k → w[j]? = (resize v (H + 1))[j]?) →
      ∃ w1, SetTipLoopTrace m fuel w (some a)
        = some (w1, (List.range (k + 1 - M)).map (fun d => k - d)) := by
  have hslot_ne : ∀ (k a : Nat) (w : CChain), M ≤ k → k ≤ H →
      parentWalk m (H - k) (some e) = some a →
      (∀ j, j ≤ k → w[j]? = (resize v (H + 1))[j]?) →
      ∃ slot, w[k]? = some slot ∧ slot ≠ some a := by
    intro k a w hMk hkH ha hbelow
    have hs := hbelow k (le_refl _)
    rw [resize_getElem? v (H + 1) k (by omega)] at hs
    by_cases hv : k < v.length
    · rw [if_pos hv] at hs
      obtain ⟨i, hi, _, _⟩ := hc k hv
      refine ⟨some i, by rw [hs, hi], ?_⟩
      intro hia
      apply hdiff k hMk hkH
      rw [hi, ha, hia]
    · rw [if_neg hv] at hs
      exact ⟨none, hs, by simp⟩
  intro d
  induction d with
  | zero =>
    intro k fuel w a hk hfuel hkH ha hah hlen hbelow
    have hkM : k = M := by omega
    obtain ⟨f, rfl⟩ : ∃ f, fuel = f + 1 := ⟨fuel - 1, by omega⟩
    obtain ⟨slot, hslot, hne⟩ := hslot_ne k a w (by omega) hkH ha hbelow
    rw [SetTipLoopTrace, hah, if_neg (by omega)]
    simp only [Int.toNat_ofNat]
    rw [hslot]
    simp only []
    rw [if_pos hne]
    have hlist : (List.range (k + 1 - M)).map (fun d => k - d) = [k] := by
      rw [show k + 1 - M = 1 by omega]; rfl
    rw [hlist]
    by_cases hM0 : M = 0
    · have hk0 : k = 0 := by omega
      rw [hwf.genesis_no_parent a (by rw [hah, hk0]; rfl)]
      refine ⟨w.set k (some a), ?_⟩
      cases f <;> rfl
    · obtain ⟨p, hp⟩ := Option.ne_none_iff_exists'.mp
        (hwf.has_parent a (by rw [hah]; omega))
      have hph : (m p).nHeight = ((k - 1 : Nat) : Int) := by
        rw [hwf.parent_height a p hp, hah]; omega
      have hwp : parentWalk m (H - (k - 1)) (some e) = some p := by
        have : H - (k - 1) = (H - k) + 1 := by omega
        rw [this, parentWalk_add, ha]
        simp [parentWalk, hp]
      obtain ⟨g, rfl⟩ : ∃ g, f = g + 1 := ⟨f - 1, by omega⟩
      rw [hp, SetTipLoopTrace, hph, if_neg (by omega)]
      simp only [Int.toNat_ofNat]
      have hsl : (w.set k (some a))[k - 1]? = some (some p) := by
        rw [List.getElem?_set_ne (by omega), hbelow (k - 1) (by omega),
          resize_getElem? v (H + 1) (k - 1) (by omega)]
        have hsh := hshared (by omega)
        rw [hkM] at hwp ⊢
        rw [hwp] at hsh
        have hlt : M - 1 < v.length := by
          by_contra hcon
          rw [List.getElem?_eq_none (by omega)] at hsh
          cases hsh
        rw [if_pos hlt, hsh]
      rw [hsl]
      simp only []
      rw [if_neg (by simp)]
      exact ⟨w.set k (some a), rfl⟩
  | succ d ih =>
    intro k fuel w a hk hfuel hkH ha hah hlen hbelow
    obtain ⟨f, rfl⟩ : ∃ f, fuel = f + 1 := ⟨fuel - 1, by omega⟩
    obtain ⟨slot, hslot, hne⟩ := hslot_ne k a w (by omega) hkH ha hbelow
    obtain ⟨p, hp⟩ := Option.ne_none_iff_exists'.mp
      (hwf.has_parent a (by rw [hah]; omega))
    have hph : (m p).nHeight = ((k - 1 : Nat) : Int) := by
      rw [hwf.parent_height a p hp, hah]; omega
    have hwp : parentWalk m (H - (k - 1)) (some e) = some p := by
      have : H - (k - 1) = (H - k) + 1 := by omega
      rw [this, parentWalk_add, ha]
      simp [parentWalk, hp]
    obtain ⟨w1, hw1⟩ := ih (k - 1) f (w.set k (some a)) p (by omega) (by omega) (by omega)
      hwp hph (by simp [hlen])
      (fun j hj => by rw [List.getElem?_set_ne (by omega)]; exact hbelow j (by omega))
    rw [SetTipLoopTrace, hah, if_neg (by omega)]
    simp only [Int.toNat_ofNat]
    rw [hslot]
    simp only []
    rw [if_pos hne, hp, hw1]
    refine ⟨w1, ?_⟩
    simp only [Option.map_some']
    have e1 : k + 1 - M = (k - 1 + 1 - M) + 1 := by omega
    have e2 : k = (k - 1) + 1 := by omega
    rw [e1]
    conv_rhs => rw [e2, range_map_sub_succ]
    rw [← e2, show k - 1 + 1 - M = k - M by omega]

/-! ### The blocks examined by the scans -/

theorem ScanNotarisationsLoopTrace_fst (env : Env) (f : Notarisation → Bool) :
    ∀ (n : Nat) (h : Int) (found : Notarisation),
      (ScanNotarisationsLoopTrace env f n h found).1 = ScanNotarisationsLoop env f n h found := by
  intro n
  induction n with
  | zero => intro h found; rfl
  | succ n ih =>
    intro h found
    rw [ScanNotarisationsLoopTrace, ScanNotarisationsLoop]
    cases chainAt env.chainActive h with
    | none => rfl
    | some b =>
      simp only []
      cases env.GetBlockNotarisations (env.blocks b).hashBlock with
      | none => exact ih (h + 1) found
      | some notarisations =>
        simp only []
        cases notarisations.find? f with
        | none => exact ih (h + 1) found
        | some entry => rfl

theorem ScanNotarisationsLoopTrace_visited (env : Env) (f : Notarisation → Bool) :
    ∀ (n : Nat) (h : Int) (found : Notarisation),
      (ScanNotarisationsLoopTrace env f n h found).2.length ≤ n ∧
      ∀ x ∈ (ScanNotarisationsLoopTrace env f n h found).2, h ≤ x ∧ x < h + n := by
  intro n
  induction n with
  | zero => intro h found; exact ⟨le_refl _, fun x hx => by cases hx⟩
  | succ n ih =>
    intro h found
    have hstep : ∀ l : List Int, (l.length ≤ n ∧ ∀ x ∈ l, h + 1 ≤ x ∧ x < h + 1 + n) →
        (h :: l).length ≤ n + 1 ∧ ∀ x ∈ h :: l, h ≤ x ∧ x < h + (n + 1 : Nat) := by
      intro l hl
      refine ⟨by simp [hl.1], ?_⟩
      intro x hx
      rcases List.mem_cons.mp hx with rfl | hx
      · omega
      · have := hl.2 x hx
        omega
    have hone : ([h] : List Int).length ≤ n + 1 ∧
        ∀ x ∈ ([h] : List Int), h ≤ x ∧ x < h + (n + 1 : Nat) :=
      hstep [] ⟨Nat.zero_le _, fun x hx => by cases hx⟩
    rw [ScanNotarisationsLoopTrace]
    cases chainAt env.chainActive h with
    | none => exact hone
    | some b =>
      simp only []
      cases env.GetBlockNotarisations (env.blocks b).hashBlock with
      | none => exact hstep _ (ih (h + 1) found)
      | some notarisations =>
        simp only []
        cases notarisations.find? f with
        | none => exact hstep _ (ih (h + 1) found)
        | some entry => exact hone

theorem CalculateProofRootLoopTrace_fst (env : Env) (symbol : String) (targetCCid : Nat)
    (kmdHeight : Int) :
    ∀ (n : Nat) (i : Int) (st : ScanState),
      (CalculateProofRootLoopTrace env symbol targetCCid kmdHeight n i st).1
        = CalculateProofRootLoop env symbol targetCCid kmdHeight n i st := by
  intro n
  induction n with
  | zero => intro i st; rfl
  | succ n ih =>
    intro i st
    rw [CalculateProofRootLoopTrace, CalculateProofRootLoop]
    split_ifs
    · rfl
    · cases chainAt env.chainActive (kmdHeight - i) with
      | none => rfl
      | some b =>
        simp only []
        cases env.GetBlockNotarisations (env.blocks b).hashBlock with
        | none => exact ih (i + 1) st
        | some notarisations =>
          simp only []
          rcases hs : scanOwn symbol notarisations
              (st.seenOwnNotarisations, st.destNotarisationTxid) with ⟨⟨seen, dest⟩, flag⟩
          cases flag with
          | true => rfl
          | false => exact ih (i + 1) _

theorem CalculateProofRootLoopTrace_visited (env : Env) (symbol : String) (targetCCid : Nat)
    (kmdHeight : Int) :
    ∀ (n : Nat) (i : Int) (st : ScanState),
      (CalculateProofRootLoopTrace env symbol targetCCid kmdHeight n i st).2.length ≤ n ∧
      ∀ x ∈ (CalculateProofRootLoopTrace env symbol targetCCid kmdHeight n i st).2,
        kmdHeight - i - n < x ∧ x ≤ kmdHeight - i := by
  intro n
  induction n with
  | zero => intro i st; exact ⟨le_refl _, fun x hx => by cases hx⟩
  | succ n ih =>
    intro i st
    have hstep : ∀ l : List Int,
        (l.length ≤ n ∧ ∀ x ∈ l, kmdHeight - (i + 1) - n < x ∧ x ≤ kmdHeight - (i + 1)) →
        ((kmdHeight - i) :: l).length ≤ n + 1 ∧
        ∀ x ∈ (kmdHeight - i) :: l, kmdHeight - i - (n + 1 : Nat) < x ∧ x ≤ kmdHeight - i := by
      intro l hl
      refine ⟨by simp [hl.1], ?_⟩
      intro x hx
      rcases List.mem_cons.mp hx with rfl | hx
      · omega
      · have := hl.2 x hx
        omega
    have hone := hstep [] ⟨Nat.zero_le _, fun x hx => by cases hx⟩
    rw [CalculateProofRootLoopTrace]
    split_ifs
    · exact ⟨Nat.zero_le _, fun x hx => by cases hx⟩
    · cases chainAt env.chainActive (kmdHeight - i) with
      | none => exact hone
      | some b =>
        simp only []
        cases env.GetBlockNotarisations (env.blocks b).hashBlock with
        | none => exact hstep _ (ih (i + 1) st)
        | some notarisations =>
          simp only []
          rcases hs : scanOwn symbol notarisations
              (st.seenOwnNotarisations, st.destNotarisationTxid) with ⟨⟨seen, dest⟩, flag⟩
          cases flag with
          | true => exact hone
          | false => exact hstep _ (ih (i + 1) _)

theorem ScanNotarisationsFromHeightTrace_fst (env : Env) (nHeight : Int)
    (f : Notarisation → Bool) (found : Notarisation) :
    (ScanNotarisationsFromHeightTrace env nHeight f found).1
      = ScanNotarisationsFromHeight env nHeight f found :=
  ScanNotarisationsLoopTrace_fst env f _ _ found

theorem ScanNotarisationsFromHeightTrace_visited (env : Env) (nHeight : Int)
    (f : Notarisation → Bool) (found : Notarisation) :
    (ScanNotarisationsFromHeightTrace env nHeight f found).2.length
      ≤ NOTARISATION_SCAN_LIMIT_BLOCKS ∧
    ∀ x ∈ (ScanNotarisationsFromHeightTrace env nHeight f found).2,
      nHeight ≤ x ∧ 1 ≤ x ∧ x < nHeight + NOTARISATION_SCAN_LIMIT_BLOCKS ∧
        x < Height env.chainActive := by
  have h := ScanNotarisationsLoopTrace_visited env f
    (min (nHeight + NOTARISATION_SCAN_LIMIT_BLOCKS) (Height env.chainActive)
      - max nHeight 1).toNat (max nHeight 1) found
  refine ⟨?_, ?_⟩
  · refine le_trans h.1 ?_
    simp only [NOTARISATION_SCAN_LIMIT_BLOCKS]
    omega
  · intro x hx
    have := h.2 x hx
    simp only [NOTARISATION_SCAN_LIMIT_BLOCKS] at this ⊢
    omega

theorem CheckMoMoMTrace_fst (env : Env) (GetBackNotarisation : uint256 → Option Notarisation)
    (kmdNotarisationHash momom : uint256) :
    (CheckMoMoMTrace env GetBackNotarisation kmdNotarisationHash momom).1
      = CheckMoMoM env GetBackNotarisation kmdNotarisationHash momom := by
  unfold CheckMoMoMTrace CheckMoMoM
  cases GetBackNotarisation kmdNotarisationHash with
  | none => rfl
  | some bn =>
    simp only []
    cases env.GetTxConfirmed bn.1 with
    | none => rfl
    | some blockHeight =>
      simp only []
      rw [← ScanNotarisationsFromHeightTrace_fst]
      rcases ScanNotarisationsFromHeightTrace env (blockHeight - 100)
          (fun nota => nota.2.MoMoM = momom) emptyNotarisation with ⟨r, visited⟩
      cases r with
      | none => rfl
      | some p => rfl

theorem CheckMoMoMTrace_visited (env : Env)
    (GetBackNotarisation : uint256 → Option Notarisation)
    (kmdNotarisationHash momom : uint256) :
    (CheckMoMoMTrace env GetBackNotarisation kmdNotarisationHash momom).2.length
      ≤ NOTARISATION_SCAN_LIMIT_BLOCKS ∧
    ∀ bn blockHeight, GetBackNotarisation kmdNotarisationHash = some bn →
      env.GetTxConfirmed bn.1 = some blockHeight →
      ∀ x ∈ (CheckMoMoMTrace env GetBackNotarisation kmdNotarisationHash momom).2,
        blockHeight - 100 ≤ x ∧ x < blockHeight - 100 + NOTARISATION_SCAN_LIMIT_BLOCKS := by
  unfold CheckMoMoMTrace
  cases GetBackNotarisation kmdNotarisationHash with
  | none => exact ⟨Nat.zero_le _, fun bn _ h => by cases h⟩
  | some bn =>
    simp only []
    cases hG : env.GetTxConfirmed bn.1 with
    | none =>
      refine ⟨Nat.zero_le _, fun bn2 bh h1 h2 => ?_⟩
      cases h1
      rw [hG] at h2
      cases h2
    | some blockHeight =>
      simp only []
      have hv := ScanNotarisationsFromHeightTrace_visited env (blockHeight - 100)
        (fun nota => nota.2.MoMoM = momom) emptyNotarisation
      rcases hs : ScanNotarisationsFromHeightTrace env (blockHeight - 100)
          (fun nota => nota.2.MoMoM = momom) emptyNotarisation with ⟨r, visited⟩
      rw [hs] at hv
      have hgoal : visited.length ≤ NOTARISATION_SCAN_LIMIT_BLOCKS ∧
          ∀ bn2 bh, some bn = some bn2 → env.GetTxConfirmed bn2.1 = some bh →
            ∀ x ∈ visited, bh - 100 ≤ x ∧ x < bh - 100 + NOTARISATION_SCAN_LIMIT_BLOCKS := by
        refine ⟨hv.1, fun bn2 bh h1 h2 x hx => ?_⟩
        cases h1
        rw [hG] at h2
        cases h2
        have := hv.2 x hx
        exact ⟨this.1, this.2.2.1⟩
      cases r with
      | none => exact hgoal
      | some p => exact hgoal

theorem CalculateProofRootTrace_fst (env : Env) (symbol : String) (targetCCid : Nat)
    (kmdHeight : Int) (moms : List uint256) (destNotarisationTxid : uint256) :
    (CalculateProofRootTrace env symbol targetCCid kmdHeight moms destNotarisationTxid).1
      = CalculateProofRoot env symbol targetCCid kmdHeight moms destNotarisationTxid := by
  unfold CalculateProofRootTrace CalculateProofRoot
  split_ifs
  · rfl
  · rfl
  · rw [← CalculateProofRootLoopTrace_fst]
    rcases CalculateProofRootLoopTrace env symbol targetCCid kmdHeight
        NOTARISATION_SCAN_LIMIT_BLOCKS 0 ⟨0, destNotarisationTxid, []⟩ with ⟨r, visited⟩
    cases r with
    | none => rfl
    | some p =>
      obtain ⟨st, flag⟩ := p
      cases flag <;> rfl

theorem CalculateProofRootTrace_visited (env : Env) (symbol : String) (targetCCid : Nat)
    (kmdHeight : Int) (moms : List uint256) (destNotarisationTxid : uint256) :
    (CalculateProofRootTrace env symbol targetCCid kmdHeight moms
      destNotarisationTxid).2.length ≤ NOTARISATION_SCAN_LIMIT_BLOCKS ∧
    ∀ x ∈ (CalculateProofRootTrace env symbol targetCCid kmdHeight moms
        destNotarisationTxid).2,
      kmdHeight - NOTARISATION_SCAN_LIMIT_BLOCKS < x ∧ x ≤ kmdHeight := by
  unfold CalculateProofRootTrace
  split_ifs
  · exact ⟨Nat.zero_le _, fun x hx => by cases hx⟩
  · exact ⟨Nat.zero_le _, fun x hx => by cases hx⟩
  · have hv := CalculateProofRootLoopTrace_visited env symbol targetCCid kmdHeight
      NOTARISATION_SCAN_LIMIT_BLOCKS 0 ⟨0, destNotarisationTxid, []⟩
    rcases hs : CalculateProofRootLoopTrace env symbol targetCCid kmdHeight
        NOTARISATION_SCAN_LIMIT_BLOCKS 0 ⟨0, destNotarisationTxid, []⟩ with ⟨r, visited⟩
    rw [hs] at hv
    have hgoal : visited.length ≤ NOTARISATION_SCAN_LIMIT_BLOCKS ∧
        ∀ x ∈ visited, kmdHeight - NOTARISATION_SCAN_LIMIT_BLOCKS < x ∧ x ≤ kmdHeight := by
      refine ⟨hv.1, fun x hx => ?_⟩
      have := hv.2 x hx
      omega
    cases r with
    | none => exact hgoal
    | some p =>
      obtain ⟨st, flag⟩ := p
      cases flag <;> exact hgoal

/-- The lowest bit of a non-negative `int`, as tested by `height & 1`. -/
theorem land_one_eq_mod (h : Int) (h0 : 0 ≤ h) : Int.land h 1 = h % 2 := by
  obtain ⟨k, rfl⟩ := Int.eq_ofNat_of_zero_le h0
  show ((k &&& 1 : Nat) : Int) = (k : Int) % 2
  rw [Nat.and_one_is_mod]
  omega

/-! ### The eras of `STAKED_era` -/

/-- The loop of `STAKED_era` returns 0 when no index passes its test, and
otherwise the first index that passes it, plus one. -/
theorem STAKED_eraLoop_spec (T : StakedTables) (t : Int) :
    ∀ (n s : Nat),
      (STAKED_eraLoop T t n s = 0 ∧
        ∀ j, s ≤ j → j < s + n →
          ¬ (t ≤ T.STAKED_NOTARIES_TIMESTAMP j ∧
             t ≥ toInt32 (T.STAKED_NOTARIES_TIMESTAMP (j - 1) + T.STAKED_ERA_GAP))) ∨
      (∃ j, s ≤ j ∧ j < s + n ∧
        (t ≤ T.STAKED_NOTARIES_TIMESTAMP j ∧
          t ≥ toInt32 (T.STAKED_NOTARIES_TIMESTAMP (j - 1) + T.STAKED_ERA_GAP)) ∧
        STAKED_eraLoop T t n s = (j : Int) + 1) := by
  intro n
  induction n with
  | zero =>
    intro s
    exact Or.inl ⟨rfl, fun j h1 h2 => by omega⟩
  | succ n ih =>
    intro s
    by_cases hc : t ≤ T.STAKED_NOTARIES_TIMESTAMP s ∧
        t ≥ toInt32 (T.STAKED_NOTARIES_TIMESTAMP (s - 1) + T.STAKED_ERA_GAP)
    · refine Or.inr ⟨s, le_refl s, by omega, hc, ?_⟩
      rw [STAKED_eraLoop, if_pos hc]
    · rcases ih (s + 1) with ⟨h0, hall⟩ | ⟨j, hj1, hj2, hcj, hres⟩
      · refine Or.inl ⟨?_, ?_⟩
        · rw [STAKED_eraLoop, if_neg hc]; exact h0
        · intro j hj1 hj2
          rcases Nat.eq_or_lt_of_le hj1 with h | h
          · subst h; exact hc
          · exact hall j (by omega) (by omega)
      · refine Or.inr ⟨j, by omega, by omega, hcj, ?_⟩
        rw [STAKED_eraLoop, if_neg hc]; exact hres

/-- The value of `STAKED_era`: 1 up to the first boundary, otherwise the
index, plus one, of the first era whose test holds, or 0. -/
theorem STAKED_era_cases_wrapped (T : StakedTables) (t : Int) :
    (t ≤ T.STAKED_NOTARIES_TIMESTAMP 0 ∧ STAKED_era T t = 1) ∨
    (¬ t ≤ T.STAKED_NOTARIES_TIMESTAMP 0 ∧ STAKED_era T t = 0 ∧
      ∀ j, 1 ≤ j → j < T.NUM_STAKED_ERAS →
        ¬ (t ≤ T.STAKED_NOTARIES_TIMESTAMP j ∧
           t ≥ toInt32 (T.STAKED_NOTARIES_TIMESTAMP (j - 1) + T.STAKED_ERA_GAP))) ∨
    (¬ t ≤ T.STAKED_NOTARIES_TIMESTAMP 0 ∧
      ∃ j, 1 ≤ j ∧ j < T.NUM_STAKED_ERAS ∧
        (t ≤ T.STAKED_NOTARIES_TIMESTAMP j ∧
          t ≥ toInt32 (T.STAKED_NOTARIES_TIMESTAMP (j - 1) + T.STAKED_ERA_GAP)) ∧
        STAKED_era T t = (j : Int) + 1) := by
  by_cases h0 : t ≤ T.STAKED_NOTARIES_TIMESTAMP 0
  · left
    exact ⟨h0, by rw [STAKED_era, if_pos h0]⟩
  · right
    have he : STAKED_era T t = STAKED_eraLoop T t (T.NUM_STAKED_ERAS - 1) 1 := by
      rw [STAKED_era, if_neg h0]
    rcases STAKED_eraLoop_spec T t (T.NUM_STAKED_ERAS - 1) 1 with ⟨hz, hall⟩ | ⟨j, h1, h2, hc, hr⟩
    · left
      exact ⟨h0, by rw [he, hz], fun j hj1 hj2 => hall j hj1 (by omega)⟩
    · right
      exact ⟨h0, j, h1, by omega, hc, by rw [he, hr]⟩

/-- The value of `STAKED_era` when the sums fit in an `int`: 1 up to the first
boundary, otherwise the index, plus one, of an era whose window holds the
timestamp, or 0. -/
theorem STAKED_era_cases (T : StakedTables) (hfit : EraSumsFit T) (t : Int) :
    (t ≤ T.STAKED_NOTARIES_TIMESTAMP 0 ∧ STAKED_era T t = 1) ∨
    (¬ t ≤ T.STAKED_NOTARIES_TIMESTAMP 0 ∧ STAKED_era T t = 0 ∧
      ∀ j, 1 ≤ j → j < T.NUM_STAKED_ERAS →
        ¬ (t ≤ T.STAKED_NOTARIES_TIMESTAMP j ∧
           t ≥ T.STAKED_NOTARIES_TIMESTAMP (j - 1) + T.STAKED_ERA_GAP)) ∨
    (¬ t ≤ T.STAKED_NOTARIES_TIMESTAMP 0 ∧
      ∃ j, 1 ≤ j ∧ j < T.NUM_STAKED_ERAS ∧
        (t ≤ T.STAKED_NOTARIES_TIMESTAMP j ∧
          t ≥ T.STAKED_NOTARIES_TIMESTAMP (j - 1) + T.STAKED_ERA_GAP) ∧
        STAKED_era T t = (j : Int) + 1) := by
  rcases STAKED_era_cases_wrapped T t with h | ⟨h0, hz, hall⟩ | ⟨h0, j, h1, h2, hc, hr⟩
  · exact Or.inl h
  · refine Or.inr (Or.inl ⟨h0, hz, fun j hj1 hj2 hc => hall j hj1 hj2 ?_⟩)
    rw [EraSumsFit_sum T hfit j hj1 hj2]
    exact hc
  · refine Or.inr (Or.inr ⟨h0, j, h1, h2, ?_, hr⟩)
    rw [EraSumsFit_sum T hfit j h1 h2] at hc
    exact hc

/-- For increasing boundaries and a positive gap the windows of two different
eras do not meet, and the later window lies above the earlier one. -/
theorem STAKED_windows_ordered (T : StakedTables)
    (hinc : ∀ a b, a < b → b < T.NUM_STAKED_ERAS →
      T.STAKED_NOTARIES_TIMESTAMP a < T.STAKED_NOTARIES_TIMESTAMP b)
    (hG : 0 < T.STAKED_ERA_GAP) (a b : Nat) (hab : a < b) (hb : b < T.NUM_STAKED_ERAS)
    (x y : Int) (hx : x ≤ T.STAKED_NOTARIES_TIMESTAMP a)
    (hy : T.STAKED_NOTARIES_TIMESTAMP (b - 1) + T.STAKED_ERA_GAP ≤ y) : x < y := by
  have hmono : T.STAKED_NOTARIES_TIMESTAMP a ≤ T.STAKED_NOTARIES_TIMESTAMP (b - 1) := by
    rcases Nat.lt_or_ge a (b - 1) with h | h
    · exact le_of_lt (hinc a (b - 1) h (by omega))
    · have : a = b - 1 := by omega
      rw [this]
  omega

/-! ### `CheckTxAuthority` -/

theorem findNotary_some (auth : CrosschainAuthority) (seen : List Bool) (pk : Bytes) :
    ∀ (n s i : Nat), findNotary auth seen pk n s = some (some i) →
      s ≤ i ∧ i < s + n ∧ seen[i]? = some false ∧
      ∃ key, auth.notaries[i]? = some key ∧ pk.take 33 = key.take 33 := by
  intro n
  induction n with
  | zero => intro s i h; simp [findNotary] at h
  | succ n ih =>
    intro s i h
    rw [findNotary] at h
    cases hs : seen[s]? with
    | none => rw [hs] at h; cases h
    | some b =>
      rw [hs] at h
      simp only [] at h
      cases b with
      | true =>
        rw [if_neg (by decide)] at h
        obtain ⟨h1, h2, h3, h4⟩ := ih (s + 1) i h
        exact ⟨by omega, by omega, h3, h4⟩
      | false =>
        rw [if_pos rfl] at h
        cases hk : auth.notaries[s]? with
        | none => rw [hk] at h; cases h
        | some key =>
          rw [hk] at h
          simp only [] at h
          by_cases hpk : pk.take 33 = key.take 33
          · rw [if_pos hpk] at h
            cases h
            exact ⟨le_refl _, by omega, hs, key, hk, hpk⟩
          · rw [if_neg hpk] at h
            obtain ⟨h1, h2, h3, h4⟩ := ih (s + 1) i h
            exact ⟨by omega, by omega, h3, h4⟩

theorem findNotary_none_of_no_slot (auth : CrosschainAuthority) (seen : List Bool)
    (pk : Bytes) :
    ∀ (n s : Nat), findNotary auth seen pk n s = some none →
      ∀ i, s ≤ i → i < s + n → seen[i]? = some false →
        ∀ key, auth.notaries[i]? = some key → pk.take 33 ≠ key.take 33 := by
  intro n
  induction n with
  | zero => intro s _ i h1 h2; omega
  | succ n ih =>
    intro s h i hi1 hi2 hseen key hkey
    rw [findNotary] at h
    cases hs : seen[s]? with
    | none => rw [hs] at h; cases h
    | some b =>
      rw [hs] at h
      simp only [] at h
      cases b with
      | true =>
        rw [if_neg (by decide)] at h
        rcases Nat.eq_or_lt_of_le hi1 with he | hl
        · subst he; rw [hs] at hseen; cases hseen
        · exact ih (s + 1) h i (by omega) (by omega) hseen key hkey
      | false =>
        rw [if_pos rfl] at h
        cases hk : auth.notaries[s]? with
        | none => rw [hk] at h; cases h
        | some key2 =>
          rw [hk] at h
          simp only [] at h
          by_cases hpk : pk.take 33 = key2.take 33
          · rw [if_pos hpk] at h; cases h
          · rw [if_neg hpk] at h
            rcases Nat.eq_or_lt_of_le hi1 with he | hl
            · subst he; rw [hk] at hkey; cases hkey; exact hpk
            · exact ih (s + 1) h i (by omega) (by omega) hseen key hkey

theorem findNotary_total (auth : CrosschainAuthority) (seen : List Bool) (pk : Bytes) :
    ∀ (n s : Nat), s + n ≤ seen.length → s + n ≤ auth.notaries.length →
      findNotary auth seen pk n s ≠ none := by
  intro n
  induction n with
  | zero => intro s _ _; simp [findNotary]
  | succ n ih =>
    intro s h1 h2
    rw [findNotary]
    rw [List.getElem?_eq_getElem (by omega : s < seen.length)]
    simp only []
    split_ifs
    · rw [List.getElem?_eq_getElem (by omega : s < auth.notaries.length)]
      simp only []
      split_ifs
      · simp
      · exact ih (s + 1) (by omega) (by omega)
    · exact ih (s + 1) (by omega) (by omega)

/-- A passing loop of `CheckTxAuthority` credits its inputs to distinct signer
slots that were not seen before. -/
theorem CheckTxAuthorityLoop_true (GetTxUnconfirmed : uint256 → Option CTransaction)
    (auth : CrosschainAuthority) :
    ∀ (ins : List CTxIn) (seen : List Bool),
      CheckTxAuthorityLoop GetTxUnconfirmed auth ins seen = some true →
      ∃ slots, List.Forall₂ (SpendsNotaryOutput GetTxUnconfirmed auth) ins slots ∧
        slots.Nodup ∧ ∀ i ∈ slots, seen[i]? = some false := by
  intro ins
  induction ins with
  | nil => intro seen _; exact ⟨[], List.Forall₂.nil, List.nodup_nil, fun i hi => by cases hi⟩
  | cons txIn rest ih =>
    intro seen h
    rw [CheckTxAuthorityLoop] at h
    cases hG : GetTxUnconfirmed txIn.prevout.hash with
    | none => rw [hG] at h; cases h
    | some prev =>
      rw [hG] at h
      simp only [] at h
      by_cases h1 : prev.vout.length < txIn.prevout.n
      · rw [if_pos h1] at h; cases h
      · rw [if_neg h1] at h
        cases hout : prev.vout[txIn.prevout.n]? with
        | none => rw [hout] at h; cases h
        | some out =>
          rw [hout] at h
          simp only [] at h
          by_cases h2 : out.scriptPubKey.length ≠ 35
          · rw [if_pos h2] at h; cases h
          · rw [if_neg h2] at h
            by_cases h3 : out.scriptPubKey[0]? ≠ some 33
            · rw [if_pos h3] at h; cases h
            · rw [if_neg h3] at h
              by_cases h4 : out.scriptPubKey[34]? ≠ some OP_CHECKSIG
              · rw [if_pos h4] at h; cases h
              · rw [if_neg h4] at h
                cases hf : findNotary auth seen (out.scriptPubKey.drop 1) auth.size.toNat 0 with
                | none => rw [hf] at h; cases h
                | some r =>
                  rw [hf] at h
                  cases r with
                  | none => cases h
                  | some i =>
                    simp only [] at h
                    obtain ⟨_, hlt, hseen, key, hkey, hpk⟩ :=
                      findNotary_some auth seen _ _ _ _ hf
                    obtain ⟨slots, hall, hnd, hfree⟩ := ih (seen.set i true) h
                    have hilt : i < seen.length := by
                      by_contra hcon
                      rw [List.getElem?_eq_none (by omega)] at hseen
                      cases hseen
                    refine ⟨i :: slots, List.Forall₂.cons ?_ hall, ?_, ?_⟩
                    · exact ⟨by omega, prev, out, key, hG, hout, not_not.mp h2,
                        not_not.mp h3, not_not.mp h4, hkey, hpk⟩
                    · refine List.nodup_cons.mpr ⟨?_, hnd⟩
                      intro hmem
                      have := hfree i hmem
                      rw [List.getElem?_set_self hilt] at this
                      cases this
                    · intro j hj
                      rcases List.mem_cons.mp hj with rfl | hj
                      · exact hseen
                      · have hne : i ≠ j := by
                          intro he
                          subst he
                          have := hfree i hj
                          rw [List.getElem?_set_self hilt] at this
                          cases this
                        have := hfree j hj
                        rwa [List.getElem?_set_ne hne] at this

/-- An input that no signer slot can be credited with stops a loop of
`CheckTxAuthority` that reaches it without a read outside an array. -/
theorem CheckTxAuthorityLoop_total (GetTxUnconfirmed : uint256 → Option CTransaction)
    (auth : CrosschainAuthority) (hsize : auth.size ≤ 64)
    (hslots : auth.size.toNat ≤ auth.notaries.length) :
    ∀ (ins : List CTxIn) (seen : List Bool), seen.length = 64 →
      (∀ x ∈ ins, ∀ prev, GetTxUnconfirmed x.prevout.hash = some prev →
        prev.vout.length ≠ x.prevout.n) →
      ∃ b, CheckTxAuthorityLoop GetTxUnconfirmed auth ins seen = some b := by
  intro ins
  induction ins with
  | nil => intro seen _ _; exact ⟨true, rfl⟩
  | cons txIn rest ih =>
    intro seen hlen hsafe
    rw [CheckTxAuthorityLoop]
    cases hG : GetTxUnconfirmed txIn.prevout.hash with
    | none => exact ⟨false, rfl⟩
    | some prev =>
      simp only []
      by_cases h1 : prev.vout.length < txIn.prevout.n
      · rw [if_pos h1]; exact ⟨false, rfl⟩
      · rw [if_neg h1]
        have hne := hsafe txIn (List.mem_cons_self _ _) prev hG
        rw [List.getElem?_eq_getElem (by omega : txIn.prevout.n < prev.vout.length)]
        simp only []
        by_cases h2 : (prev.vout[txIn.prevout.n]).scriptPubKey.length ≠ 35
        · rw [if_pos h2]; exact ⟨false, rfl⟩
        · rw [if_neg h2]
          by_cases h3 : (prev.vout[txIn.prevout.n]).scriptPubKey[0]? ≠ some 33
          · rw [if_pos h3]; exact ⟨false, rfl⟩
          · rw [if_neg h3]
            by_cases h4 : (prev.vout[txIn.prevout.n]).scriptPubKey[34]? ≠ some OP_CHECKSIG
            · rw [if_pos h4]; exact ⟨false, rfl⟩
            · rw [if_neg h4]
              have ht := findNotary_total auth seen
                ((prev.vout[txIn.prevout.n]).scriptPubKey.drop 1) auth.size.toNat 0
                (by omega) (by omega)
              cases hf : findNotary auth seen
                  ((prev.vout[txIn.prevout.n]).scriptPubKey.drop 1) auth.size.toNat 0 with
              | none => exact absurd hf ht
              | some r =>
                cases r with
                | none => exact ⟨false, rfl⟩
                | some i =>
                  simp only []
                  exact ih (seen.set i true) (by simp [hlen])
                    (fun x hx => hsafe x (List.mem_cons_of_mem _ hx))


theorem forall₂_exists_of_mem {α β : Type} {R : α → β → Prop} {l1 : List α} {l2 : List β}
    (h : List.Forall₂ R l1 l2) : ∀ a ∈ l1, ∃ b, R a b := by
  induction h with
  | nil => intro a ha; cases ha
  | @cons x y xs ys hxy _ ih =>
    intro a ha
    rcases List.mem_cons.mp ha with rfl | ha
    · exact ⟨y, hxy⟩
    · exact ih a ha

/-- The slots assigned by `SetTip`: with `M` the number of leading slots of the
old chain that hold ancestors of `e`, the loop assigns the slots `H, .., M`. -/
theorem SetTipTrace_spec (m : BlockMap) (hwf : WellFormed m) (v : CChain)
    (hc : Consistent m v) (e H M : Nat) (hH : (m e).nHeight = (H : Int)) (hM : M ≤ H)
    (hshared : 0 < M → v[M - 1]? = some (parentWalk m (H - (M - 1)) (some e)))
    (hdiff : ∀ j, M ≤ j → j ≤ H → v[j]? ≠ some (parentWalk m (H - j) (some e))) :
    ∃ v1, SetTipTrace m v (some e)
        = some (v1, (List.range (H + 1 - M)).map (fun d => H - d)) ∧
      SetTip m v (some e) = some v1 := by
  obtain ⟨w1, hw1⟩ := SetTipLoopTrace_spec m hwf v hc e H M hshared hdiff (H - M) H (H + 1)
    (resize v (H + 1)) e (by omega) (le_refl _) (le_refl _) (by simp [parentWalk]) hH
    (resize_length v (H + 1)) (fun j _ => rfl)
  have htrace : SetTipTrace m v (some e)
      = some (w1, (List.range (H + 1 - M)).map (fun d => H - d)) := by
    unfold SetTipTrace
    simp only []
    rw [if_neg (by omega), show ((m e).nHeight + 1).toNat = H + 1 by omega]
    exact hw1
  refine ⟨w1, htrace, ?_⟩
  rw [← SetTipTrace_fst, htrace]; rfl

/-! ### The iterations of `GetAncestor` -/

theorem GetAncestorLoopTrace_fst (m : BlockMap) (height : Int) :
    ∀ (fuel : Nat) (p : BlockPtr) (heightWalk : Int),
      (GetAncestorLoopTrace m height fuel p heightWalk).1
        = GetAncestorLoop m height fuel p heightWalk := by
  intro fuel
  induction fuel with
  | zero =>
    intro p hW
    unfold GetAncestorLoopTrace GetAncestorLoop
    cases p with
    | none => rfl
    | some w =>
      simp only []
      split_ifs <;> rfl
  | succ fuel ih =>
    intro p hW
    unfold GetAncestorLoopTrace GetAncestorLoop
    cases p with
    | none => rfl
    | some w =>
      simp only []
      split_ifs
      · exact ih _ _
      · cases (m w).pprev with
        | none => rfl
        | some q => exact ih _ _
      · rfl

theorem GetAncestorTrace_fst (m : BlockMap) (self : Nat) (height : Int) :
    (GetAncestorTrace m self height).1 = GetAncestor m self height := by
  unfold GetAncestorTrace GetAncestor
  split_ifs
  · rfl
  · exact GetAncestorLoopTrace_fst m height _ _ _

/-- The iterations of the loop of `GetAncestor` on a well-formed index: every
iteration starts on an entry of height `heightWalk > height`, the heights
strictly decrease, and the loop ends on an entry of the target height. -/
theorem GetAncestorLoopTrace_spec (m : BlockMap) (hwf : WellFormed m)
    (height : Int) (h0 : 0 ≤ height) :
    ∀ (fuel : Nat) (w : Nat) (heightWalk : Int),
      (m w).nHeight = heightWalk → height ≤ heightWalk → heightWalk.toNat ≤ fuel →
      ∃ r trace, GetAncestorLoopTrace m height fuel (some w) heightWalk = (some (some r), trace) ∧
        (m r).nHeight = height ∧
        (∀ s ∈ trace, (m s.1).nHeight = s.2 ∧ height < s.2 ∧ s.2 ≤ heightWalk) ∧
        trace.Pairwise (fun a b => b.2 < a.2) ∧
        (trace.length : Int) ≤ heightWalk - height := by
  intro fuel
  induction fuel with
  | zero =>
    intro w hW hw hle hfuel
    have : hW = height := by omega
    subst this
    refine ⟨w, [], ?_, hw, (fun s hs => by cases hs), List.Pairwise.nil, by simp⟩
    unfold GetAncestorLoopTrace
    simp
  | succ fuel ih =>
    intro w hW hw hle hfuel
    by_cases hgt : hW > height
    · have hpos : 0 < hW := by omega
      have hsl := GetSkipHeight_lt hW hpos
      have hsn := GetSkipHeight_nonneg hW
      have hstep : ∀ (q : Nat) (hq : Int), (m q).nHeight = hq → height ≤ hq → hq < hW →
          ∃ r trace,
            ((GetAncestorLoopTrace m height fuel (some q) hq).1,
              (w, hW) :: (GetAncestorLoopTrace m height fuel (some q) hq).2)
                = (some (some r), trace) ∧
            (m r).nHeight = height ∧
            (∀ s ∈ trace, (m s.1).nHeight = s.2 ∧ height < s.2 ∧ s.2 ≤ hW) ∧
            trace.Pairwise (fun a b => b.2 < a.2) ∧
            (trace.length : Int) ≤ hW - height := by
        intro q hq hqh hqle hqlt
        obtain ⟨r, trace, htr, hr, hall, hpw, hlen⟩ := ih q hq hqh hqle (by omega)
        refine ⟨r, (w, hW) :: trace, by rw [htr], hr, ?_, ?_, ?_⟩
        · intro s hs
          rcases List.mem_cons.mp hs with rfl | hs
          · exact ⟨hw, hgt, le_refl _⟩
          · obtain ⟨a, b, c⟩ := hall s hs
            exact ⟨a, b, by omega⟩
        · refine List.Pairwise.cons ?_ hpw
          intro s hs
          have := (hall s hs).2.2
          show s.2 < hW
          omega
        · simp only [List.length_cons]
          push_cast
          omega
      unfold GetAncestorLoopTrace
      simp only []
      rw [if_pos hgt]
      split_ifs with hc
      · obtain ⟨hne, hcond⟩ := hc
        obtain ⟨s, hs⟩ := Option.ne_none_iff_exists'.mp hne
        have hge : height ≤ GetSkipHeight hW := by
          rcases hcond with h | h
          · omega
          · omega
        have hwalk := hwf.skip_linked w s hs
        rw [hw] at hwalk
        obtain ⟨a, ha, hah⟩ := parentWalk_height m hwf.parentLinked
          (hW - GetSkipHeight hW).toNat w (by rw [hw]; omega)
        rw [hwalk] at ha
        cases ha
        have hsh : (m s).nHeight = GetSkipHeight hW := by rw [hah, hw]; omega
        rw [hs]
        exact hstep s _ hsh hge hsl
      · obtain ⟨p, hp, hph⟩ := hwf.parentLinked w (by rw [hw]; exact hpos)
        rw [hp]
        simp only []
        exact hstep p (hW - 1) (by rw [hph, hw]) (by omega) (by omega)
    · have : hW = height := by omega
      subst this
      refine ⟨w, [], ?_, hw, (fun s hs => by cases hs), List.Pairwise.nil, by simp⟩
      unfold GetAncestorLoopTrace
      simp

theorem locatorStep_succ (s : Nat) :
    (if s + 1 > 10 then locatorStep s * 2 else locatorStep s) = locatorStep (s + 1) := by
  unfold locatorStep
  rcases Nat.lt_trichotomy s 10 with h | h | h
  · rw [if_neg (by omega : ¬ s + 1 > 10), if_pos (by omega : s ≤ 10),
      if_pos (by omega : s + 1 ≤ 10)]
  · subst h
    decide
  · rw [if_pos (by omega : s + 1 > 10), if_neg (by omega : ¬ s ≤ 10),
      if_neg (by omega : ¬ s + 1 ≤ 10), show s + 1 - 10 = (s - 10) + 1 by omega, pow_succ]

theorem locatorStep_pos (s : Nat) : 1 ≤ locatorStep s := by
  unfold locatorStep
  split_ifs
  · exact le_refl _
  · have : (0 : Int) < 2 ^ (s - 10) := by positivity
    omega

/-- The heights of consecutive entries of the locator: the entry after the
one at position `k` lies `nStep` lower, clamped at height 0. -/
theorem GetLocatorLoop_gaps (m : BlockMap) (hwf : WellFormed m) (v : CChain)
    (hc : Consistent m v) :
    ∀ (fuel i : Nat) (vHave : List uint256),
      (m i).nHeight + 1 ≤ fuel →
      ∃ ids : List Nat,
        GetLocatorLoop m v fuel (some i) (locatorStep vHave.length) vHave
          = some (vHave ++ ids.map (fun a => (m a).hashBlock)) ∧
        ids.head? = some i ∧
        (∀ k a b, ids[k]? = some a → ids[k + 1]? = some b →
          (m b).nHeight = max ((m a).nHeight - locatorStep (vHave.length + k)) 0) ∧
        ∃ g, ids.getLast? = some g ∧ (m g).nHeight = 0 := by
  intro fuel
  induction fuel with
  | zero =>
    intro i _ hf
    have := hwf.height_nonneg i
    omega
  | succ fuel ih =>
    intro i vHave hf
    by_cases h0 : (m i).nHeight = 0
    · refine ⟨[i], ?_, rfl, ?_, i, rfl, h0⟩
      · rw [GetLocatorLoop_genesis m v fuel i _ vHave h0]; rfl
      · intro k a b _ hb
        simp at hb
    · have hsp := locatorStep_pos vHave.length
      obtain ⟨j, hj, hjh, heq⟩ := GetLocatorLoop_step m hwf v hc fuel i
        (locatorStep vHave.length) vHave h0 (by omega)
      have hnn := hwf.height_nonneg i
      have hlt : (m j).nHeight < (m i).nHeight := by
        rw [hjh]
        rcases max_cases ((m i).nHeight - locatorStep vHave.length) 0 with h | h <;> omega
      have hlen : (vHave ++ [(m i).hashBlock]).length = vHave.length + 1 := by simp
      rw [hlen, locatorStep_succ, ← hlen] at heq
      obtain ⟨ids, hids, hhead, hgap, g, hg, hg0⟩ := ih j (vHave ++ [(m i).hashBlock])
        (by omega)
      refine ⟨i :: ids, ?_, rfl, ?_, g, ?_, hg0⟩
      · rw [heq, hids]
        simp
      · intro k a b ha hb
        cases k with
        | zero =>
          simp only [List.getElem?_cons_zero, Option.some.injEq] at ha
          subst ha
          simp only [List.getElem?_cons_succ] at hb
          cases ids with
          | nil => simp at hhead
          | cons x xs =>
            simp only [List.head?_cons, Option.some.injEq] at hhead
            simp only [List.getElem?_cons_zero, Option.some.injEq] at hb
            subst hb
            subst hhead
            rw [hjh, Nat.add_zero]
        | succ k =>
          simp only [List.getElem?_cons_succ] at ha hb
          have := hgap k a b ha hb
          rw [hlen] at this
          rw [this, show vHave.length + (k + 1) = vHave.length + 1 + k by omega]
      · cases ids with
        | nil => simp at hhead
        | cons x xs => rw [List.getLast?_cons_cons]; exact hg

/-! ### The exact collection range of `CalculateProofRoot` -/

theorem collectMoms_only (authority : CrosschainType) (targetCCid : Nat) (y : uint256) :
    ∀ (ns : List Notarisation) (moms : List uint256),
      y ∈ collectMoms authority targetCCid ns moms →
      y ∈ moms ∨ ∃ nota ∈ ns, GetSymbolAuthority nota.2.symbol = authority ∧
        nota.2.ccId = targetCCid ∧ nota.2.MoM = y := by
  intro ns
  induction ns with
  | nil => intro moms h; exact Or.inl h
  | cons x rest ih =>
    intro moms h
    rw [collectMoms] at h
    by_cases hc : GetSymbolAuthority x.2.symbol = authority ∧ x.2.ccId = targetCCid
    · rw [if_pos hc] at h
      rcases ih _ h with h1 | ⟨nota, hn, h2⟩
      · rcases (mem_setInsert _ _ _).mp h1 with h3 | h3
        · exact Or.inr ⟨x, List.mem_cons_self _ _, hc.1, hc.2, h3.symm⟩
        · exact Or.inl h3
      · exact Or.inr ⟨nota, List.mem_cons_of_mem _ hn, h2⟩
    · rw [if_neg hc] at h
      rcases ih _ h with h1 | ⟨nota, hn, h2⟩
      · exact Or.inl h1
      · exact Or.inr ⟨nota, List.mem_cons_of_mem _ hn, h2⟩

/-- Every MoM in `tmp_moms` after the block loop was there before or comes
from a block met with the counter at least 1 and below 7. -/
theorem CalculateProofRootLoop_collects_only (env : Env) (symbol : String)
    (targetCCid : Nat) (kmdHeight : Int) :
    ∀ (n : Nat) (i : Int) (st : ScanState) (r : ScanState × Bool),
      0 ≤ st.seenOwnNotarisations → st.seenOwnNotarisations < 7 →
      CalculateProofRootLoop env symbol targetCCid kmdHeight n i st = some r →
      ∀ y ∈ r.1.tmp_moms, y ∈ st.tmp_moms ∨
        ∃ j : Nat, j < n ∧ i + j ≤ kmdHeight ∧
          1 ≤ st.seenOwnNotarisations
            + (ownNotarisations symbol (scanWindow env kmdHeight (j + 1) i)).length ∧
          st.seenOwnNotarisations
            + (ownNotarisations symbol (scanWindow env kmdHeight (j + 1) i)).length < 7 ∧
          ∃ nota ∈ blockNotarisations env (kmdHeight - (i + j)),
            GetSymbolAuthority nota.2.symbol = GetSymbolAuthority symbol ∧
            nota.2.ccId = targetCCid ∧ nota.2.MoM = y := by
  intro n
  induction n with
  | zero =>
    intro i st r _ _ hr y hy
    simp only [CalculateProofRootLoop, Option.some.injEq] at hr
    subst hr
    exact Or.inl hy
  | succ n ih =>
    intro i st r h0 h7 hr y hy
    by_cases hi : i > kmdHeight
    · rw [CalculateProofRootLoop, if_pos hi] at hr
      cases hr
      exact Or.inl hy
    · have hb := CalculateProofRootLoop_slot env symbol targetCCid kmdHeight n i st _ hi hr
      rw [CalculateProofRootLoop_succ env symbol targetCCid kmdHeight n i st hi hb,
        scanOwn_spec symbol _ _ _ h0 h7] at hr
      have hw : ∀ j, scanWindow env kmdHeight (j + 1) i
          = blockNotarisations env (kmdHeight - i) ++ scanWindow env kmdHeight j (i + 1) := by
        intro j
        rw [scanWindow, if_neg hi]
      by_cases hend : 7 ≤ st.seenOwnNotarisations
          + ((ownNotarisations symbol (blockNotarisations env (kmdHeight - i))).length : Int)
      · simp only [hend, decide_True] at hr
        cases hr
        exact Or.inl hy
      · simp only [hend, decide_False] at hr
        have hmin : min (st.seenOwnNotarisations
            + ((ownNotarisations symbol (blockNotarisations env (kmdHeight - i))).length : Int)) 7
            = st.seenOwnNotarisations
              + (ownNotarisations symbol (blockNotarisations env (kmdHeight - i))).length := by
          omega
        rw [hmin] at hr
        rcases ih (i + 1) _ r (by simp only; omega) (by simp only; omega) hr y hy with h1 | h1
        · simp only at h1
          by_cases hge : st.seenOwnNotarisations
              + ((ownNotarisations symbol (blockNotarisations env (kmdHeight - i))).length : Int)
              ≥ 1
          · rw [if_pos hge] at h1
            rcases collectMoms_only _ _ y _ _ h1 with h2 | ⟨nota, hn, ha, hc, hm⟩
            · exact Or.inl h2
            · refine Or.inr ⟨0, by omega, by simp; omega, ?_, ?_, nota, ?_, ha, hc, hm⟩
              · rw [hw 0, ownNotarisations_append, List.length_append]
                simp only [scanWindow, ownNotarisations, List.filter_nil, List.length_nil,
                  Nat.add_zero]
                simpa [ownNotarisations] using hge
              · rw [hw 0, ownNotarisations_append, List.length_append]
                simp only [scanWindow, ownNotarisations, List.filter_nil, List.length_nil,
                  Nat.add_zero]
                have := hend
                simp only [ownNotarisations] at this
                omega
              · simpa using hn
          · rw [if_neg hge] at h1
            exact Or.inl h1
        · obtain ⟨j, hj, hij, hlo, hhi, nota, hn, hrest⟩ := h1
          simp only at hlo hhi
          refine Or.inr ⟨j + 1, by omega, by push_cast; omega, ?_, ?_, nota, ?_, hrest⟩
          · rw [hw (j + 1), ownNotarisations_append, List.length_append]
            push_cast
            omega
          · rw [hw (j + 1), ownNotarisations_append, List.length_append]
            push_cast
            omega
          · have hidx : kmdHeight - (i + ((j + 1 : Nat) : Int))
                = kmdHeight - (i + 1 + (j : Int)) := by
              push_cast; ring
            rw [hidx]; exact hn

/-- A block is examined by the block loop of `CalculateProofRoot` only while
the counter, after the blocks examined before it, is below 7. -/
theorem CalculateProofRootLoopTrace_examined (env : Env) (symbol : String)
    (targetCCid : Nat) (kmdHeight : Int) :
    ∀ (n : Nat) (i : Int) (st : ScanState),
      0 ≤ st.seenOwnNotarisations → st.seenOwnNotarisations < 7 →
      ∀ x ∈ (CalculateProofRootLoopTrace env symbol targetCCid kmdHeight n i st).2,
        ∃ j : Nat, j < n ∧ x = kmdHeight - (i + j) ∧
          st.seenOwnNotarisations
            + (ownNotarisations symbol (scanWindow env kmdHeight j i)).length < 7 := by
  intro n
  induction n with
  | zero =>
    intro i st _ _ x hx
    simp [CalculateProofRootLoopTrace] at hx
  | succ n ih =>
    intro i st h0 h7 x hx
    have hzero : ∃ j : Nat, j < n + 1 ∧ kmdHeight - i = kmdHeight - (i + j) ∧
        st.seenOwnNotarisations
          + (ownNotarisations symbol (scanWindow env kmdHeight j i)).length < 7 := by
      refine ⟨0, by omega, by simp, ?_⟩
      simp only [scanWindow, ownNotarisations, List.filter_nil, List.length_nil]
      simpa using h7
    rw [CalculateProofRootLoopTrace] at hx
    by_cases hi : i > kmdHeight
    · rw [if_pos hi] at hx
      cases hx
    · rw [if_neg hi] at hx
      have hw : ∀ j, scanWindow env kmdHeight (j + 1) i
          = blockNotarisations env (kmdHeight - i) ++ scanWindow env kmdHeight j (i + 1) := by
        intro j
        rw [scanWindow, if_neg hi]
      have hshift : ∀ (st1 : ScanState),
          st1.seenOwnNotarisations = st.seenOwnNotarisations
            + ((ownNotarisations symbol (blockNotarisations env (kmdHeight - i))).length : Int) →
          st1.seenOwnNotarisations < 7 →
          x ∈ (CalculateProofRootLoopTrace env symbol targetCCid kmdHeight n (i + 1) st1).2 →
          ∃ j : Nat, j < n + 1 ∧ x = kmdHeight - (i + j) ∧
            st.seenOwnNotarisations
              + (ownNotarisations symbol (scanWindow env kmdHeight j i)).length < 7 := by
        intro st1 hs1 hs7 hmem
        obtain ⟨j, hj, hxj, hcount⟩ := ih (i + 1) st1 (by rw [hs1]; omega) hs7 x hmem
        refine ⟨j + 1, by omega, ?_, ?_⟩
        · rw [hxj]; push_cast; ring
        · rw [hw j, ownNotarisations_append, List.length_append]
          push_cast
          omega
      cases hb : chainAt env.chainActive (kmdHeight - i) with
      | none =>
        rw [hb] at hx
        simp only [List.mem_singleton] at hx
        rw [hx]; exact hzero
      | some b =>
        rw [hb] at hx
        simp only [] at hx
        have hbn : blockNotarisations env (kmdHeight - i)
            = (env.GetBlockNotarisations (env.blocks b).hashBlock).getD [] := by
          rw [blockNotarisations, hb]
        cases hg : env.GetBlockNotarisations (env.blocks b).hashBlock with
        | none =>
          rw [hg] at hx hbn
          simp only [] at hx
          rcases List.mem_cons.mp hx with hx | hx
          · rw [hx]; exact hzero
          · refine hshift st ?_ h7 hx
            rw [hbn]; simp [ownNotarisations]
        | some ns =>
          rw [hg] at hx hbn
          simp only [Option.getD_some] at hbn
          simp only [] at hx
          rw [scanOwn_spec symbol _ _ _ h0 h7] at hx
          by_cases hend : 7 ≤ st.seenOwnNotarisations
              + ((ownNotarisations symbol ns).length : Int)
          · simp only [hend, decide_True, List.mem_singleton] at hx
            rw [hx]; exact hzero
          · simp only [hend, decide_False] at hx
            rcases List.mem_cons.mp hx with hx | hx
            · rw [hx]; exact hzero
            · refine hshift _ ?_ ?_ hx
              · simp only; rw [hbn]; omega
              · simp only; omega

/-- The branch check on a concatenated branch. -/
theorem CheckMerkleBranch_append (Hash : uint256 → uint256 → uint256) :
    ∀ (L U : List uint256) (leaf : uint256) (li ui : Nat), li < 2 ^ L.length →
      CheckMerkleBranch Hash leaf (L ++ U) ((ui <<< L.length) + li)
        = CheckMerkleBranch Hash (CheckMerkleBranch Hash leaf L li) U ui := by
  intro L
  induction L with
  | nil =>
    intro U leaf li ui hli
    simp at hli
    subst hli
    simp [CheckMerkleBranch]
  | cons x L ih =>
    intro U leaf li ui hli
    have hpow : 2 ^ (x :: L).length = 2 * 2 ^ L.length := by
      simp [pow_succ, Nat.mul_comm]
    rw [hpow] at hli
    have hshift : (ui <<< (x :: L).length) + li = 2 * (ui <<< L.length) + li := by
      simp only [Nat.shiftLeft_eq, List.length_cons, pow_succ]
      ring
    have hmod : (2 * (ui <<< L.length) + li) % 2 = li % 2 := by omega
    have hdiv : (2 * (ui <<< L.length) + li) / 2 = (ui <<< L.length) + li / 2 := by omega
    simp only [List.cons_append, CheckMerkleBranch]
    rw [hshift, hmod, hdiv]
    exact ih U _ (li / 2) ui (by omega)

/-- C1: in an index where every entry of positive height has a parent of height
one less and every skip pointer is null or the ancestor at
`GetSkipHeight(nHeight)`, `GetAncestor(h)` on entry `e` with
`0 ≤ h ≤ e.nHeight` returns exactly the entry reached from `e` by following
parent links `e.nHeight - h` times. -/
theorem GetAncestor_eq_parentWalk (m : BlockMap) (hpar : ParentLinked m)
    (hskip : SkipLinked m) (e : Nat) (h : Int) (h0 : 0 ≤ h) (h1 : h ≤ (m e).nHeight) :
    GetAncestor m e h = some (parentWalk m ((m e).nHeight - h).toNat (some e)) :=
  GetAncestor_walk m hpar hskip e h h0 h1

/-- C7: on a well-formed index `GetAncestor(h)` always returns, and it returns
null exactly when `h < 0` or `h > e.nHeight`. -/
theorem GetAncestor_null_iff (m : BlockMap) (hwf : WellFormed m) (e : Nat) (h : Int) :
    (∃ r, GetAncestor m e h = some r) ∧
    (GetAncestor m e h = some none ↔ (h < 0 ∨ h > (m e).nHeight)) := by
  by_cases hr : h < 0 ∨ h > (m e).nHeight
  · have := GetAncestor_out_of_range m e h hr
    exact ⟨⟨none, this⟩, fun _ => hr, fun _ => this⟩
  · have h0 : 0 ≤ h := by omega
    have h1 : h ≤ (m e).nHeight := by omega
    have hw := GetAncestor_walk m hwf.parentLinked hwf.skip_linked e h h0 h1
    obtain ⟨a, ha, _⟩ := hwf.ancestor_exists e h h0 h1
    rw [ha] at hw
    refine ⟨⟨some a, hw⟩, fun hn => ?_, fun hn => absurd hn hr⟩
    rw [hw] at hn
    cases hn

/-- C6: `BuildSkip` on an entry with a parent in a well-formed index stores in
`pskip` the entry's ancestor at height `GetSkipHeight(nHeight)`, obtained as
the parent's `GetAncestor` at that height, which is not null; on an entry
without a parent it changes nothing; hence in every index built from genesis
by attaching blocks and calling `BuildSkip` once on each, all skip pointers
are null or the ancestor at the skip height, and `GetAncestor` at every height
from 0 to `nHeight` equals the naive walk. -/
theorem BuildSkip_establishes_skip_invariant :
    (∀ (m : BlockMap) (e p : Nat), WellFormed m → (m e).pprev = some p →
      ∃ s, parentWalk m ((m e).nHeight - GetSkipHeight (m e).nHeight).toNat (some e) = some s ∧
        GetAncestor m p (GetSkipHeight (m e).nHeight) = some (some s) ∧
        BuildSkip m e = some (fun i => if i = e then { m e with pskip := some s } else m i) ∧
        WellFormed (fun i => if i = e then { m e with pskip := some s } else m i)) ∧
    (∀ (m : BlockMap) (e : Nat), (m e).pprev = none → BuildSkip m e = some m) ∧
    (∀ m : BlockMap, Built m →
      SkipLinked m ∧
      ∀ (e : Nat) (h : Int), 0 ≤ h → h ≤ (m e).nHeight →
        GetAncestor m e h = some (parentWalk m ((m e).nHeight - h).toNat (some e))) := by
  refine ⟨?_, ?_, ?_⟩
  · intro m e p hwf hp
    obtain ⟨s, hs, hga, hb⟩ := BuildSkip_with_parent m hwf e p hp
    exact ⟨s, hs, hga, hb, hwf.set_skip e s hs⟩
  · intro m e hp
    unfold BuildSkip
    rw [hp]
  · intro m hb
    have hwf := hb.wellFormed
    exact ⟨hwf.skip_linked, fun e h h0 h1 =>
      GetAncestor_walk m hwf.parentLinked hwf.skip_linked e h h0 h1⟩

/-- C2: on a well-formed index and a consistent active chain, `SetTip(e)` for a
non-null `e` returns a chain of exactly `e.nHeight + 1` slots whose slot `h`
holds the ancestor of `e` at height `h`, an entry of height `h`, for every
`0 ≤ h ≤ e.nHeight`, and the chain is consistent again; `SetTip(NULL)` leaves
the chain empty. -/
theorem SetTip_rebuilds_chain (m : BlockMap) (hwf : WellFormed m) (v : CChain)
    (hc : Consistent m v) :
    SetTip m v none = some [] ∧
    ∀ e : Nat, ∃ v1, SetTip m v (some e) = some v1 ∧
      (v1.length : Int) = (m e).nHeight + 1 ∧
      (∀ h : Nat, (h : Int) ≤ (m e).nHeight →
        ∃ a, v1[h]? = some (some a) ∧
          parentWalk m ((m e).nHeight - h).toNat (some e) = some a ∧
          (m a).nHeight = (h : Int)) ∧
      Consistent m v1 := by
  refine ⟨rfl, fun e => ?_⟩
  obtain ⟨v1, hv1, hlen, hall⟩ := SetTip_spec m hwf v hc e
  refine ⟨v1, hv1, hlen, ?_, Consistent.of_ancestors m hwf e v1 hlen hall⟩
  intro h hh
  obtain ⟨a, ha, hah⟩ := hwf.ancestor_exists e h (by omega) hh
  exact ⟨a, by rw [hall h hh, ha], ha, hah⟩

/-- C5: on a well-formed index `FindFork(e)` returns the entry `p` of greatest
height that is `e` or an ancestor of `e` and a member of the active chain; it
returns null when `e` is null and exactly when no such entry exists, in
particular when the active chain is empty; and `FindFork(e) = e` when `e` is
in the active chain. -/
theorem FindFork_highest_common (m : BlockMap) (hwf : WellFormed m) (v : CChain) :
    FindFork m v none = some none ∧
    ∀ e : Nat, ∃ r, FindFork m v (some e) = some r ∧
      (∀ p, r = some p → (∃ d, parentWalk m d (some e) = some p) ∧ Contains m v p = true ∧
        ∀ q d, parentWalk m d (some e) = some q → Contains m v q = true →
          (m q).nHeight ≤ (m p).nHeight) ∧
      (r = none ↔ ∀ q d, parentWalk m d (some e) = some q → Contains m v q = false) ∧
      (v = [] → r = none) ∧
      (Contains m v e = true → r = some e) := by
  refine ⟨rfl, fun e => ?_⟩
  obtain ⟨r, hr, hsome, hnone⟩ := FindFork_spec m hwf v e
  have hback : (∀ q d, parentWalk m d (some e) = some q → Contains m v q = false) →
      r = none := by
    intro hall
    cases hrp : r with
    | none => rfl
    | some p =>
      obtain ⟨⟨d, hd⟩, hcp, _⟩ := hsome p hrp
      rw [hall p d hd] at hcp
      cases hcp
  refine ⟨r, hr, hsome, ⟨hnone, hback⟩, ?_, ?_⟩
  · intro hv
    apply hback
    intro q d _
    subst hv
    simp [Contains, chainAt]
  · intro hce
    cases hrp : r with
    | none =>
      have := hnone hrp e 0 rfl
      rw [this] at hce
      cases hce
    | some p =>
      obtain ⟨⟨d, hd⟩, hcp, hmax⟩ := hsome p hrp
      have h1 := hmax e 0 rfl hce
      have h2 := hwf.walk_height d e p hd
      have hd0 : d = 0 := by omega
      subst hd0
      simp [parentWalk] at hd
      rw [hd]

/-- C8: for a non-null entry `e` of a well-formed index and a consistent active
chain, `GetLocator(e)` returns; the returned hashes are those of a list of
entries that starts with `e`, consists of ancestors of `e` at strictly
decreasing heights, and ends with the ancestor of `e` at height 0. -/
theorem GetLocator_ends_at_genesis (m : BlockMap) (hwf : WellFormed m) (v : CChain)
    (hc : Consistent m v) (e : Nat) :
    ∃ ids : List Nat,
      GetLocator m v (some e) = some (ids.map (fun a => (m a).hashBlock)) ∧
      ids.head? = some e ∧
      (∀ a ∈ ids, ∃ d, parentWalk m d (some e) = some a) ∧
      ids.Pairwise (fun a b => (m a).nHeight > (m b).nHeight) ∧
      ∃ g, ids.getLast? = some g ∧
        parentWalk m (m e).nHeight.toNat (some e) = some g ∧ (m g).nHeight = 0 := by
  have hnn := hwf.height_nonneg e
  obtain ⟨ids, hids, hhead, hanc, hpair, g, hg, hg0⟩ := GetLocatorLoop_spec m hwf v hc
    ((m e).nHeight.toNat + 1) e 1 [] (le_refl _) (by omega)
  refine ⟨ids, by simpa [GetLocator] using hids, hhead, hanc, hpair, g, hg, ?_, hg0⟩
  obtain ⟨d, hd⟩ := hanc g (List.mem_of_getLast?_eq_some hg)
  have := hwf.walk_height d e g hd
  have hde : (m e).nHeight.toNat = d := by omega
  rw [hde]; exact hd

/-- C9: for a non-null entry of height `h` of a well-formed index and a
consistent active chain, the locator holds at most `12 + ⌊log2 h⌋` hashes when
`h ≥ 1` and exactly one hash when `h = 0`. -/
theorem GetLocator_length_logarithmic (m : BlockMap) (hwf : WellFormed m) (v : CChain)
    (hc : Consistent m v) (e : Nat) :
    ∃ out, GetLocator m v (some e) = some out ∧
      ((m e).nHeight = 0 → out.length = 1) ∧
      (1 ≤ (m e).nHeight → out.length ≤ 12 + Nat.log 2 (m e).nHeight.toNat) := by
  have hnn := hwf.height_nonneg e
  have hpow := Nat.lt_pow_succ_log_self (by norm_num : 1 < 2) (m e).nHeight.toNat
  have hb : (m e).nHeight + 1 ≤ ((10 : Nat) : Int)
      + 2 ^ (Nat.log 2 (m e).nHeight.toNat + 1) := by
    have : ((m e).nHeight.toNat : Int) < ((2 ^ (Nat.log 2 (m e).nHeight.toNat).succ : Nat) : Int) :=
      by exact_mod_cast hpow
    push_cast at this
    have h2 : ((m e).nHeight.toNat : Int) = (m e).nHeight := Int.toNat_of_nonneg hnn
    rw [h2] at this
    simp only [Nat.succ_eq_add_one] at this
    omega
  obtain ⟨out, hout, hol⟩ := GetLocatorLoop_length_unit m hwf v hc
    (Nat.log 2 (m e).nHeight.toNat + 1) 10 ((m e).nHeight.toNat + 1) e []
    (by omega) (by simp) hb
  have hG : GetLocator m v (some e) = some out := by simpa [GetLocator] using hout
  refine ⟨out, hG, ?_, ?_⟩
  · intro h0
    have := GetLocatorLoop_genesis m v (m e).nHeight.toNat e 1 [] h0
    rw [this] at hout
    cases hout
    rfl
  · intro _
    simp at hol
    omega

/-- C10: with `targetCCid ≥ 2` and `0 ≤ kmdHeight ≤` active height, when none of
the scanned blocks `kmdHeight, kmdHeight - 1, ..., max(0, kmdHeight - 1439)`
(each of them an entry of the active chain) holds a notarisation of the given
symbol, `CalculateProofRoot` returns the null hash with `moms` emptied and the
anchor txid set to null. -/
theorem CalculateProofRoot_null_without_own (env : Env) (symbol : String) (targetCCid : Nat)
    (kmdHeight : Int) (moms : List uint256) (destNotarisationTxid : uint256)
    (hcc : 2 ≤ targetCCid) (hlo : 0 ≤ kmdHeight) (hhi : kmdHeight ≤ Height env.chainActive)
    (hno : ∀ i : Int, 0 ≤ i → i ≤ kmdHeight → i < 1440 →
      ∃ b, chainAt env.chainActive (kmdHeight - i) = some b ∧
        ∀ ns, env.GetBlockNotarisations (env.blocks b).hashBlock = some ns →
          ∀ nota ∈ ns, nota.2.symbol ≠ symbol) :
    CalculateProofRoot env symbol targetCCid kmdHeight moms destNotarisationTxid
      = some (0, [], 0) := by
  unfold CalculateProofRoot
  rw [if_neg (by omega), if_neg (by omega)]
  rw [CalculateProofRootLoop_no_match env symbol targetCCid kmdHeight
    (fun i h0 h1 h2 => hno i h0 h1 (by simpa [NOTARISATION_SCAN_LIMIT_BLOCKS] using h2))
    NOTARISATION_SCAN_LIMIT_BLOCKS 0 _ (le_refl _) (by simp) rfl]

/-- C4: checking the concatenated branch `L ++ U` (lower layer first) with the
combined index `(ui << |L|) + li` on a leaf gives the root obtained by
checking `U` with `ui` on the root of `L` with `li`, for every `li < 2^|L|`;
this is the branch and index that `GetAssetchainProof` builds. -/
theorem CheckMerkleBranch_compose (Hash : uint256 → uint256 → uint256) (leaf : uint256)
    (L U : List uint256) (li ui : Nat) (hli : li < 2 ^ L.length) :
    CheckMerkleBranch Hash leaf (L ++ U) ((ui <<< L.length) + li)
        = CheckMerkleBranch Hash (CheckMerkleBranch Hash leaf L li) U ui ∧
    CheckMerkleBranch Hash leaf (concatBranches ui U li L).branch
        (concatBranches ui U li L).nIndex
      = CheckMerkleBranch Hash (CheckMerkleBranch Hash leaf L li) U ui :=
  ⟨CheckMerkleBranch_append Hash L U leaf li ui hli,
   CheckMerkleBranch_append Hash L U leaf li ui hli⟩

/-- C3: when `GetCrossChainProof` returns `(anchor, branch)`, the branch is the
source branch extended by the MoM-to-MoMoM branch, executing it on `txid`
gives exactly the MoMoM computed by `CalculateProofRoot` for the target at the
scanned height plus `offset`, and `anchor` is the txid reported by that same
call; and when the recomputed root differs from the MoMoM the call throws
"Proof check failed". -/
theorem GetCrossChainProof_root_checked (env : Env) (txid : uint256) (targetSymbol : String)
    (targetCCid : Nat) (assetChainProof : TxProof) (offset : Int) :
    (∀ anchor branch,
      GetCrossChainProof env txid targetSymbol targetCCid assetChainProof offset
        = some (Except.ok (anchor, branch)) →
      ∃ blockHeight scanned found MoMoM moms nIndex,
        env.GetTxConfirmed assetChainProof.1 = some blockHeight ∧
        ScanNotarisationsFromHeight env blockHeight
          (fun nota => nota.2.symbol = targetSymbol) emptyNotarisation
            = some (scanned, found) ∧
        CalculateProofRoot env targetSymbol targetCCid (scanned + offset) [] 0
          = some (MoMoM, moms, anchor) ∧
        findMoM (env.Exec assetChainProof.2 txid) moms 0 = some nIndex ∧
        branch = env.append assetChainProof.2 ⟨nIndex, env.GetMerkleBranch moms nIndex⟩ ∧
        env.Exec branch txid = MoMoM) ∧
    (∀ blockHeight scanned found MoMoM moms anchor nIndex,
      env.GetTxConfirmed assetChainProof.1 = some blockHeight →
      ScanNotarisationsFromHeight env blockHeight
        (fun nota => nota.2.symbol = targetSymbol) emptyNotarisation
          = some (scanned, found) →
      scanned ≠ 0 →
      CalculateProofRoot env targetSymbol targetCCid (scanned + offset) [] 0
        = some (MoMoM, moms, anchor) →
      MoMoM ≠ 0 →
      findMoM (env.Exec assetChainProof.2 txid) moms 0 = some nIndex →
      env.Exec (env.append assetChainProof.2 ⟨nIndex, env.GetMerkleBranch moms nIndex⟩) txid
        ≠ MoMoM →
      GetCrossChainProof env txid targetSymbol targetCCid assetChainProof offset
        = some (Except.error "Proof check failed")) := by
  have hoff : ∀ scanned : Int, (if offset ≠ 0 then scanned + offset else scanned)
      = scanned + offset := by
    intro scanned
    by_cases h : offset = 0
    · simp [h]
    · simp [h]
  refine ⟨?_, ?_⟩
  · intro anchor branch hret
    unfold GetCrossChainProof at hret
    simp only at hret
    cases hconf : env.GetTxConfirmed assetChainProof.1 with
    | none => rw [hconf] at hret; simp at hret
    | some blockHeight =>
      rw [hconf] at hret
      simp only at hret
      cases hscan : ScanNotarisationsFromHeight env blockHeight
          (fun nota => nota.2.symbol = targetSymbol) emptyNotarisation with
      | none => rw [hscan] at hret; simp at hret
      | some sr =>
        obtain ⟨scanned, found⟩ := sr
        rw [hscan] at hret
        simp only at hret
        by_cases hz : scanned = 0
        · rw [if_pos hz] at hret; simp at hret
        · rw [if_neg hz, hoff] at hret
          cases hroot : CalculateProofRoot env targetSymbol targetCCid (scanned + offset) [] 0 with
          | none => rw [hroot] at hret; simp at hret
          | some rr =>
            obtain ⟨MoMoM, moms, dest⟩ := rr
            rw [hroot] at hret
            simp only at hret
            by_cases hnull : MoMoM = 0
            · rw [if_pos hnull] at hret; simp at hret
            · rw [if_neg hnull] at hret
              cases hfind : findMoM (env.Exec assetChainProof.2 txid) moms 0 with
              | none => rw [hfind] at hret; simp at hret
              | some nIndex =>
                rw [hfind] at hret
                simp only at hret
                by_cases hchk : env.Exec (env.append assetChainProof.2
                    ⟨nIndex, env.GetMerkleBranch moms nIndex⟩) txid ≠ MoMoM
                · rw [if_pos hchk] at hret; simp at hret
                · rw [if_neg hchk] at hret
                  simp only [Option.some.injEq, Except.ok.injEq, Prod.mk.injEq] at hret
                  obtain ⟨hd, hb⟩ := hret
                  subst hd
                  subst hb
                  exact ⟨blockHeight, scanned, found, MoMoM, moms, nIndex, rfl, hscan,
                    hroot, hfind, rfl, by simpa using hchk⟩
  · intro blockHeight scanned found MoMoM moms anchor nIndex hconf hscan hz hroot hnull
      hfind hchk
    unfold GetCrossChainProof
    simp only
    rw [hconf]
    simp only
    rw [hscan]
    simp only
    rw [if_neg hz, hoff, hroot]
    simp only
    rw [if_neg hnull, hfind]
    simp only
    rw [if_pos hchk]

/-- C11 (as amended): with `targetCCid ≥ 2`, `0 ≤ kmdHeight ≤` active height
and every scanned slot of the active chain populated, when at least seven
notarisations of the symbol lie in the 1440-block scan window
`CalculateProofRoot` returns the Merkle root of the collected MoM set with the
collected moms and the txid of the first of them as anchor, and when fewer than
seven lie in the window it returns the cleared null result. -/
theorem CalculateProofRoot_needs_seven_own (env : Env) (symbol : String) (targetCCid : Nat)
    (kmdHeight : Int) (moms : List uint256) (destNotarisationTxid : uint256)
    (hcc : 2 ≤ targetCCid) (hlo : 0 ≤ kmdHeight) (hhi : kmdHeight ≤ Height env.chainActive)
    (hpop : ∀ i : Int, 0 ≤ i → i ≤ kmdHeight → i < 1440 →
      chainAt env.chainActive (kmdHeight - i) ≠ none) :
    (7 ≤ (ownNotarisations symbol (scanWindow env kmdHeight 1440 0)).length →
      ∃ nota collected,
        (ownNotarisations symbol (scanWindow env kmdHeight 1440 0)).head? = some nota ∧
        CalculateProofRoot env symbol targetCCid kmdHeight moms destNotarisationTxid
          = some (env.GetMerkleRoot collected, collected, nota.1)) ∧
    ((ownNotarisations symbol (scanWindow env kmdHeight 1440 0)).length < 7 →
      CalculateProofRoot env symbol targetCCid kmdHeight moms destNotarisationTxid
        = some (0, [], 0)) := by
  obtain ⟨⟨st, flag⟩, hr⟩ := CalculateProofRootLoop_returns env symbol targetCCid kmdHeight
    hpop NOTARISATION_SCAN_LIMIT_BLOCKS 0 ⟨0, destNotarisationTxid, []⟩ (le_refl _)
    (by simp [NOTARISATION_SCAN_LIMIT_BLOCKS])
  have hflag := (CalculateProofRootLoop_result env symbol targetCCid kmdHeight
    NOTARISATION_SCAN_LIMIT_BLOCKS 0 _ st flag (le_refl _) (by simp) hr).1
  simp only [zero_add, NOTARISATION_SCAN_LIMIT_BLOCKS] at hflag
  constructor
  · intro h7
    have hft : flag = true := by
      rw [hflag, decide_eq_true_iff]; exact_mod_cast h7
    subst hft
    obtain ⟨_, nota, hhead, hdest⟩ := CalculateProofRootLoop_anchor env symbol targetCCid
      kmdHeight destNotarisationTxid st hr
    refine ⟨nota, st.tmp_moms, hhead, ?_⟩
    rw [CalculateProofRoot_of_success env symbol targetCCid kmdHeight moms
      destNotarisationTxid st hcc hlo hhi hr, hdest]
  · intro h7
    have hff : flag = false := by
      rw [hflag, decide_eq_false_iff_not]; omega
    subst hff
    exact CalculateProofRoot_of_fallthrough env symbol targetCCid kmdHeight moms
      destNotarisationTxid st hcc hlo hhi hr

/-- C11 (counterexample): in the example store one notarisation of chain `A`
lies in the scan window from height 3, yet `CalculateProofRoot` returns the
cleared null result and not a result anchored at that notarisation. -/
theorem CalculateProofRoot_single_own_cleared :
    (2 : Nat) ≤ 2 ∧ (0 : Int) ≤ 3 ∧ (3 : Int) ≤ Height exampleEnv.chainActive ∧
    ownNotarisations "A" (scanWindow exampleEnv 3 1440 0) = [exampleNota 21 "A" 67] ∧
    CalculateProofRoot exampleEnv "A" 2 3 [] 0 = some (0, [], 0) ∧
    ¬ ∃ collected, CalculateProofRoot exampleEnv "A" 2 3 [] 0
        = some (exampleEnv.GetMerkleRoot collected, collected, 21) := by
  have hres : CalculateProofRoot exampleEnv "A" 2 3 [] 0 = some (0, [], 0) := by decide
  refine ⟨le_refl _, by decide, by decide, by decide, hres, ?_⟩
  rintro ⟨collected, hc⟩
  rw [hres] at hc
  simp at hc

/-- C12: when `CalculateProofRoot` returns through its success path the list
`moms` holds no value twice and the returned root is `GetMerkleRoot` of exactly
that list. -/
theorem CalculateProofRoot_success_moms_nodup (env : Env) (symbol : String)
    (targetCCid : Nat) (kmdHeight : Int) (moms : List uint256) (destNotarisationTxid : uint256)
    (st : ScanState)
    (hcc : 2 ≤ targetCCid) (hlo : 0 ≤ kmdHeight) (hhi : kmdHeight ≤ Height env.chainActive)
    (hsucc : CalculateProofRootLoop env symbol targetCCid kmdHeight
      NOTARISATION_SCAN_LIMIT_BLOCKS 0 ⟨0, destNotarisationTxid, []⟩ = some (st, true)) :
    ∃ root out anchor,
      CalculateProofRoot env symbol targetCCid kmdHeight moms destNotarisationTxid
        = some (root, out, anchor) ∧
      out = st.tmp_moms ∧ out.Nodup ∧ root = env.GetMerkleRoot out := by
  refine ⟨_, _, _, CalculateProofRoot_of_success env symbol targetCCid kmdHeight moms
    destNotarisationTxid st hcc hlo hhi hsucc, rfl, ?_, rfl⟩
  have hs := (CalculateProofRootLoop_moms env symbol targetCCid kmdHeight
    NOTARISATION_SCAN_LIMIT_BLOCKS 0 _ (st, true) (le_refl _) (by simp) hsucc).1
    List.Pairwise.nil
  exact hs.imp (fun h => Nat.ne_of_lt h)

/-- C13: on the success path of `CalculateProofRoot` the returned anchor is the
txid of the first notarisation of the symbol in scan order (highest scanned
block first, stored order within a block). -/
theorem CalculateProofRoot_anchor_first_own (env : Env) (symbol : String)
    (targetCCid : Nat) (kmdHeight : Int) (moms : List uint256) (destNotarisationTxid : uint256)
    (st : ScanState)
    (hcc : 2 ≤ targetCCid) (hlo : 0 ≤ kmdHeight) (hhi : kmdHeight ≤ Height env.chainActive)
    (hsucc : CalculateProofRootLoop env symbol targetCCid kmdHeight
      NOTARISATION_SCAN_LIMIT_BLOCKS 0 ⟨0, destNotarisationTxid, []⟩ = some (st, true)) :
    ∃ nota,
      (ownNotarisations symbol (scanWindow env kmdHeight 1440 0)).head? = some nota ∧
      CalculateProofRoot env symbol targetCCid kmdHeight moms destNotarisationTxid
        = some (env.GetMerkleRoot st.tmp_moms, st.tmp_moms, nota.1) := by
  obtain ⟨_, nota, hhead, hdest⟩ := CalculateProofRootLoop_anchor env symbol targetCCid
    kmdHeight destNotarisationTxid st hsucc
  refine ⟨nota, hhead, ?_⟩
  rw [CalculateProofRoot_of_success env symbol targetCCid kmdHeight moms
    destNotarisationTxid st hcc hlo hhi hsucc, hdest]

/-- C14 (as amended): on the success path of `CalculateProofRoot` every
notarisation stored for a scanned block `kmdHeight - j` that lies, in scan
order, at or after the block of the first notarisation of the symbol and
before the block in which the seventh one is met, with the authority class of
the requested symbol and `ccId = targetCCid`, has its MoM in the returned
list. -/
theorem CalculateProofRoot_collects_in_range (env : Env) (symbol : String)
    (targetCCid : Nat) (kmdHeight : Int) (moms : List uint256) (destNotarisationTxid : uint256)
    (st : ScanState)
    (hcc : 2 ≤ targetCCid) (hlo : 0 ≤ kmdHeight) (hhi : kmdHeight ≤ Height env.chainActive)
    (hsucc : CalculateProofRootLoop env symbol targetCCid kmdHeight
      NOTARISATION_SCAN_LIMIT_BLOCKS 0 ⟨0, destNotarisationTxid, []⟩ = some (st, true))
    (j : Nat) (hj : j < 1440) (hjk : (j : Int) ≤ kmdHeight)
    (hfirst : 1 ≤ (ownNotarisations symbol (scanWindow env kmdHeight (j + 1) 0)).length)
    (hlast : (ownNotarisations symbol (scanWindow env kmdHeight (j + 1) 0)).length < 7)
    (nota : Notarisation) (hmem : nota ∈ blockNotarisations env (kmdHeight - j))
    (hauth : GetSymbolAuthority nota.2.symbol = GetSymbolAuthority symbol)
    (hccid : nota.2.ccId = targetCCid) :
    ∃ root out anchor,
      CalculateProofRoot env symbol targetCCid kmdHeight moms destNotarisationTxid
        = some (root, out, anchor) ∧ nota.2.MoM ∈ out := by
  refine ⟨_, _, _, CalculateProofRoot_of_success env symbol targetCCid kmdHeight moms
    destNotarisationTxid st hcc hlo hhi hsucc, ?_⟩
  have hidx : kmdHeight - (0 + (j : Int)) = kmdHeight - j := by ring
  exact CalculateProofRootLoop_collects env symbol targetCCid kmdHeight
    NOTARISATION_SCAN_LIMIT_BLOCKS 0 _ (st, true) j (le_refl _) (by simp) hsucc
    (by simpa [NOTARISATION_SCAN_LIMIT_BLOCKS] using hj) (by omega)
    (by simp only [zero_add]; exact_mod_cast hfirst)
    (by simp only [zero_add]; exact_mod_cast hlast)
    nota (by rw [hidx]; exact hmem) hauth hccid

/-- C14 (counterexample): in the example store the block at height 1 is
scanned (the seventh notarisation of `B` is met in it) and holds a
notarisation with the authority class of `B` and `ccId = 2` whose MoM `40` is
not in the returned list. -/
theorem CalculateProofRoot_end_block_not_collected :
    CalculateProofRoot exampleEnv "B" 2 3 [] 0 = some (486, [50, 67], 31) ∧
    exampleNota 11 "B" 40 ∈ blockNotarisations exampleEnv (3 - 2) ∧
    GetSymbolAuthority (exampleNota 11 "B" 40).2.symbol = GetSymbolAuthority "B" ∧
    (exampleNota 11 "B" 40).2.ccId = 2 ∧
    (exampleNota 11 "B" 40).2.MoM ∉ [50, 67] := by
  refine ⟨by decide, by decide, by decide, by decide, by decide⟩

/-- C15: on populated slots `ScanNotarisationsFromHeight(n, f, found)` returns
the smallest height `h` with `max(n, 1) ≤ h < min(n + 1440, active height)`
whose block stores a notarisation satisfying `f`, with `found` the first such
notarisation of that block; when there is none it returns 0 with `found`
unchanged; the returned height is 0 exactly when nothing was found, and a
returned height is below the active height. -/
theorem ScanNotarisationsFromHeight_first_match (env : Env) (nHeight : Int)
    (f : Notarisation → Bool) (found : Notarisation)
    (hpop : ∀ h : Int, max nHeight 1 ≤ h → h < min (nHeight + 1440) (Height env.chainActive) →
      chainAt env.chainActive h ≠ none) :
    ∃ r, ScanNotarisationsFromHeight env nHeight f found = some r ∧
      ((r = (0, found) ∧
          ∀ h : Int, max nHeight 1 ≤ h → h < min (nHeight + 1440) (Height env.chainActive) →
            ∀ x ∈ blockNotarisations env h, f x = false) ∨
        (max nHeight 1 ≤ r.1 ∧ r.1 < min (nHeight + 1440) (Height env.chainActive) ∧
          (blockNotarisations env r.1).find? f = some r.2 ∧
          ∀ h : Int, max nHeight 1 ≤ h → h < r.1 →
            ∀ x ∈ blockNotarisations env h, f x = false)) ∧
      (r.1 = 0 ↔
        ∀ h : Int, max nHeight 1 ≤ h → h < min (nHeight + 1440) (Height env.chainActive) →
          ∀ x ∈ blockNotarisations env h, f x = false) ∧
      (r.1 ≠ 0 → 1 ≤ r.1 ∧ r.1 < Height env.chainActive) := by
  obtain ⟨r, hr, hcase⟩ := ScanNotarisationsFromHeight_spec env nHeight f found hpop
  refine ⟨r, hr, hcase, ?_, ?_⟩
  · rcases hcase with ⟨hr0, hall⟩ | ⟨h1, h2, h3, h4⟩
    · exact ⟨fun _ => hall, fun _ => by rw [hr0]⟩
    · constructor
      · intro h0; omega
      · intro hall
        have hmem := List.mem_of_find?_eq_some h3
        have hf := List.find?_some h3
        rw [hall r.1 h1 h2 r.2 hmem] at hf
        cases hf
  · intro hne
    rcases hcase with ⟨hr0, _⟩ | ⟨h1, h2, _, _⟩
    · rw [hr0] at hne; exact absurd rfl hne
    · omega

/-- C20: `CheckMoMoM` returns false when no back-notarisation is stored for the
hash or its transaction is not confirmed; otherwise, with `H` the height of
the confirming block and the scanned slots populated, it returns true exactly
when `ScanNotarisationsFromHeight` started at `H - 100` finds a notarisation
whose stored MoMoM equals `momom`, that is when some block of height `h` with
`max(H - 100, 1) ≤ h < min(H - 100 + 1440, active height)` stores one. -/
theorem CheckMoMoM_spec (env : Env) (GetBackNotarisation : uint256 → Option Notarisation)
    (kmdNotarisationHash momom : uint256) :
    (GetBackNotarisation kmdNotarisationHash = none →
      CheckMoMoM env GetBackNotarisation kmdNotarisationHash momom = some false) ∧
    (∀ bn, GetBackNotarisation kmdNotarisationHash = some bn →
      env.GetTxConfirmed bn.1 = none →
      CheckMoMoM env GetBackNotarisation kmdNotarisationHash momom = some false) ∧
    (∀ bn H, GetBackNotarisation kmdNotarisationHash = some bn →
      env.GetTxConfirmed bn.1 = some H →
      (∀ h : Int, max (H - 100) 1 ≤ h →
        h < min (H - 100 + 1440) (Height env.chainActive) →
        chainAt env.chainActive h ≠ none) →
      ∃ r, ScanNotarisationsFromHeight env (H - 100)
            (fun nota => nota.2.MoMoM = momom) emptyNotarisation = some r ∧
        CheckMoMoM env GetBackNotarisation kmdNotarisationHash momom
          = some (decide (r.1 ≠ 0)) ∧
        (r.1 ≠ 0 ↔
          ∃ h : Int, max (H - 100) 1 ≤ h ∧
            h < min (H - 100 + 1440) (Height env.chainActive) ∧
            ∃ x ∈ blockNotarisations env h, x.2.MoMoM = momom)) := by
  refine ⟨?_, ?_, ?_⟩
  · intro h
    simp [CheckMoMoM, h]
  · intro bn h1 h2
    simp [CheckMoMoM, h1, h2]
  · intro bn H h1 h2 hpop
    obtain ⟨r, hr, hcase⟩ := ScanNotarisationsFromHeight_spec env (H - 100)
      (fun nota => nota.2.MoMoM = momom) emptyNotarisation hpop
    refine ⟨r, hr, ?_, ?_⟩
    · simp only [CheckMoMoM, h1, h2, hr]
    · rcases hcase with ⟨hr0, hall⟩ | ⟨h3, h4, h5, h6⟩
      · constructor
        · intro hne; rw [hr0] at hne; exact absurd rfl hne
        · rintro ⟨h, h7, h8, x, hx, hxm⟩
          have := hall h h7 h8 x hx
          simp [hxm] at this
      · constructor
        · intro _
          refine ⟨r.1, h3, h4, r.2, List.mem_of_find?_eq_some h5, ?_⟩
          have := List.find?_some h5
          simpa using this
        · intro _; omega

/-- C16: `CheckNotariesApproval` returns true exactly when the number of
accepted approvals is at least 5; that number is the number of keys counted,
no key is counted twice and every approval transaction adds at most one; a
list of valid approvals by pairwise distinct signers is counted in full, so
with exactly 4 of them the result is false and with 5 it is true.  This holds
whatever the key array holds at entry. -/
theorem CheckNotariesApproval_threshold {Tx : Type} (env : ApprovalEnv Tx)
    (pubkeys : List PubKey) (burntxid : uint256) (txids : List uint256) :
    (CheckNotariesApproval env pubkeys burntxid txids = true ↔
      5 ≤ (txids.foldl (approvalStep env burntxid) ⟨0, [], pubkeys⟩).count) ∧
    (txids.foldl (approvalStep env burntxid) ⟨0, [], pubkeys⟩).count
      = (txids.foldl (approvalStep env burntxid) ⟨0, [], pubkeys⟩).alreadySigned.length ∧
    (txids.foldl (approvalStep env burntxid) ⟨0, [], pubkeys⟩).alreadySigned.Nodup ∧
    (txids.foldl (approvalStep env burntxid) ⟨0, [], pubkeys⟩).count ≤ txids.length ∧
    (∀ pks, List.Forall₂ (ValidApproval env burntxid) txids pks → pks.Nodup →
      (txids.foldl (approvalStep env burntxid) ⟨0, [], pubkeys⟩).count = txids.length ∧
      (CheckNotariesApproval env pubkeys burntxid txids = true ↔ 5 ≤ txids.length) ∧
      (txids.length = 4 → CheckNotariesApproval env pubkeys burntxid txids = false) ∧
      (txids.length = 5 → CheckNotariesApproval env pubkeys burntxid txids = true)) := by
  have hiff : CheckNotariesApproval env pubkeys burntxid txids = true ↔
      5 ≤ (txids.foldl (approvalStep env burntxid) ⟨0, [], pubkeys⟩).count := by
    unfold CheckNotariesApproval
    simp only
    split
    · constructor
      · intro h; cases h
      · intro h; omega
    · constructor
      · intro _; omega
      · intro _; rfl
  obtain ⟨h1, h2, _, h4, _⟩ := approvalFold_invariant env burntxid txids ⟨0, [], pubkeys⟩
    ⟨by simp, by simp⟩
  refine ⟨hiff, h1, h2, by simpa using h4, ?_⟩
  intro pks hall hnd
  have hfold := approvalFold_valid env burntxid txids pks ⟨0, [], pubkeys⟩ hall
    (by simpa using hnd)
  have hcount : (txids.foldl (approvalStep env burntxid) ⟨0, [], pubkeys⟩).count
      = txids.length := by
    rw [hfold.1]; simp
  have hiff2 : CheckNotariesApproval env pubkeys burntxid txids = true ↔ 5 ≤ txids.length := by
    rw [hiff, hcount]; exact_mod_cast Iff.rfl
  refine ⟨hcount, hiff2, ?_, ?_⟩
  · intro h4
    cases hb : CheckNotariesApproval env pubkeys burntxid txids with
    | false => rfl
    | true => have := hiff2.mp hb; omega
  · intro h5
    exact hiff2.mpr (by omega)

/-- C17 (code at the failing input): in the example store the approvals 6, 7
and 8 decode to a proof whose extracted root `13` differs from the header root
`77` and that does not prove the burn `500`, yet each is counted: with the two
valid approvals 1 and 2 they reach the threshold, whatever the key array holds
at entry. -/
theorem CheckNotariesApproval_counts_root_mismatch :
    exampleApprovalEnv.unmarshalMerkleBlock [6] = some ⟨77, 13, []⟩ ∧
    exampleApprovalEnv.unmarshalMerkleBlock [7] = some ⟨77, 13, []⟩ ∧
    exampleApprovalEnv.unmarshalMerkleBlock [8] = some ⟨77, 13, []⟩ ∧
    ∀ pubkeys : List PubKey,
      approvalStep exampleApprovalEnv 500 ⟨0, [], pubkeys⟩ 6
        = ⟨1, [[6]], [[1], [2], [3], [4], [5], [6], [7], [8]]⟩ ∧
      CheckNotariesApproval exampleApprovalEnv pubkeys 500 [1, 2] = false ∧
      CheckNotariesApproval exampleApprovalEnv pubkeys 500 [1, 2, 6, 7, 8] = true := by
  refine ⟨rfl, rfl, rfl, fun pubkeys => ⟨rfl, rfl, rfl⟩⟩

/-- C19 (code at the failing input): with the example resolver, which fills
the first slots of the key array only, approval 9 is signed by the key of byte
36, which is not in the notary set resolved for its block (era 1, the one key
of byte 16); after the approvals 1 to 4 of era 2 the key is still in slot 4 of
the array, so approval 9 is counted: the list `[1, 2, 3, 4, 9]` gives true, the
list without it false. -/
theorem CheckNotariesApproval_counts_stale_signer :
    (exampleStaleEnv.GetTxConfirmed 9).map (fun r => STAKED_era exampleEraTables r.2.2)
      = some 1 ∧
    exampleEraTables.num_notaries_STAKED 0 = 1 ∧
    exampleDecode (exampleEraTables.notaries_STAKED 0 0).2 = exampleKey 16 ∧
    (∀ k : PubKey, exampleStaleEnv.CheckVinPubKey 9 0 k = true ↔ k = exampleKey 36) ∧
    ([1, 2, 3, 4].foldl (approvalStep exampleStaleEnv 500)
        ⟨0, [], exampleKeyArray⟩).notaries_pubkeys.take 5
      = [exampleKey 32, exampleKey 33, exampleKey 34, exampleKey 35, exampleKey 36] ∧
    (approvalStep exampleStaleEnv 500
        ([1, 2, 3, 4].foldl (approvalStep exampleStaleEnv 500) ⟨0, [], exampleKeyArray⟩)
        9).notaries_pubkeys.take 5
      = [exampleKey 16, exampleKey 33, exampleKey 34, exampleKey 35, exampleKey 36] ∧
    ([1, 2, 3, 4, 9].foldl (approvalStep exampleStaleEnv 500)
        ⟨0, [], exampleKeyArray⟩).alreadySigned
      = [exampleKey 32, exampleKey 33, exampleKey 34, exampleKey 35, exampleKey 36] ∧
    CheckNotariesApproval exampleStaleEnv exampleKeyArray 500 ([1, 2, 3, 4] ++ 9 :: []) = true ∧
    CheckNotariesApproval exampleStaleEnv exampleKeyArray 500 ([1, 2, 3, 4] ++ []) = false := by
  refine ⟨by decide, by decide, by decide, ?_, by decide, by decide, by decide, by decide,
    by decide⟩
  intro k
  simp [exampleStaleEnv]

/-- C24: for strictly increasing era boundaries `TS[0..N-1]` and gap `G`
whose sums `TS[i-1] + G`, as the code computes them, lie in the range of
`int`, every timestamp `t` with `TS[i-1] < t < TS[i-1] + G` for some
`1 ≤ i < N` has `STAKED_era(t) = 0` (such a `t` exists only when `G` is
positive). -/
theorem STAKED_era_gap_zero (T : StakedTables) (hfit : EraSumsFit T)
    (hinc : ∀ a b, a < b → b < T.NUM_STAKED_ERAS →
      T.STAKED_NOTARIES_TIMESTAMP a < T.STAKED_NOTARIES_TIMESTAMP b)
    (t : Int) (i : Nat) (hi : 1 ≤ i) (hiN : i < T.NUM_STAKED_ERAS)
    (hlo : T.STAKED_NOTARIES_TIMESTAMP (i - 1) < t)
    (hhi : t < T.STAKED_NOTARIES_TIMESTAMP (i - 1) + T.STAKED_ERA_GAP) :
    STAKED_era T t = 0 :=
  STAKED_era_of_gap T hfit hinc t i hi hiN hlo hhi

/-- C22, the sentence as written fails: at the gap timestamp 105 of the
example tables the era is 0, `numStakedNotaries` reports 64 signers for it,
not 0, and `Choose_auth_STAKED` reads `num_notaries_STAKED[-1]`, outside the
table, instead of giving an authority of size 0. -/
theorem numStakedNotaries_gap_reports_64 :
    STAKED_era exampleTables 105 = 0 ∧
    (numStakedNotaries exampleTables exampleDecode []
      (STAKED_era exampleTables 105)).map Prod.fst = some 64 ∧
    Choose_auth_STAKED exampleTables (STAKED_era exampleTables 105) = none := by
  decide

/-- C22, amended: for era 0, which `STAKED_era` returns for every gap
timestamp of tables whose sums `TS[i-1] + G` lie in the range of `int`,
`numStakedNotaries(pubkeys, 0)` sets all 64 key slots to zero bytes and
reports a signer count of 64. -/
theorem numStakedNotaries_gap_nulls_keys (T : StakedTables) (decode_hex : String → PubKey)
    (pubkeys : List PubKey) (hfit : EraSumsFit T)
    (hinc : ∀ a b, a < b → b < T.NUM_STAKED_ERAS →
      T.STAKED_NOTARIES_TIMESTAMP a < T.STAKED_NOTARIES_TIMESTAMP b)
    (t : Int) (i : Nat) (hi : 1 ≤ i) (hiN : i < T.NUM_STAKED_ERAS)
    (hlo : T.STAKED_NOTARIES_TIMESTAMP (i - 1) < t)
    (hhi : t < T.STAKED_NOTARIES_TIMESTAMP (i - 1) + T.STAKED_ERA_GAP) :
    STAKED_era T t = 0 ∧
    numStakedNotaries T decode_hex pubkeys (STAKED_era T t) =
      some (64, List.replicate 64 (List.replicate 33 0)) := by
  have h := STAKED_era_of_gap T hfit hinc t i hi hiN hlo hhi
  rw [h]
  exact ⟨rfl, rfl⟩

/-- C25: for every era `e` with `1 ≤ e ≤ NUM_STAKED_ERAS` whose table entries
are well formed (between 0 and 64 notaries, each key a string of 66
hexadecimal digits), `Choose_auth_STAKED(e)` returns an authority with
`size = num_notaries_STAKED[e-1]`, `requiredSigs = floor(size / 5)`, and as
`i`-th key, for `i < size`, the 33 bytes spelled by the 66 hexadecimal digits
of the era's `i`-th public key. -/
theorem Choose_auth_STAKED_threshold (T : StakedTables) (e : Nat) (he1 : 1 ≤ e)
    (he2 : e ≤ T.NUM_STAKED_ERAS)
    (h0 : 0 ≤ T.num_notaries_STAKED (e - 1)) (h64 : T.num_notaries_STAKED (e - 1) ≤ 64)
    (hkeys : ∀ n, n < (T.num_notaries_STAKED (e - 1)).toNat →
      (T.notaries_STAKED (e - 1) n).2.data.length = 66 ∧
      ∀ c ∈ (T.notaries_STAKED (e - 1) n).2.data, (hexDigit c).isSome = true) :
    ∃ auth, Choose_auth_STAKED T e = some auth ∧
      auth.size = T.num_notaries_STAKED (e - 1) ∧
      5 * auth.requiredSigs ≤ auth.size ∧ auth.size < 5 * auth.requiredSigs + 5 ∧
      ∀ i : Nat, (i : Int) < auth.size →
        ∃ key, auth.notaries[i]? = some key ∧ key.length = 33 ∧
          decodeHexPairs (T.notaries_STAKED (e - 1) i).2.data = some key := by
  have hidx : (((e : Int) - 1).toNat) = e - 1 := by omega
  have hsz : toInt8 (T.num_notaries_STAKED (e - 1)) = T.num_notaries_STAKED (e - 1) :=
    toInt8_of_small _ (by omega) (by omega)
  have hdiv : Int.tdiv (T.num_notaries_STAKED (e - 1)) 5 = T.num_notaries_STAKED (e - 1) / 5 :=
    Int.tdiv_eq_ediv h0 (by decide)
  have hreq : toInt8 (T.num_notaries_STAKED (e - 1) / 5) = T.num_notaries_STAKED (e - 1) / 5 :=
    toInt8_of_small _ (by omega) (by omega)
  obtain ⟨keys, hk, hkl, hkj⟩ := scanKeys_eq T (e - 1) (T.num_notaries_STAKED (e - 1)).toNat 0
    (fun j _ hj => hkeys j (by omega))
  refine ⟨⟨keys, T.num_notaries_STAKED (e - 1), T.num_notaries_STAKED (e - 1) / 5⟩, ?_, rfl,
    ?_, ?_, ?_⟩
  · unfold Choose_auth_STAKED
    rw [if_neg (by omega)]
    simp only [hidx, hsz, hdiv, hreq]
    rw [if_neg (by omega), hk]
  · show 5 * (T.num_notaries_STAKED (e - 1) / 5) ≤ T.num_notaries_STAKED (e - 1)
    omega
  · show T.num_notaries_STAKED (e - 1) < 5 * (T.num_notaries_STAKED (e - 1) / 5) + 5
    omega
  · intro i hi
    have hi2 : i < (T.num_notaries_STAKED (e - 1)).toNat := by
      have : (i : Int) < T.num_notaries_STAKED (e - 1) := hi
      omega
    have hj := hkj i hi2
    rw [Nat.zero_add] at hj
    have hlt : i < keys.length := by omega
    refine ⟨keys[i], List.getElem?_eq_getElem hlt, ?_, ?_⟩
    · have hd : decodeHexPairs (T.notaries_STAKED (e - 1) i).2.data = some keys[i] := by
        rw [← hj, List.getElem?_eq_getElem hlt]
      have := decodeHexPairs_length _ _ _ (le_refl _) hd
      have := (hkeys i hi2).1
      omega
    · rw [← hj, List.getElem?_eq_getElem hlt]

/-- C23, the sentence as written fails: a transaction without inputs passes
the check against the authority with no signer and zero required signatures. -/
theorem CheckTxAuthority_empty_passes_no_inputs :
    CheckTxAuthority exampleGetTxUnconfirmed ⟨[], []⟩ ⟨[], 0, 0⟩ = some true := by
  decide

/-- C23, amended: for every transaction with at least one input,
`CheckTxAuthority(tx, auth)` never returns true when `auth` has zero
`requiredSigs` and size 0, and it returns false whenever the first input does
not have `prevout.n` equal to the number of outputs of the transaction it
spends. -/
theorem CheckTxAuthority_empty_rejects_inputs
    (GetTxUnconfirmed : uint256 → Option CTransaction) (tx : CTransaction)
    (auth : CrosschainAuthority) (txIn : CTxIn) (rest : List CTxIn)
    (hvin : tx.vin = txIn :: rest) (hsize : auth.size = 0) (hreq : auth.requiredSigs = 0) :
    CheckTxAuthority GetTxUnconfirmed tx auth ≠ some true ∧
    ((∀ prev, GetTxUnconfirmed txIn.prevout.hash = some prev →
        prev.vout.length ≠ txIn.prevout.n) →
      CheckTxAuthority GetTxUnconfirmed tx auth = some false) := by
  have hcmp : ¬ ((tx.vin.length : Int) < auth.requiredSigs % 2 ^ 64) := by
    rw [hreq]; simp
  unfold CheckTxAuthority
  rw [if_neg hcmp, hvin, CheckTxAuthorityLoop]
  cases hG : GetTxUnconfirmed txIn.prevout.hash with
  | none => exact ⟨by simp, fun _ => rfl⟩
  | some prev =>
    simp only []
    by_cases h1 : prev.vout.length < txIn.prevout.n
    · rw [if_pos h1]; exact ⟨by simp, fun _ => rfl⟩
    · rw [if_neg h1]
      cases hout : prev.vout[txIn.prevout.n]? with
      | none =>
        refine ⟨by simp, fun hne => ?_⟩
        exfalso
        have := List.getElem?_eq_none_iff.mp hout
        exact hne prev rfl (by omega)
      | some out =>
        simp only [hsize, Int.toNat_zero, findNotary_zero]
        refine ⟨?_, fun _ => ?_⟩ <;> split_ifs <;> simp

/-- C26: `is_STAKED` returns 1 for exactly `"LABS"`, 2 for every other symbol
with prefix `"LABS"`, 3 for every symbol with prefix `"CFEK"`, 4 for every
symbol with prefix `"TEST"`, 255 for exactly `"THIS_CHAIN_IS_BANNED"` and 0 for
every other symbol; `GetSymbolAuthority` returns the TXSCL class for every
symbol with prefix `"TXSCL"`, otherwise the staked class iff `is_STAKED` of
the symbol (read as a C string, which leaves a symbol without NUL unchanged)
is not 0, otherwise the hub class. -/
theorem is_STAKED_classification (symbol : String) :
    (is_STAKED symbol = 1 ↔ symbol = "LABS") ∧
    (is_STAKED symbol = 2 ↔ symbol ≠ "LABS" ∧ startsWith "LABS" symbol = true) ∧
    (is_STAKED symbol = 3 ↔ startsWith "CFEK" symbol = true) ∧
    (is_STAKED symbol = 4 ↔ startsWith "TEST" symbol = true) ∧
    (is_STAKED symbol = 255 ↔ symbol = "THIS_CHAIN_IS_BANNED") ∧
    (is_STAKED symbol = 0 ↔ startsWith "LABS" symbol = false ∧
      startsWith "CFEK" symbol = false ∧ startsWith "TEST" symbol = false ∧
      symbol ≠ "THIS_CHAIN_IS_BANNED") ∧
    (GetSymbolAuthority symbol = CrosschainType.CROSSCHAIN_TXSCL ↔
      startsWith "TXSCL" symbol = true) ∧
    (GetSymbolAuthority symbol = CrosschainType.CROSSCHAIN_STAKED ↔
      startsWith "TXSCL" symbol = false ∧ is_STAKED (c_str symbol) ≠ 0) ∧
    (GetSymbolAuthority symbol = CrosschainType.CROSSCHAIN_SQUISHY ↔
      startsWith "TXSCL" symbol = false ∧ is_STAKED (c_str symbol) = 0) ∧
    (Char.ofNat 0 ∉ symbol.data → c_str symbol = symbol) := by
  have hLC := startsWith_exclusive "LABS" "CFEK" symbol (by decide)
  have hLT := startsWith_exclusive "LABS" "TEST" symbol (by decide)
  have hCT := startsWith_exclusive "CFEK" "TEST" symbol (by decide)
  have hL : symbol = "LABS" → startsWith "LABS" symbol = true := by
    rintro rfl; exact startsWith_self _
  have hC : symbol = "CFEK" → startsWith "CFEK" symbol = true := by
    rintro rfl; exact startsWith_self _
  have hT : symbol = "TEST" → startsWith "TEST" symbol = true := by
    rintro rfl; exact startsWith_self _
  have hB : symbol = "THIS_CHAIN_IS_BANNED" → startsWith "LABS" symbol = false ∧
      startsWith "CFEK" symbol = false ∧ startsWith "TEST" symbol = false := by
    rintro rfl; decide
  have hLC2 : startsWith "LABS" symbol = true → startsWith "CFEK" symbol = false := by
    intro h; cases h2 : startsWith "CFEK" symbol
    · rfl
    · exact (hLC h h2).elim
  have hLT2 : startsWith "LABS" symbol = true → startsWith "TEST" symbol = false := by
    intro h; cases h2 : startsWith "TEST" symbol
    · rfl
    · exact (hLT h h2).elim
  have hCT2 : startsWith "CFEK" symbol = true → startsWith "TEST" symbol = false := by
    intro h; cases h2 : startsWith "TEST" symbol
    · rfl
    · exact (hCT h h2).elim
  have hne : symbol = "LABS" → symbol ≠ "THIS_CHAIN_IS_BANNED" := by
    rintro rfl; decide
  have hCf : startsWith "CFEK" symbol = false →
      ¬ (symbol = "CFEK" ∨ startsWith "CFEK" symbol = true) := by
    intro h; rintro (h1 | h1)
    · rw [hC h1] at h; cases h
    · rw [h1] at h; cases h
  have hTf : startsWith "TEST" symbol = false →
      ¬ (symbol = "TEST" ∨ startsWith "TEST" symbol = true) := by
    intro h; rintro (h1 | h1)
    · rw [hT h1] at h; cases h
    · rw [h1] at h; cases h
  have hstaked : (is_STAKED symbol = 1 ↔ symbol = "LABS") ∧
      (is_STAKED symbol = 2 ↔ symbol ≠ "LABS" ∧ startsWith "LABS" symbol = true) ∧
      (is_STAKED symbol = 3 ↔ startsWith "CFEK" symbol = true) ∧
      (is_STAKED symbol = 4 ↔ startsWith "TEST" symbol = true) ∧
      (is_STAKED symbol = 255 ↔ symbol = "THIS_CHAIN_IS_BANNED") ∧
      (is_STAKED symbol = 0 ↔ startsWith "LABS" symbol = false ∧
        startsWith "CFEK" symbol = false ∧ startsWith "TEST" symbol = false ∧
        symbol ≠ "THIS_CHAIN_IS_BANNED") := by
    by_cases e1 : symbol = "LABS"
    · have hv : is_STAKED symbol = 1 := by unfold is_STAKED; rw [if_pos e1]
      have a2 := hL e1
      have a3 := hLC2 a2
      have a4 := hLT2 a2
      have a5 := hne e1
      rw [hv]
      simp only [eq_true e1, a2, a3, a4, eq_false a5, ne_eq]
      decide
    · cases a2 : startsWith "LABS" symbol
      swap
      · have hv : is_STAKED symbol = 2 := by
          unfold is_STAKED; rw [if_neg e1, if_pos a2]
        have a3 := hLC2 a2
        have a4 := hLT2 a2
        have a5 : ¬ symbol = "THIS_CHAIN_IS_BANNED" := by
          intro h; have := (hB h).1; rw [a2] at this; cases this
        rw [hv]
        simp only [eq_false e1, a3, a4, eq_false a5, ne_eq]
        decide
      · have n2 : ¬ (false = true) := by decide
        cases a3 : startsWith "CFEK" symbol
        swap
        · have hv : is_STAKED symbol = 3 := by
            unfold is_STAKED; rw [if_neg e1, a2, if_neg n2, if_pos (Or.inr a3)]
          have a4 := hCT2 a3
          have a5 : ¬ symbol = "THIS_CHAIN_IS_BANNED" := by
            intro h; have := (hB h).2.1; rw [a3] at this; cases this
          rw [hv]
          simp only [eq_false e1, a4, eq_false a5, ne_eq]
          decide
        · cases a4 : startsWith "TEST" symbol
          swap
          · have hv : is_STAKED symbol = 4 := by
              unfold is_STAKED
              rw [if_neg e1, a2, if_neg n2, if_neg (hCf a3), if_pos (Or.inr a4)]
            have a5 : ¬ symbol = "THIS_CHAIN_IS_BANNED" := by
              intro h; have := (hB h).2.2; rw [a4] at this; cases this
            rw [hv]
            simp only [eq_false e1, eq_false a5, ne_eq]
            decide
          · by_cases a5 : symbol = "THIS_CHAIN_IS_BANNED"
            · have hv : is_STAKED symbol = 255 := by
                unfold is_STAKED
                rw [if_neg e1, a2, if_neg n2, if_neg (hCf a3), if_neg (hTf a4), if_pos a5]
              rw [hv]
              simp only [eq_false e1, eq_true a5, ne_eq]
              decide
            · have hv : is_STAKED symbol = 0 := by
                unfold is_STAKED
                rw [if_neg e1, a2, if_neg n2, if_neg (hCf a3), if_neg (hTf a4), if_neg a5]
              rw [hv]
              simp only [eq_false e1, eq_false a5, ne_eq]
              decide
  refine ⟨hstaked.1, hstaked.2.1, hstaked.2.2.1, hstaked.2.2.2.1, hstaked.2.2.2.2.1,
    hstaked.2.2.2.2.2, ?_, ?_, ?_, c_str_of_no_nul symbol⟩
  · unfold GetSymbolAuthority
    cases h : startsWith "TXSCL" symbol
    · rw [if_neg (by decide)]
      split_ifs <;> simp
    · simp
  · unfold GetSymbolAuthority
    cases h : startsWith "TXSCL" symbol
    · rw [if_neg (by decide)]
      split_ifs with h2
      · simp [h2]
      · simp [h2]
    · simp
  · unfold GetSymbolAuthority
    cases h : startsWith "TXSCL" symbol
    · rw [if_neg (by decide)]
      split_ifs with h2
      · simp [h2]
      · simp at h2; simp [h2]
    · simp

/-- C21: `CompleteImportTransaction` is atomic.  If the import transaction or
the burn transaction cannot be unmarshalled, the existing proof is not of
Merkle-branch form, or `GetCrossChainProof` throws, the call ends with that
error and `importTx` is left exactly as passed; `importTx` is replaced only
after `GetCrossChainProof` succeeded, and then by the import transaction built
from the extended proof and the same burn transaction and payouts. -/
theorem CompleteImportTransaction_atomic {Tx Proof Payouts : Type}
    (I : ImportEnv Tx Proof Payouts) (env : Env) (importTx : Tx) (offset : Int) :
    (I.UnmarshalImportTx importTx = none →
      CompleteImportTransaction I env importTx offset
        = some (Except.error "Couldn't unmarshal importTx", importTx)) ∧
    (∀ proof burnTx payouts, I.UnmarshalImportTx importTx = some (proof, burnTx, payouts) →
      (I.UnmarshalBurnTx burnTx = none →
        CompleteImportTransaction I env importTx offset
          = some (Except.error "Couldn't unmarshal burnTx", importTx)) ∧
      (∀ targetSymbol targetCCid payoutsHash rawproof,
        I.UnmarshalBurnTx burnTx = some (targetSymbol, targetCCid, payoutsHash, rawproof) →
        (I.IsMerkleBranch proof = none →
          CompleteImportTransaction I env importTx offset
            = some (Except.error "Incorrect import tx proof", importTx)) ∧
        (∀ merkleBranch, I.IsMerkleBranch proof = some merkleBranch →
          (∀ msg, GetCrossChainProof env (I.GetHash burnTx) (c_str targetSymbol) targetCCid
              merkleBranch offset = some (Except.error msg) →
            CompleteImportTransaction I env importTx offset
              = some (Except.error msg, importTx)) ∧
          (∀ newMerkleBranch,
            GetCrossChainProof env (I.GetHash burnTx) (c_str targetSymbol) targetCCid
              merkleBranch offset = some (Except.ok newMerkleBranch) →
            CompleteImportTransaction I env importTx offset
              = some (Except.ok (),
                  I.MakeImportCoinTransaction (I.ImportProof newMerkleBranch)
                    burnTx payouts))))) ∧
    (∀ r tx, CompleteImportTransaction I env importTx offset = some (r, tx) →
      (∀ msg, r = Except.error msg → tx = importTx) ∧
      (r = Except.ok () →
        ∃ proof burnTx payouts targetSymbol targetCCid payoutsHash rawproof merkleBranch
            newMerkleBranch,
          I.UnmarshalImportTx importTx = some (proof, burnTx, payouts) ∧
          I.UnmarshalBurnTx burnTx = some (targetSymbol, targetCCid, payoutsHash, rawproof) ∧
          I.IsMerkleBranch proof = some merkleBranch ∧
          GetCrossChainProof env (I.GetHash burnTx) (c_str targetSymbol) targetCCid
            merkleBranch offset = some (Except.ok newMerkleBranch) ∧
          tx = I.MakeImportCoinTransaction (I.ImportProof newMerkleBranch) burnTx payouts)) := by
  refine ⟨?_, ?_, ?_⟩
  · intro h
    unfold CompleteImportTransaction
    rw [h]
  · intro proof burnTx payouts h1
    refine ⟨?_, ?_⟩
    · intro h2
      unfold CompleteImportTransaction
      rw [h1]; simp only []; rw [h2]
    · intro targetSymbol targetCCid payoutsHash rawproof h2
      refine ⟨?_, ?_⟩
      · intro h3
        unfold CompleteImportTransaction
        rw [h1]; simp only []; rw [h2]; simp only []; rw [h3]
      · intro merkleBranch h3
        refine ⟨?_, ?_⟩
        · intro msg h4
          unfold CompleteImportTransaction
          rw [h1]; simp only []; rw [h2]; simp only []; rw [h3]; simp only []; rw [h4]
        · intro newMerkleBranch h4
          unfold CompleteImportTransaction
          rw [h1]; simp only []; rw [h2]; simp only []; rw [h3]; simp only []; rw [h4]
  · intro r tx h
    unfold CompleteImportTransaction at h
    cases h1 : I.UnmarshalImportTx importTx with
    | none =>
      rw [h1] at h
      cases h
      exact ⟨fun _ _ => rfl, fun hr => by cases hr⟩
    | some v1 =>
      obtain ⟨proof, burnTx, payouts⟩ := v1
      rw [h1] at h
      simp only [] at h
      cases h2 : I.UnmarshalBurnTx burnTx with
      | none =>
        rw [h2] at h
        cases h
        exact ⟨fun _ _ => rfl, fun hr => by cases hr⟩
      | some v2 =>
        obtain ⟨targetSymbol, targetCCid, payoutsHash, rawproof⟩ := v2
        rw [h2] at h
        simp only [] at h
        cases h3 : I.IsMerkleBranch proof with
        | none =>
          rw [h3] at h
          cases h
          exact ⟨fun _ _ => rfl, fun hr => by cases hr⟩
        | some merkleBranch =>
          rw [h3] at h
          simp only [] at h
          cases h4 : GetCrossChainProof env (I.GetHash burnTx) (c_str targetSymbol) targetCCid
              merkleBranch offset with
          | none => rw [h4] at h; cases h
          | some res =>
            rw [h4] at h
            cases res with
            | error msg =>
              cases h
              exact ⟨fun _ _ => rfl, fun hr => by cases hr⟩
            | ok newMerkleBranch =>
              cases h
              exact ⟨(fun msg hr => by cases hr), fun _ =>
                ⟨proof, burnTx, payouts, targetSymbol, targetCCid, payoutsHash, rawproof,
                  merkleBranch, newMerkleBranch, rfl, h2, h3, h4, rfl⟩⟩

/-- C27, the sentence as written fails.  With the side branch of height 3 as
active chain `A` and the main tip of height 4 as tip of `B`, which share
exactly their first 2 blocks, `SetTip` assigns the 3 slots 4, 3, 2, not
`max(3, 4) - 2 = 2` slots.  With the main chain of height 4 as `A` and the
side tip of height 3 as tip of `B` it assigns the 2 slots 3, 2: the count does
not grow with the height of `A`, and it is not `max(4, 3) - 1 = 3` either when
the shared part is counted by the height 1 of its last block. -/
theorem SetTip_writes_not_max_minus_shared :
    SetTipTrace exampleIndex exampleSideChain (some 4)
      = some ([some 0, some 1, some 2, some 3, some 4], [4, 3, 2]) ∧
    ([4, 3, 2] : List Nat).length ≠ (max (Height exampleSideChain) 4 - 2).toNat ∧
    SetTipTrace exampleIndex exampleChain (some 6)
      = some ([some 0, some 1, some 5, some 6], [3, 2]) ∧
    ([3, 2] : List Nat).length ≠ (max (Height exampleChain) 3 - 1).toNat := by
  decide

/-- C27, amended: when the active chain `A` is consistent and `SetTip` is
called with the tip `e` of a chain `B` of height `H` that shares exactly its
first `k` blocks (heights `0 .. k-1`) with `A`, the loop of `SetTip` assigns
exactly the slots `H, H-1, .., k`, that is `H + 1 - k` slots, whatever the
height of `A`; the vector it returns is that of `SetTip`. -/
theorem SetTip_writes_diverging_suffix (m : BlockMap) (hwf : WellFormed m) (v : CChain)
    (hc : Consistent m v) (e H k : Nat) (hH : (m e).nHeight = (H : Int)) (hk : k ≤ H + 1)
    (hshared : ∀ j, j < k → v[j]? = some (parentWalk m (H - j) (some e)))
    (hdiff : k ≤ H → v[k]? ≠ some (parentWalk m (H - k) (some e))) :
    ∃ v1 writes, SetTipTrace m v (some e) = some (v1, writes) ∧
      SetTip m v (some e) = some v1 ∧
      writes = (List.range (H + 1 - k)).map (fun d => H - d) ∧
      writes.length = H + 1 - k := by
  have hfst := SetTipTrace_fst m v (some e)
  by_cases hkH : k ≤ H
  · have hdiff2 : ∀ j, k ≤ j → j ≤ H → v[j]? ≠ some (parentWalk m (H - j) (some e)) := by
      intro j hkj hjH hj
      by_cases hjv : j < v.length
      · obtain ⟨a, ha, _⟩ := hwf.ancestor_exists e j (by omega) (by rw [hH]; omega)
        have hHj : ((m e).nHeight - (j : Int)).toNat = H - j := by omega
        rw [hHj] at ha
        rw [ha] at hj
        have hw := hc.walk (j - k) j a hjv hj (by omega)
        rw [show j - (j - k) = k by omega] at hw
        apply hdiff hkH
        rw [hw, ← ha, ← parentWalk_add]
        congr 2
        omega
      · rw [List.getElem?_eq_none (by omega)] at hj
        cases hj
    obtain ⟨w1, hw1⟩ := SetTipLoopTrace_spec m hwf v hc e H k
      (fun hpos => hshared (k - 1) (by omega)) hdiff2 (H - k) H (H + 1)
      (resize v (H + 1)) e (by omega) (le_refl _) (le_refl _) (by simp [parentWalk]) hH
      (resize_length v (H + 1)) (fun j _ => rfl)
    have htrace : SetTipTrace m v (some e)
        = some (w1, (List.range (H + 1 - k)).map (fun d => H - d)) := by
      unfold SetTipTrace
      simp only []
      rw [if_neg (by omega), show ((m e).nHeight + 1).toNat = H + 1 by omega]
      exact hw1
    refine ⟨w1, _, htrace, ?_, rfl, by simp⟩
    rw [← hfst, htrace]; rfl
  · have hkeq : k = H + 1 := by omega
    have hslot : (resize v (H + 1))[H]? = some (some e) := by
      rw [resize_getElem? v (H + 1) H (by omega)]
      have := hshared H (by omega)
      rw [Nat.sub_self] at this
      have hlt : H < v.length := by
        by_contra hcon
        rw [List.getElem?_eq_none (by omega)] at this
        cases this
      rw [if_pos hlt, this]; rfl
    have htrace : SetTipTrace m v (some e) = some (resize v (H + 1), []) := by
      unfold SetTipTrace
      simp only []
      rw [if_neg (by omega), show ((m e).nHeight + 1).toNat = H + 1 by omega,
        SetTipLoopTrace, hH, if_neg (by omega)]
      simp only [Int.toNat_ofNat]
      rw [hslot]
      simp
    refine ⟨resize v (H + 1), [], htrace, ?_, ?_, ?_⟩
    · rw [← hfst, htrace]; rfl
    · rw [hkeq]; simp
    · rw [hkeq]; simp

/-- C28, the sentence as written fails: concatenating the lower branch `[9, 8]`
with index 0 and the upper branch `[50]` with index 1, `GetAssetchainProof`
forms the index `(1 << 2) + 0 = 4`, not the lower index shifted by the length
of the upper branch plus the upper index, `(0 << 1) + 1 = 1`. -/
theorem concatBranches_index_not_lower_shifted :
    (concatBranches 1 [50] 0 [9, 8]).nIndex = 4 ∧
    (0 <<< [50].length) + 1 = 1 ∧
    (concatBranches 1 [50] 0 [9, 8]).nIndex ≠ (0 <<< [50].length) + 1 := by
  decide

/-- C28, amended: when two proofs covering adjacent layers are concatenated,
the index of the combined branch is the upper-layer index shifted left by the
length of the lower branch plus the lower-layer index, the combined branch is
the lower branch followed by the upper one, and for a lower index below
`2^|lower branch|` both indexes are recovered from the combined one. -/
theorem concatBranches_index_upper_shifted (nIndex : Nat) (branch : List uint256)
    (nTxIndex : Nat) (txBranch : List uint256) (h : nTxIndex < 2 ^ txBranch.length) :
    (concatBranches nIndex branch nTxIndex txBranch).nIndex
      = (nIndex <<< txBranch.length) + nTxIndex ∧
    (concatBranches nIndex branch nTxIndex txBranch).branch = txBranch ++ branch ∧
    (concatBranches nIndex branch nTxIndex txBranch).nIndex % 2 ^ txBranch.length
      = nTxIndex ∧
    (concatBranches nIndex branch nTxIndex txBranch).nIndex / 2 ^ txBranch.length
      = nIndex := by
  refine ⟨rfl, rfl, ?_, ?_⟩
  · show ((nIndex <<< txBranch.length) + nTxIndex) % 2 ^ txBranch.length = nTxIndex
    rw [Nat.shiftLeft_eq, Nat.add_comm, Nat.add_mul_mod_self_right, Nat.mod_eq_of_lt h]
  · show ((nIndex <<< txBranch.length) + nTxIndex) / 2 ^ txBranch.length = nIndex
    rw [Nat.shiftLeft_eq, Nat.add_comm, Nat.add_mul_div_right _ _ (Nat.two_pow_pos _),
      Nat.div_eq_of_lt h, Nat.zero_add]

/-- C29, the sentence as written fails: in the example store the scan meets the
MoM `90` (block 3) before the MoM `67` (block 2), and `CalculateProofRoot`
returns the list `[67, 90]`. -/
theorem CalculateProofRoot_moms_not_insertion_order :
    (scanWindow exampleEnvOrder 3 2 0).map (fun nota => nota.2.MoM) = [90, 67] ∧
    CalculateProofRoot exampleEnvOrder "B" 2 3 [] 0 = some (652, [67, 90], 31) := by
  decide

/-- C29, amended: the MoM list returned by `CalculateProofRoot` on its success
path holds the de-duplicated MoMs in strictly increasing order of their value
(the order of `uint256` in the `std::set` they are collected in), whatever
the order in which the scan met them. -/
theorem CalculateProofRoot_moms_sorted (env : Env) (symbol : String)
    (targetCCid : Nat) (kmdHeight : Int) (moms : List uint256) (destNotarisationTxid : uint256)
    (st : ScanState)
    (hcc : 2 ≤ targetCCid) (hlo : 0 ≤ kmdHeight) (hhi : kmdHeight ≤ Height env.chainActive)
    (hsucc : CalculateProofRootLoop env symbol targetCCid kmdHeight
      NOTARISATION_SCAN_LIMIT_BLOCKS 0 ⟨0, destNotarisationTxid, []⟩ = some (st, true)) :
    ∃ root out anchor,
      CalculateProofRoot env symbol targetCCid kmdHeight moms destNotarisationTxid
        = some (root, out, anchor) ∧
      out.Pairwise (fun a b => a < b) := by
  refine ⟨_, _, _, CalculateProofRoot_of_success env symbol targetCCid kmdHeight moms
    destNotarisationTxid st hcc hlo hhi hsucc, ?_⟩
  exact (CalculateProofRootLoop_moms env symbol targetCCid kmdHeight
    NOTARISATION_SCAN_LIMIT_BLOCKS 0 _ (st, true) (le_refl _) (by simp) hsucc).1
    List.Pairwise.nil

set_option maxRecDepth 100000 in
/-- C30, the sentence as written fails: for a back-notarisation confirmed in
block 101 of the unbranched example chain, `CheckMoMoM` reads the 120 blocks
at heights 1 to 120, more than 100, and answers true because of the
notarisation it finds in block 120. -/
theorem CheckMoMoM_examines_more_than_100 :
    CheckMoMoMTrace exampleLongEnv exampleBackNotarisation 31 77
      = (some true, (List.range 120).map (fun i => (i : Int) + 1)) ∧
    CheckMoMoM exampleLongEnv exampleBackNotarisation 31 77 = some true ∧
    100 < (CheckMoMoMTrace exampleLongEnv exampleBackNotarisation 31 77).2.length := by
  decide

/-- C30, amended: `CheckMoMoM` starts its scan 100 blocks below the block that
confirms the back-notarisation and examines at most 1440 blocks, at heights
from `blockHeight - 100` to `blockHeight - 100 + 1439`; `CalculateProofRoot`
(heights `kmdHeight - 1439` to `kmdHeight`) and the other scans through
`ScanNotarisationsFromHeight` (heights `nHeight` to `nHeight + 1439`) examine
at most 1440 blocks as well.  The recording functions return what the
functions themselves return. -/
theorem scans_examine_at_most_1440 (env : Env)
    (GetBackNotarisation : uint256 → Option Notarisation)
    (kmdNotarisationHash momom : uint256) (nHeight : Int) (f : Notarisation → Bool)
    (found : Notarisation) (symbol : String) (targetCCid : Nat) (kmdHeight : Int)
    (moms : List uint256) (destNotarisationTxid : uint256) :
    ((CheckMoMoMTrace env GetBackNotarisation kmdNotarisationHash momom).1
        = CheckMoMoM env GetBackNotarisation kmdNotarisationHash momom ∧
      (CheckMoMoMTrace env GetBackNotarisation kmdNotarisationHash momom).2.length ≤ 1440 ∧
      ∀ bn blockHeight, GetBackNotarisation kmdNotarisationHash = some bn →
        env.GetTxConfirmed bn.1 = some blockHeight →
        ∀ x ∈ (CheckMoMoMTrace env GetBackNotarisation kmdNotarisationHash momom).2,
          blockHeight - 100 ≤ x ∧ x < blockHeight - 100 + 1440) ∧
    ((ScanNotarisationsFromHeightTrace env nHeight f found).1
        = ScanNotarisationsFromHeight env nHeight f found ∧
      (ScanNotarisationsFromHeightTrace env nHeight f found).2.length ≤ 1440 ∧
      ∀ x ∈ (ScanNotarisationsFromHeightTrace env nHeight f found).2,
        nHeight ≤ x ∧ x < nHeight + 1440) ∧
    ((CalculateProofRootTrace env symbol targetCCid kmdHeight moms destNotarisationTxid).1
        = CalculateProofRoot env symbol targetCCid kmdHeight moms destNotarisationTxid ∧
      (CalculateProofRootTrace env symbol targetCCid kmdHeight moms
        destNotarisationTxid).2.length ≤ 1440 ∧
      ∀ x ∈ (CalculateProofRootTrace env symbol targetCCid kmdHeight moms
          destNotarisationTxid).2,
        kmdHeight - 1440 < x ∧ x ≤ kmdHeight) := by
  have h1 := CheckMoMoMTrace_visited env GetBackNotarisation kmdNotarisationHash momom
  have h2 := ScanNotarisationsFromHeightTrace_visited env nHeight f found
  have h3 := CalculateProofRootTrace_visited env symbol targetCCid kmdHeight moms
    destNotarisationTxid
  simp only [NOTARISATION_SCAN_LIMIT_BLOCKS, Nat.cast_ofNat] at h1 h2 h3
  exact ⟨⟨CheckMoMoMTrace_fst env GetBackNotarisation kmdNotarisationHash momom, h1.1, h1.2⟩,
    ⟨ScanNotarisationsFromHeightTrace_fst env nHeight f found, h2.1,
      fun x hx => ⟨(h2.2 x hx).1, (h2.2 x hx).2.2.1⟩⟩,
    ⟨CalculateProofRootTrace_fst env symbol targetCCid kmdHeight moms destNotarisationTxid,
      h3.1, h3.2⟩⟩

/-- C31: `GetSkipHeight(h) = 0` for `h < 2`; for odd `h ≥ 3` it equals
`InvertLowestOne(InvertLowestOne(h-1)) + 1`; for even `h ≥ 2` it equals
`InvertLowestOne(h)`, where `InvertLowestOne(n) = n & (n-1)`; and
`0 ≤ GetSkipHeight(h) < h` for every `h ≥ 1`. -/
theorem GetSkipHeight_formula (h : Int) :
    (h < 2 → GetSkipHeight h = 0) ∧
    (3 ≤ h → h % 2 = 1 →
      GetSkipHeight h = InvertLowestOne (InvertLowestOne (h - 1)) + 1) ∧
    (2 ≤ h → h % 2 = 0 → GetSkipHeight h = InvertLowestOne h) ∧
    (∀ n : Int, InvertLowestOne n = Int.land n (n - 1)) ∧
    (1 ≤ h → 0 ≤ GetSkipHeight h ∧ GetSkipHeight h < h) := by
  refine ⟨?_, ?_, ?_, fun n => rfl, ?_⟩
  · intro hlt
    unfold GetSkipHeight
    rw [if_pos hlt]
  · intro h3 hodd
    unfold GetSkipHeight
    rw [if_neg (by omega), land_one_eq_mod h (by omega), hodd, if_pos (by decide)]
  · intro h2 heven
    unfold GetSkipHeight
    rw [if_neg (by omega), land_one_eq_mod h (by omega), heven, if_neg (by decide)]
  · intro h1
    exact ⟨GetSkipHeight_nonneg h, GetSkipHeight_lt h (by omega)⟩

/-- C38: with at least one era and sums `TS[i-1] + G` that the code computes
within the range of `int`, for every timestamp `t` the result of
`STAKED_era` lies in `[0, NUM_STAKED_ERAS]`; for strictly increasing boundaries
`TS[0..N-1]` and gap `G > 0`, `STAKED_era(t) = 1` iff `t ≤ TS[0]`,
`STAKED_era(t) = i+1` (`1 ≤ i < N`) iff `TS[i-1] + G ≤ t ≤ TS[i]`, and
`STAKED_era(t) = 0` otherwise, in particular for every `t > TS[N-1]`; and the
era is non-decreasing in `t` over timestamps with a non-zero era. -/
theorem STAKED_era_characterisation (T : StakedTables) (hN : 1 ≤ T.NUM_STAKED_ERAS)
    (hfit : EraSumsFit T)
    (hinc : ∀ a b, a < b → b < T.NUM_STAKED_ERAS →
      T.STAKED_NOTARIES_TIMESTAMP a < T.STAKED_NOTARIES_TIMESTAMP b)
    (hG : 0 < T.STAKED_ERA_GAP) (t : Int) :
    (0 ≤ STAKED_era T t ∧ STAKED_era T t ≤ T.NUM_STAKED_ERAS) ∧
    (STAKED_era T t = 1 ↔ t ≤ T.STAKED_NOTARIES_TIMESTAMP 0) ∧
    (∀ i : Nat, 1 ≤ i → i < T.NUM_STAKED_ERAS →
      (STAKED_era T t = (i : Int) + 1 ↔
        T.STAKED_NOTARIES_TIMESTAMP (i - 1) + T.STAKED_ERA_GAP ≤ t ∧
          t ≤ T.STAKED_NOTARIES_TIMESTAMP i)) ∧
    (STAKED_era T t = 0 ↔
      ¬ t ≤ T.STAKED_NOTARIES_TIMESTAMP 0 ∧
      ∀ i : Nat, 1 ≤ i → i < T.NUM_STAKED_ERAS →
        ¬ (T.STAKED_NOTARIES_TIMESTAMP (i - 1) + T.STAKED_ERA_GAP ≤ t ∧
            t ≤ T.STAKED_NOTARIES_TIMESTAMP i)) ∧
    (T.STAKED_NOTARIES_TIMESTAMP (T.NUM_STAKED_ERAS - 1) < t → STAKED_era T t = 0) ∧
    (∀ t2 : Int, t ≤ t2 → STAKED_era T t ≠ 0 → STAKED_era T t2 ≠ 0 →
      STAKED_era T t ≤ STAKED_era T t2) := by
  have hord := STAKED_windows_ordered T hinc hG
  have hfirst : ∀ j : Nat, 1 ≤ j → j < T.NUM_STAKED_ERAS →
      T.STAKED_NOTARIES_TIMESTAMP 0 < T.STAKED_NOTARIES_TIMESTAMP (j - 1) + T.STAKED_ERA_GAP :=
    fun j h1 h2 => hord 0 j (by omega) h2 _ _ (le_refl _) (le_refl _)
  -- the era index determined by a window
  have huniq : ∀ (x : Int) (a b : Nat), 1 ≤ a → a < T.NUM_STAKED_ERAS → 1 ≤ b →
      b < T.NUM_STAKED_ERAS →
      (x ≤ T.STAKED_NOTARIES_TIMESTAMP a ∧
        x ≥ T.STAKED_NOTARIES_TIMESTAMP (a - 1) + T.STAKED_ERA_GAP) →
      (x ≤ T.STAKED_NOTARIES_TIMESTAMP b ∧
        x ≥ T.STAKED_NOTARIES_TIMESTAMP (b - 1) + T.STAKED_ERA_GAP) → a = b := by
    intro x a b ha1 ha2 hb1 hb2 hca hcb
    rcases Nat.lt_trichotomy a b with h | h | h
    · have := hord a b h hb2 x x hca.1 hcb.2; omega
    · exact h
    · have := hord b a h ha2 x x hcb.1 hca.2; omega
  refine ⟨?_, ?_, ?_, ?_, ?_, ?_⟩
  · rcases STAKED_era_cases T hfit t with ⟨_, h⟩ | ⟨_, h, _⟩ | ⟨_, j, h1, h2, _, h⟩
    · rw [h]; constructor
      · decide
      · exact_mod_cast hN
    · rw [h]; constructor
      · exact le_refl _
      · exact_mod_cast Nat.zero_le _
    · rw [h]; constructor
      · omega
      · have : (j : Int) + 1 ≤ (T.NUM_STAKED_ERAS : Int) := by exact_mod_cast h2
        exact this
  · rcases STAKED_era_cases T hfit t with ⟨h0, h⟩ | ⟨h0, h, _⟩ | ⟨h0, j, h1, h2, _, h⟩
    · rw [h]; exact ⟨fun _ => h0, fun _ => rfl⟩
    · rw [h]; exact ⟨(fun hc => by cases hc), fun hc => absurd hc h0⟩
    · rw [h]; exact ⟨fun hc => by omega, fun hc => absurd hc h0⟩
  · intro i hi1 hi2
    rcases STAKED_era_cases T hfit t with ⟨h0, h⟩ | ⟨h0, h, hall⟩ | ⟨h0, j, h1, h2, hc, h⟩
    · rw [h]
      refine ⟨fun hc => by omega, fun hc => ?_⟩
      have := hfirst i hi1 hi2
      omega
    · rw [h]
      refine ⟨fun hc => by omega, fun hc => ?_⟩
      exact absurd ⟨hc.2, hc.1⟩ (hall i hi1 hi2)
    · rw [h]
      constructor
      · intro he
        have : j = i := by omega
        subst this
        exact ⟨hc.2, hc.1⟩
      · intro hci
        have := huniq t j i h1 h2 hi1 hi2 hc ⟨hci.2, hci.1⟩
        rw [this]
  · rcases STAKED_era_cases T hfit t with ⟨h0, h⟩ | ⟨h0, h, hall⟩ | ⟨h0, j, h1, h2, hc, h⟩
    · rw [h]
      exact ⟨(fun hc => by cases hc), fun hc => absurd h0 hc.1⟩
    · rw [h]
      exact ⟨fun _ => ⟨h0, fun i hi1 hi2 hci => hall i hi1 hi2 ⟨hci.2, hci.1⟩⟩, fun _ => rfl⟩
    · rw [h]
      refine ⟨fun hc => by omega, fun hcn => ?_⟩
      exact absurd ⟨hc.2, hc.1⟩ (hcn.2 j h1 h2)
  · intro hlast
    rcases STAKED_era_cases T hfit t with ⟨h0, h⟩ | ⟨h0, h, hall⟩ | ⟨h0, j, h1, h2, hc, h⟩
    · exfalso
      rcases Nat.eq_or_lt_of_le hN with h1 | h1
      · rw [← h1] at hlast; simp at hlast; omega
      · have := hinc 0 (T.NUM_STAKED_ERAS - 1) (by omega) (by omega)
        omega
    · exact h
    · exfalso
      rcases Nat.lt_or_ge j (T.NUM_STAKED_ERAS - 1) with h3 | h3
      · have := hinc j (T.NUM_STAKED_ERAS - 1) h3 (by omega)
        omega
      · have : j = T.NUM_STAKED_ERAS - 1 := by omega
        rw [this] at hc
        omega
  · intro t2 ht hne1 hne2
    rcases STAKED_era_cases T hfit t with ⟨h0, h⟩ | ⟨h0, h, hall⟩ | ⟨h0, j, h1, h2, hc, h⟩
    · rcases STAKED_era_cases T hfit t2 with ⟨k0, k⟩ | ⟨k0, k, kall⟩ | ⟨k0, j2, k1, k2, kc, k⟩
      · rw [h, k]
      · exact absurd k hne2
      · rw [h, k]; omega
    · exact absurd h hne1
    · rcases STAKED_era_cases T hfit t2 with ⟨k0, k⟩ | ⟨k0, k, kall⟩ | ⟨k0, j2, k1, k2, kc, k⟩
      · exfalso; omega
      · exact absurd k hne2
      · rw [h, k]
        by_contra hlt
        have hjj : j2 < j := by omega
        have := hord j2 j hjj h2 t2 t kc.1 hc.2
        omega

/-- C39: if `CheckTxAuthority(tx, auth)` returns true then `tx` has at least
`auth.requiredSigs` inputs and its inputs can be credited, one to one, to
distinct signer slots `i < auth.size`, each input spending a 35-byte
pay-to-pubkey output whose key equals `auth.notaries[i]`; and when one input
can be credited to no slot the call does not return true, and returns false
provided no read leaves an array (`auth.size` within the 64 slots, no input
with `prevout.n` equal to the number of outputs it indexes).  The count
`requiredSigs` is an `int8_t`. -/
theorem CheckTxAuthority_true_distinct_signers
    (GetTxUnconfirmed : uint256 → Option CTransaction) (tx : CTransaction)
    (auth : CrosschainAuthority)
    (hreq : -128 ≤ auth.requiredSigs ∧ auth.requiredSigs ≤ 127) :
    (CheckTxAuthority GetTxUnconfirmed tx auth = some true →
      auth.requiredSigs ≤ tx.vin.length ∧
      ∃ slots, List.Forall₂ (SpendsNotaryOutput GetTxUnconfirmed auth) tx.vin slots ∧
        slots.Nodup) ∧
    (∀ txIn ∈ tx.vin, (∀ i, ¬ SpendsNotaryOutput GetTxUnconfirmed auth txIn i) →
      CheckTxAuthority GetTxUnconfirmed tx auth ≠ some true ∧
      (auth.size ≤ 64 → auth.size.toNat ≤ auth.notaries.length →
        (∀ x ∈ tx.vin, ∀ prev, GetTxUnconfirmed x.prevout.hash = some prev →
          prev.vout.length ≠ x.prevout.n) →
        CheckTxAuthority GetTxUnconfirmed tx auth = some false)) := by
  have hmain : CheckTxAuthority GetTxUnconfirmed tx auth = some true →
      auth.requiredSigs ≤ tx.vin.length ∧
      ∃ slots, List.Forall₂ (SpendsNotaryOutput GetTxUnconfirmed auth) tx.vin slots ∧
        slots.Nodup := by
    intro h
    unfold CheckTxAuthority at h
    by_cases hc : (tx.vin.length : Int) < auth.requiredSigs % 2 ^ 64
    · rw [if_pos hc] at h; cases h
    · rw [if_neg hc] at h
      obtain ⟨slots, hall, hnd, _⟩ := CheckTxAuthorityLoop_true GetTxUnconfirmed auth _ _ h
      refine ⟨?_, slots, hall, hnd⟩
      norm_num at hc
      omega
  have hnot : ∀ txIn ∈ tx.vin, (∀ i, ¬ SpendsNotaryOutput GetTxUnconfirmed auth txIn i) →
      CheckTxAuthority GetTxUnconfirmed tx auth ≠ some true := by
    intro txIn hmem hno htrue
    obtain ⟨_, slots, hall, _⟩ := hmain htrue
    obtain ⟨i, hi⟩ := forall₂_exists_of_mem hall txIn hmem
    exact hno i hi
  refine ⟨hmain, fun txIn hmem hno => ⟨hnot txIn hmem hno, fun hsize hslots hsafe => ?_⟩⟩
  have hn := hnot txIn hmem hno
  unfold CheckTxAuthority at hn ⊢
  by_cases hc : (tx.vin.length : Int) < auth.requiredSigs % 2 ^ 64
  · rw [if_pos hc]
  · rw [if_neg hc] at hn ⊢
    obtain ⟨b, hb⟩ := CheckTxAuthorityLoop_total GetTxUnconfirmed auth hsize hslots tx.vin
      (List.replicate 64 false) (by simp) hsafe
    rw [hb] at hn ⊢
    cases b
    · rfl
    · exact absurd rfl hn

/-- C40, evaluation at the failing input: transaction `1` of the example lookup
has exactly one output; in a transaction with two inputs, the first of which
spends output number 1 of it, that input passes the guard
`tx.vout.size() < txIn.prevout.n` and `tx.vout[1]` is read past the end of the
vector (no result in the model), where an input that spends output number 2
is refused with false. -/
theorem CheckTxAuthority_reads_past_end :
    (exampleGetTxUnconfirmed 1).map (fun prev => prev.vout.length) = some 1 ∧
    CheckTxAuthority exampleGetTxUnconfirmed ⟨[⟨⟨1, 1⟩⟩, ⟨⟨2, 0⟩⟩], []⟩ exampleAuthority
      = none ∧
    CheckTxAuthority exampleGetTxUnconfirmed ⟨[⟨⟨1, 2⟩⟩, ⟨⟨2, 0⟩⟩], []⟩ exampleAuthority
      = some false := by
  decide

/-- C36: for a well-formed index, a consistent active chain and a non-null
entry `e` of height `H`, let `g` be the greatest height `≤ H` at which the
slot of the old chain already holds the ancestor of `e` at that height
(`g = -1` if there is none).  Then `SetTip(e)` assigns exactly the slots at
heights `g+1 .. H`, each once (`H - g` assignments), and every slot at a
height `≤ g` holds after the call what it held before. -/
theorem SetTip_touches_diverging_suffix (m : BlockMap) (hwf : WellFormed m) (v : CChain)
    (hc : Consistent m v) (e H : Nat) (hH : (m e).nHeight = (H : Int)) (g : Int)
    (hg1 : -1 ≤ g) (hg2 : g ≤ H)
    (hheld : 0 ≤ g → v[g.toNat]? = some (parentWalk m (H - g.toNat) (some e)))
    (hgreatest : ∀ j : Nat, g < j → j ≤ H →
      v[j]? ≠ some (parentWalk m (H - j) (some e))) :
    ∃ v1 writes, SetTipTrace m v (some e) = some (v1, writes) ∧
      SetTip m v (some e) = some v1 ∧
      (∀ j : Nat, j ∈ writes ↔ g < j ∧ j ≤ H) ∧ writes.Nodup ∧
      (writes.length : Int) = H - g ∧
      (∀ j : Nat, (j : Int) ≤ g → v1[j]? = v[j]?) := by
  obtain ⟨w, hw, hwlen, hwall⟩ := SetTip_spec m hwf v hc e
  have hunchanged : ∀ v1, SetTip m v (some e) = some v1 →
      ∀ j : Nat, (j : Int) ≤ g → v1[j]? = v[j]? := by
    intro v1 hv1 j hj
    rw [hw] at hv1
    cases hv1
    have hg0 : 0 ≤ g := by omega
    have hgv := hheld hg0
    have hlt : g.toNat < v.length := by
      by_contra hcon
      rw [List.getElem?_eq_none (by omega)] at hgv
      cases hgv
    obtain ⟨a, ha, _⟩ := hwf.ancestor_exists e g hg0 (by rw [hH]; exact hg2)
    have hidx : ((m e).nHeight - g).toNat = H - g.toNat := by omega
    rw [hidx] at ha
    rw [ha] at hgv
    have hwalk := hc.walk (g.toNat - j) g.toNat a hlt hgv (by omega)
    rw [show g.toNat - (g.toNat - j) = j by omega] at hwalk
    rw [hwalk, hwall j (by rw [hH]; omega), ← ha, ← parentWalk_add]
    congr 2
    omega
  by_cases hgH : g = H
  · -- the tip is already in place: nothing is assigned
    have hslot : (resize v (H + 1))[H]? = some (some e) := by
      rw [resize_getElem? v (H + 1) H (by omega)]
      have := hheld (by omega)
      rw [show g.toNat = H by omega, Nat.sub_self] at this
      have hlt : H < v.length := by
        by_contra hcon
        rw [List.getElem?_eq_none (by omega)] at this
        cases this
      rw [if_pos hlt, this]; rfl
    have htrace : SetTipTrace m v (some e) = some (resize v (H + 1), []) := by
      unfold SetTipTrace
      simp only []
      rw [if_neg (by omega), show ((m e).nHeight + 1).toNat = H + 1 by omega,
        SetTipLoopTrace, hH, if_neg (by omega)]
      simp only [Int.toNat_ofNat]
      rw [hslot]
      simp
    have hset : SetTip m v (some e) = some (resize v (H + 1)) := by
      rw [← SetTipTrace_fst, htrace]; rfl
    refine ⟨resize v (H + 1), [], htrace, hset, ?_, List.nodup_nil, ?_, hunchanged _ hset⟩
    · intro j
      constructor
      · intro h; cases h
      · intro h; omega
    · simp; omega
  · obtain ⟨v1, htrace, hset⟩ := SetTipTrace_spec m hwf v hc e H (g + 1).toNat hH (by omega)
      (fun hpos => by
        have := hheld (by omega)
        rw [show (g + 1).toNat - 1 = g.toNat by omega]
        exact this)
      (fun j hj1 hj2 => hgreatest j (by omega) hj2)
    refine ⟨v1, _, htrace, hset, ?_, ?_, ?_, hunchanged v1 hset⟩
    · intro j
      simp only [List.mem_map, List.mem_range]
      constructor
      · rintro ⟨d, hd, rfl⟩
        omega
      · intro hj
        exact ⟨H - j, by omega, by omega⟩
    · refine List.Nodup.map_on ?_ (List.nodup_range _)
      intro a ha b hb hab
      rw [List.mem_range] at ha hb
      omega
    · simp only [List.length_map, List.length_range]
      omega

/-- C35: on a well-formed index, for every entry `e` and `0 ≤ h ≤ e.nHeight`,
the loop of `GetAncestor` ends without a failed `assert(pindexWalk->pprev)` on
a non-null entry of height `h`; every iteration starts with `pindexWalk` a
non-null entry of height `heightWalk` with `h < heightWalk ≤ e.nHeight`;
`heightWalk` strictly decreases from one iteration to the next; and there are
at most `e.nHeight - h` iterations. -/
theorem GetAncestor_never_overshoots (m : BlockMap) (hwf : WellFormed m) (e : Nat)
    (h : Int) (h0 : 0 ≤ h) (h1 : h ≤ (m e).nHeight) :
    ∃ r trace, GetAncestorTrace m e h = (some (some r), trace) ∧
      GetAncestor m e h = some (some r) ∧
      (m r).nHeight = h ∧
      (∀ s ∈ trace, (m s.1).nHeight = s.2 ∧ h < s.2 ∧ s.2 ≤ (m e).nHeight) ∧
      trace.Pairwise (fun a b => b.2 < a.2) ∧
      (trace.length : Int) ≤ (m e).nHeight - h := by
  obtain ⟨r, trace, htr, hr, hall, hpw, hlen⟩ := GetAncestorLoopTrace_spec m hwf h h0
    (m e).nHeight.toNat e (m e).nHeight rfl h1 (le_refl _)
  have ht : GetAncestorTrace m e h = (some (some r), trace) := by
    unfold GetAncestorTrace
    rw [if_neg (by omega)]
    exact htr
  refine ⟨r, trace, ht, ?_, hr, hall, hpw, hlen⟩
  rw [← GetAncestorTrace_fst, ht]

set_option maxRecDepth 100000 in
/-- C33, the sentence as written fails: on the unbranched example chain the
locator of the entry of height 20 holds the heights 20 down to 9, one apart,
as its first 12 entries, then 7, 3 and 0; the 11th and 12th entries, at
heights 10 and 9, are one below their predecessors and not 2 and 4 below. -/
theorem GetLocator_first_twelve_consecutive :
    GetLocator exampleLongIndex exampleLongEnv.chainActive (some 20)
      = some [1020, 1019, 1018, 1017, 1016, 1015, 1014, 1013, 1012, 1011, 1010, 1009,
          1007, 1003, 1000] ∧
    (exampleLongIndex 11).hashBlock = 1011 ∧ (exampleLongIndex 10).hashBlock = 1010 ∧
    (exampleLongIndex 9).hashBlock = 1009 ∧
    (exampleLongIndex 10).nHeight ≠ (exampleLongIndex 11).nHeight - 2 := by
  decide

/-- C33, amended: for a non-null entry of a well-formed index and a consistent
active chain, consecutive locator entries are exactly 1 apart in height for
the first 12 entries, and from the 12th entry on the step doubles with every
further entry (2, 4, 8, ...): the entry after the one at position `k`
(counted from 0) lies `1` lower for `k ≤ 10` and `2^(k-10)` lower for
`k ≥ 10`, each step clamped at height 0, and the final entry is genesis. -/
theorem GetLocator_exponentially_sparse (m : BlockMap) (hwf : WellFormed m) (v : CChain)
    (hc : Consistent m v) (e : Nat) :
    ∃ ids : List Nat,
      GetLocator m v (some e) = some (ids.map (fun a => (m a).hashBlock)) ∧
      ids.head? = some e ∧
      (∀ k a b, ids[k]? = some a → ids[k + 1]? = some b →
        (k ≤ 10 → (m b).nHeight = max ((m a).nHeight - 1) 0) ∧
        (10 ≤ k → (m b).nHeight = max ((m a).nHeight - 2 ^ (k - 10)) 0)) ∧
      ∃ g, ids.getLast? = some g ∧ (m g).nHeight = 0 := by
  have hnn := hwf.height_nonneg e
  obtain ⟨ids, hids, hhead, hgap, g, hg, hg0⟩ := GetLocatorLoop_gaps m hwf v hc
    ((m e).nHeight.toNat + 1) e [] (by omega)
  refine ⟨ids, by simpa [GetLocator, locatorStep] using hids, hhead, ?_, g, hg, hg0⟩
  intro k a b ha hb
  have := hgap k a b ha hb
  simp only [List.length_nil, Nat.zero_add] at this
  constructor
  · intro hk
    rw [this, locatorStep, if_pos hk]
  · intro hk
    rw [this, locatorStep]
    by_cases h : k ≤ 10
    · have : k = 10 := by omega
      subst this
      rfl
    · rw [if_neg h]

/-- C37: with `targetCCid ≥ 2`, `0 ≤ kmdHeight ≤` active height and every
scanned slot populated, `CalculateProofRoot` takes its success path if and only
if a 7th notarisation of the symbol is met within the 1440 scanned blocks;
then the returned list holds exactly the MoMs of the notarisations with the
authority class of the requested symbol and `ccId = targetCCid` stored for the
scanned blocks from the block of the first notarisation of the symbol
(inclusive) down to, but not including, the block of the 7th one, and no block
below the block of the 7th one is examined.  Blocks are named by their
distance `j` below `kmdHeight`; the count of notarisations of the symbol in
the blocks `0 .. j` tells where block `j` lies. -/
theorem CalculateProofRoot_exact_range (env : Env) (symbol : String) (targetCCid : Nat)
    (kmdHeight : Int) (moms : List uint256) (destNotarisationTxid : uint256)
    (hcc : 2 ≤ targetCCid) (hlo : 0 ≤ kmdHeight) (hhi : kmdHeight ≤ Height env.chainActive)
    (hpop : ∀ i : Int, 0 ≤ i → i ≤ kmdHeight → i < 1440 →
      chainAt env.chainActive (kmdHeight - i) ≠ none) :
    (7 ≤ (ownNotarisations symbol (scanWindow env kmdHeight 1440 0)).length ↔
      ∃ st, CalculateProofRootLoop env symbol targetCCid kmdHeight
        NOTARISATION_SCAN_LIMIT_BLOCKS 0 ⟨0, destNotarisationTxid, []⟩ = some (st, true)) ∧
    (7 ≤ (ownNotarisations symbol (scanWindow env kmdHeight 1440 0)).length →
      ∃ out anchor,
        CalculateProofRoot env symbol targetCCid kmdHeight moms destNotarisationTxid
          = some (env.GetMerkleRoot out, out, anchor) ∧
        (∀ y, y ∈ out ↔
          ∃ j : Nat, j < 1440 ∧ (j : Int) ≤ kmdHeight ∧
            1 ≤ (ownNotarisations symbol (scanWindow env kmdHeight (j + 1) 0)).length ∧
            (ownNotarisations symbol (scanWindow env kmdHeight (j + 1) 0)).length < 7 ∧
            ∃ nota ∈ blockNotarisations env (kmdHeight - j),
              GetSymbolAuthority nota.2.symbol = GetSymbolAuthority symbol ∧
              nota.2.ccId = targetCCid ∧ nota.2.MoM = y) ∧
        (∀ x ∈ (CalculateProofRootTrace env symbol targetCCid kmdHeight moms
            destNotarisationTxid).2,
          ∃ j : Nat, j < 1440 ∧ x = kmdHeight - j ∧
            (ownNotarisations symbol (scanWindow env kmdHeight j 0)).length < 7)) ∧
    ((ownNotarisations symbol (scanWindow env kmdHeight 1440 0)).length < 7 →
      CalculateProofRoot env symbol targetCCid kmdHeight moms destNotarisationTxid
        = some (0, [], 0)) := by
  obtain ⟨⟨st, flag⟩, hr⟩ := CalculateProofRootLoop_returns env symbol targetCCid kmdHeight
    hpop NOTARISATION_SCAN_LIMIT_BLOCKS 0 ⟨0, destNotarisationTxid, []⟩ (le_refl _)
    (by simp [NOTARISATION_SCAN_LIMIT_BLOCKS])
  have hflag := (CalculateProofRootLoop_result env symbol targetCCid kmdHeight
    NOTARISATION_SCAN_LIMIT_BLOCKS 0 _ st flag (le_refl _) (by simp) hr).1
  simp only [zero_add, NOTARISATION_SCAN_LIMIT_BLOCKS] at hflag
  have hsucc : 7 ≤ (ownNotarisations symbol (scanWindow env kmdHeight 1440 0)).length →
      flag = true := by
    intro h7
    rw [hflag, decide_eq_true_iff]; exact_mod_cast h7
  refine ⟨⟨fun h7 => ⟨st, by rw [hr, hsucc h7]⟩, ?_⟩, ?_, ?_⟩
  · rintro ⟨st2, h2⟩
    rw [hr] at h2
    have hft : flag = true := by
      cases h2; rfl
    rw [hflag, decide_eq_true_iff] at hft
    exact_mod_cast hft
  · intro h7
    have hft := hsucc h7
    subst hft
    refine ⟨st.tmp_moms, st.destNotarisationTxid,
      CalculateProofRoot_of_success env symbol targetCCid kmdHeight moms
        destNotarisationTxid st hcc hlo hhi hr, ?_, ?_⟩
    · intro y
      constructor
      · intro hy
        rcases CalculateProofRootLoop_collects_only env symbol targetCCid kmdHeight
          NOTARISATION_SCAN_LIMIT_BLOCKS 0 _ (st, true) (le_refl _) (by simp) hr y hy
          with h | ⟨j, hj, hij, h1, h2, nota, hn, hrest⟩
        · simp at h
        · simp only [zero_add] at h1 h2 hij hn
          exact ⟨j, by simpa [NOTARISATION_SCAN_LIMIT_BLOCKS] using hj, hij,
            by exact_mod_cast h1, by exact_mod_cast h2, nota, hn, hrest⟩
      · rintro ⟨j, hj, hjk, h1, h2, nota, hn, hauth, hccid, hm⟩
        have hidx : kmdHeight - (0 + (j : Int)) = kmdHeight - j := by ring
        rw [← hm]
        exact CalculateProofRootLoop_collects env symbol targetCCid kmdHeight
          NOTARISATION_SCAN_LIMIT_BLOCKS 0 _ (st, true) j (le_refl _) (by simp) hr
          (by simpa [NOTARISATION_SCAN_LIMIT_BLOCKS] using hj) (by omega)
          (by simp only [zero_add]; exact_mod_cast h1)
          (by simp only [zero_add]; exact_mod_cast h2)
          nota (by rw [hidx]; exact hn) hauth hccid
    · intro x hx
      have hv : (CalculateProofRootTrace env symbol targetCCid kmdHeight moms
          destNotarisationTxid).2
          = (CalculateProofRootLoopTrace env symbol targetCCid kmdHeight
              NOTARISATION_SCAN_LIMIT_BLOCKS 0 ⟨0, destNotarisationTxid, []⟩).2 := by
        unfold CalculateProofRootTrace
        rw [if_neg (by omega), if_neg (by omega)]
        rcases CalculateProofRootLoopTrace env symbol targetCCid kmdHeight
            NOTARISATION_SCAN_LIMIT_BLOCKS 0 ⟨0, destNotarisationTxid, []⟩ with ⟨r, visited⟩
        cases r with
        | none => rfl
        | some p =>
          obtain ⟨s, f⟩ := p
          cases f <;> rfl
      rw [hv] at hx
      obtain ⟨j, hj, hxj, hcount⟩ := CalculateProofRootLoopTrace_examined env symbol
        targetCCid kmdHeight NOTARISATION_SCAN_LIMIT_BLOCKS 0 _ (le_refl _) (by simp) x hx
      simp only [zero_add] at hxj hcount
      exact ⟨j, by simpa [NOTARISATION_SCAN_LIMIT_BLOCKS] using hj, hxj,
        by exact_mod_cast hcount⟩
  · intro h7
    have hff : flag = false := by
      rw [hflag, decide_eq_false_iff_not]; omega
    subst hff
    exact CalculateProofRoot_of_fallthrough env symbol targetCCid kmdHeight moms
      destNotarisationTxid st hcc hlo hhi hr

/-! ## The example index, chain and environment -/

theorem GetSkipHeight_three : GetSkipHeight 3 = 1 := by
  have h2 : InvertLowestOne (3 - 1) = 0 := by decide
  have h0 : InvertLowestOne 0 = 0 := by
    show ((Nat.ldiff 0 0 : Nat) : Int) = 0
    simp [Nat.ldiff]
  unfold GetSkipHeight
  rw [if_neg (by decide), if_pos (by decide), h2, h0]
  rfl

theorem exampleIndex_wellFormed : WellFormed exampleIndex := by
  refine ⟨?_, ?_, ?_, ?_⟩
  · intro i
    rcases i with _ | _ | _ | _ | _ | _ | _ | i <;> simp [exampleIndex]
  · intro i p hp
    rcases i with _ | _ | _ | _ | _ | _ | _ | i <;> simp [exampleIndex] at hp <;>
      subst hp <;> simp [exampleIndex]
  · intro i hi
    rcases i with _ | _ | _ | _ | _ | _ | _ | i <;> simp [exampleIndex] at hi ⊢
  · intro i s hs
    rcases i with _ | _ | _ | _ | _ | _ | _ | i <;> simp [exampleIndex] at hs <;> subst hs
    · show parentWalk exampleIndex ((1 : Int) - GetSkipHeight 1).toNat (some 1) = some 0
      decide
    · show parentWalk exampleIndex ((2 : Int) - GetSkipHeight 2).toNat (some 2) = some 0
      decide
    · show parentWalk exampleIndex ((3 : Int) - GetSkipHeight 3).toNat (some 3) = some 1
      rw [GetSkipHeight_three]
      decide
    · show parentWalk exampleIndex ((4 : Int) - GetSkipHeight 4).toNat (some 4) = some 0
      decide
    · show parentWalk exampleIndex ((2 : Int) - GetSkipHeight 2).toNat (some 5) = some 0
      decide
    · show parentWalk exampleIndex ((3 : Int) - GetSkipHeight 3).toNat (some 6) = some 1
      rw [GetSkipHeight_three]
      decide

theorem exampleChain_consistent : Consistent exampleIndex exampleChain := by
  intro h hh
  have hlt : h < 5 := hh
  interval_cases h
  · exact ⟨0, rfl, rfl, by decide⟩
  · exact ⟨1, rfl, rfl, fun _ => rfl⟩
  · exact ⟨2, rfl, rfl, fun _ => rfl⟩
  · exact ⟨3, rfl, rfl, fun _ => rfl⟩
  · exact ⟨4, rfl, rfl, fun _ => rfl⟩

theorem exampleEnv_no_C (i : Int) (h0 : 0 ≤ i) (h1 : i ≤ 3) :
    ∃ b, chainAt exampleEnv.chainActive (3 - i) = some b ∧
      ∀ ns, exampleEnv.GetBlockNotarisations (exampleEnv.blocks b).hashBlock = some ns →
        ∀ nota ∈ ns, nota.2.symbol ≠ "C" := by
  interval_cases i
  · refine ⟨3, rfl, ?_⟩
    intro ns hns nota hmem
    have h : some [exampleNota 31 "B" 50] = some ns := hns
    cases h
    simp at hmem
    subst hmem
    decide
  · refine ⟨2, rfl, ?_⟩
    intro ns hns nota hmem
    have h : some [exampleNota 21 "A" 67] = some ns := hns
    cases h
    simp at hmem
    subst hmem
    decide
  · refine ⟨1, rfl, ?_⟩
    intro ns hns nota hmem
    have h : some [exampleNota 11 "B" 40, exampleNota 12 "B" 41, exampleNota 13 "B" 42,
        exampleNota 14 "B" 43, exampleNota 15 "B" 44, exampleNota 16 "B" 45] = some ns := hns
    cases h
    simp at hmem
    rcases hmem with h | h | h | h | h | h <;> subst h <;> decide
  · refine ⟨0, rfl, ?_⟩
    intro ns hns
    have h : (none : Option NotarisationsInBlock) = some ns := hns
    cases h

/-- An index built by attaching one block at address 1 to the genesis entry 0
and calling `BuildSkip` on it. -/
theorem exampleBuilt : ∃ m1 : BlockMap, Built m1 ∧ (m1 1).nHeight = 1 ∧ (m1 1).pskip = some 0 := by
  have hg : Built exampleGenesis := Built.genesis (fun _ => 0)
  have hw := hg.wellFormed.attachBlock 1 0 77 (by decide) (by intro i; simp [exampleGenesis])
  obtain ⟨s, hs, _, hb⟩ := BuildSkip_with_parent _ hw 1 0 (by simp [attachBlock])
  have hwalk : parentWalk (attachBlock exampleGenesis 1 0 77)
      ((attachBlock exampleGenesis 1 0 77 1).nHeight
        - GetSkipHeight (attachBlock exampleGenesis 1 0 77 1).nHeight).toNat (some 1)
      = some 0 := by decide
  rw [hwalk] at hs
  have hs0 : s = 0 := (Option.some.inj hs).symm
  subst hs0
  refine ⟨_, Built.attach _ _ 1 0 77 hg (by decide)
    (by intro i; simp [exampleGenesis]) hb, ?_, ?_⟩
  · simp [attachBlock, exampleGenesis]
  · simp

/-! ## The claims at the example -/

theorem GetAncestor_eq_parentWalk_witness :
    ParentLinked exampleIndex ∧ SkipLinked exampleIndex ∧
    GetAncestor exampleIndex 6 1
      = some (parentWalk exampleIndex ((exampleIndex 6).nHeight - 1).toNat (some 6)) :=
  ⟨exampleIndex_wellFormed.parentLinked, exampleIndex_wellFormed.skip_linked,
    GetAncestor_eq_parentWalk exampleIndex exampleIndex_wellFormed.parentLinked
      exampleIndex_wellFormed.skip_linked 6 1 (by decide) (by decide)⟩

theorem GetAncestor_null_iff_witness :
    WellFormed exampleIndex ∧
    (∃ r, GetAncestor exampleIndex 4 5 = some r) ∧
    (GetAncestor exampleIndex 4 5 = some none ↔ ((5 : Int) < 0 ∨ 5 > (exampleIndex 4).nHeight)) :=
  ⟨exampleIndex_wellFormed, GetAncestor_null_iff exampleIndex exampleIndex_wellFormed 4 5⟩

theorem BuildSkip_establishes_skip_invariant_witness :
    WellFormed exampleIndex ∧ (exampleIndex 4).pprev = some 3 ∧
    (∃ s, parentWalk exampleIndex
          ((exampleIndex 4).nHeight - GetSkipHeight (exampleIndex 4).nHeight).toNat (some 4)
          = some s ∧
        GetAncestor exampleIndex 3 (GetSkipHeight (exampleIndex 4).nHeight) = some (some s) ∧
        BuildSkip exampleIndex 4
          = some (fun i => if i = 4 then { exampleIndex 4 with pskip := some s }
              else exampleIndex i) ∧
        WellFormed (fun i => if i = 4 then { exampleIndex 4 with pskip := some s }
              else exampleIndex i)) ∧
    BuildSkip exampleIndex 0 = some exampleIndex ∧
    ∃ m1 : BlockMap, Built m1 ∧ (m1 1).pskip = some 0 ∧ SkipLinked m1 ∧
      ∀ (e : Nat) (h : Int), 0 ≤ h → h ≤ (m1 e).nHeight →
        GetAncestor m1 e h = some (parentWalk m1 ((m1 e).nHeight - h).toNat (some e)) :=
  ⟨exampleIndex_wellFormed, rfl,
    BuildSkip_establishes_skip_invariant.1 exampleIndex 4 3 exampleIndex_wellFormed rfl,
    BuildSkip_establishes_skip_invariant.2.1 exampleIndex 0 rfl,
    exampleBuilt.elim fun m1 hm1 =>
      ⟨m1, hm1.1, hm1.2.2, BuildSkip_establishes_skip_invariant.2.2 m1 hm1.1⟩⟩

theorem SetTip_rebuilds_chain_witness :
    WellFormed exampleIndex ∧ Consistent exampleIndex exampleChain ∧
    SetTip exampleIndex exampleChain (some 6) = some [some 0, some 1, some 5, some 6] ∧
    ∃ v1, SetTip exampleIndex exampleChain (some 6) = some v1 ∧
      (v1.length : Int) = (exampleIndex 6).nHeight + 1 ∧
      (∀ h : Nat, (h : Int) ≤ (exampleIndex 6).nHeight →
        ∃ a, v1[h]? = some (some a) ∧
          parentWalk exampleIndex ((exampleIndex 6).nHeight - h).toNat (some 6) = some a ∧
          (exampleIndex a).nHeight = (h : Int)) ∧
      Consistent exampleIndex v1 :=
  ⟨exampleIndex_wellFormed, exampleChain_consistent, by decide,
    (SetTip_rebuilds_chain exampleIndex exampleIndex_wellFormed exampleChain
      exampleChain_consistent).2 6⟩

theorem FindFork_highest_common_witness :
    WellFormed exampleIndex ∧
    FindFork exampleIndex exampleChain (some 6) = some (some 1) ∧
    ∃ r, FindFork exampleIndex exampleChain (some 6) = some r ∧
      (∀ p, r = some p → (∃ d, parentWalk exampleIndex d (some 6) = some p) ∧
        Contains exampleIndex exampleChain p = true ∧
        ∀ q d, parentWalk exampleIndex d (some 6) = some q →
          Contains exampleIndex exampleChain q = true →
          (exampleIndex q).nHeight ≤ (exampleIndex p).nHeight) ∧
      (r = none ↔ ∀ q d, parentWalk exampleIndex d (some 6) = some q →
        Contains exampleIndex exampleChain q = false) ∧
      (exampleChain = [] → r = none) ∧
      (Contains exampleIndex exampleChain 6 = true → r = some 6) :=
  ⟨exampleIndex_wellFormed, by decide,
    (FindFork_highest_common exampleIndex exampleIndex_wellFormed exampleChain).2 6⟩

theorem GetLocator_ends_at_genesis_witness :
    WellFormed exampleIndex ∧ Consistent exampleIndex exampleChain ∧
    GetLocator exampleIndex exampleChain (some 5) = some [205, 101, 100] ∧
    ∃ ids : List Nat,
      GetLocator exampleIndex exampleChain (some 5)
        = some (ids.map (fun a => (exampleIndex a).hashBlock)) ∧
      ids.head? = some 5 ∧
      (∀ a ∈ ids, ∃ d, parentWalk exampleIndex d (some 5) = some a) ∧
      ids.Pairwise (fun a b => (exampleIndex a).nHeight > (exampleIndex b).nHeight) ∧
      ∃ g, ids.getLast? = some g ∧
        parentWalk exampleIndex (exampleIndex 5).nHeight.toNat (some 5) = some g ∧
        (exampleIndex g).nHeight = 0 :=
  ⟨exampleIndex_wellFormed, exampleChain_consistent, by decide,
    GetLocator_ends_at_genesis exampleIndex exampleIndex_wellFormed exampleChain
      exampleChain_consistent 5⟩

theorem GetLocator_length_logarithmic_witness :
    WellFormed exampleIndex ∧ Consistent exampleIndex exampleChain ∧
    ∃ out, GetLocator exampleIndex exampleChain (some 4) = some out ∧
      ((exampleIndex 4).nHeight = 0 → out.length = 1) ∧
      (1 ≤ (exampleIndex 4).nHeight →
        out.length ≤ 12 + Nat.log 2 (exampleIndex 4).nHeight.toNat) :=
  ⟨exampleIndex_wellFormed, exampleChain_consistent,
    GetLocator_length_logarithmic exampleIndex exampleIndex_wellFormed exampleChain
      exampleChain_consistent 4⟩

theorem CalculateProofRoot_null_without_own_witness :
    (2 ≤ 2) ∧ ((0 : Int) ≤ 3) ∧ ((3 : Int) ≤ Height exampleEnv.chainActive) ∧
    CalculateProofRoot exampleEnv "C" 2 3 [5] 9 = some (0, [], 0) :=
  ⟨le_refl _, by decide, by decide,
    CalculateProofRoot_null_without_own exampleEnv "C" 2 3 [5] 9 (le_refl _) (by decide)
      (by decide) (fun i h0 h1 _ => exampleEnv_no_C i h0 h1)⟩

theorem CheckMerkleBranch_compose_witness :
    (0 < 2 ^ [9].length) ∧
    CheckMerkleBranch exampleHash 7 ([9] ++ [50]) ((1 <<< [9].length) + 0)
        = CheckMerkleBranch exampleHash (CheckMerkleBranch exampleHash 7 [9] 0) [50] 1 ∧
    CheckMerkleBranch exampleHash 7 (concatBranches 1 [50] 0 [9]).branch
        (concatBranches 1 [50] 0 [9]).nIndex
      = CheckMerkleBranch exampleHash (CheckMerkleBranch exampleHash 7 [9] 0) [50] 1 :=
  ⟨by decide, CheckMerkleBranch_compose exampleHash 7 [9] [50] 0 1 (by decide)⟩

theorem GetCrossChainProof_root_checked_witness :
    GetCrossChainProof exampleEnv 7 "B" 2 exampleProof 0
      = some (Except.ok (31, ⟨2, [9, 50]⟩)) ∧
    ∃ blockHeight scanned found MoMoM moms nIndex,
      exampleEnv.GetTxConfirmed exampleProof.1 = some blockHeight ∧
      ScanNotarisationsFromHeight exampleEnv blockHeight
        (fun nota => nota.2.symbol = "B") emptyNotarisation = some (scanned, found) ∧
      CalculateProofRoot exampleEnv "B" 2 (scanned + 0) [] 0 = some (MoMoM, moms, 31) ∧
      findMoM (exampleEnv.Exec exampleProof.2 7) moms 0 = some nIndex ∧
      (⟨2, [9, 50]⟩ : MerkleBranch)
        = exampleEnv.append exampleProof.2 ⟨nIndex, exampleEnv.GetMerkleBranch moms nIndex⟩ ∧
      exampleEnv.Exec ⟨2, [9, 50]⟩ 7 = MoMoM :=
  ⟨rfl, (GetCrossChainProof_root_checked exampleEnv 7 "B" 2 exampleProof 0).1 31
    ⟨2, [9, 50]⟩ rfl⟩

theorem exampleChain_populated (i : Int) (h0 : 0 ≤ i) (h1 : i ≤ 3) :
    chainAt exampleChain (3 - i) ≠ none := by
  interval_cases i <;> decide

theorem exampleChain_populated_up (h : Int) (h0 : 1 ≤ h) (h1 : h < 4) :
    chainAt exampleChain h ≠ none := by
  interval_cases h <;> decide

theorem CalculateProofRoot_needs_seven_own_witness :
    (2 : Nat) ≤ 2 ∧ (0 : Int) ≤ 3 ∧ (3 : Int) ≤ Height exampleEnv.chainActive ∧
    (ownNotarisations "B" (scanWindow exampleEnv 3 1440 0)).length = 7 ∧
    CalculateProofRoot exampleEnv "B" 2 3 [] 0 = some (486, [50, 67], 31) ∧
    ∃ nota collected,
      (ownNotarisations "B" (scanWindow exampleEnv 3 1440 0)).head? = some nota ∧
      CalculateProofRoot exampleEnv "B" 2 3 [] 0
        = some (exampleEnv.GetMerkleRoot collected, collected, nota.1) :=
  ⟨le_refl _, by decide, by decide, by decide, by decide,
    (CalculateProofRoot_needs_seven_own exampleEnv "B" 2 3 [] 0 (le_refl _) (by decide)
      (by decide) (fun i h0 h1 _ => exampleChain_populated i h0 h1)).1 (by decide)⟩

theorem CalculateProofRoot_success_moms_nodup_witness :
    (2 : Nat) ≤ 2 ∧ (0 : Int) ≤ 3 ∧ (3 : Int) ≤ Height exampleEnvDup.chainActive ∧
    CalculateProofRootLoop exampleEnvDup "B" 2 3 NOTARISATION_SCAN_LIMIT_BLOCKS 0 ⟨0, 0, []⟩
      = some (⟨7, 31, [50, 67]⟩, true) ∧
    ¬ ((scanWindow exampleEnvDup 3 2 0).map (fun nota => nota.2.MoM)).Nodup ∧
    ∃ root out anchor,
      CalculateProofRoot exampleEnvDup "B" 2 3 [] 0 = some (root, out, anchor) ∧
      out = [50, 67] ∧ out.Nodup ∧ root = exampleEnvDup.GetMerkleRoot out :=
  ⟨le_refl _, by decide, by decide, by decide, by decide,
    CalculateProofRoot_success_moms_nodup exampleEnvDup "B" 2 3 [] 0 ⟨7, 31, [50, 67]⟩
      (le_refl _) (by decide) (by decide) (by decide)⟩

theorem CalculateProofRoot_anchor_first_own_witness :
    (2 : Nat) ≤ 2 ∧ (0 : Int) ≤ 3 ∧ (3 : Int) ≤ Height exampleEnv.chainActive ∧
    CalculateProofRootLoop exampleEnv "B" 2 3 NOTARISATION_SCAN_LIMIT_BLOCKS 0 ⟨0, 0, []⟩
      = some (⟨7, 31, [50, 67]⟩, true) ∧
    (ownNotarisations "B" (scanWindow exampleEnv 3 1440 0)).head?
      = some (exampleNota 31 "B" 50) ∧
    ∃ nota,
      (ownNotarisations "B" (scanWindow exampleEnv 3 1440 0)).head? = some nota ∧
      CalculateProofRoot exampleEnv "B" 2 3 [] 0
        = some (exampleEnv.GetMerkleRoot [50, 67], [50, 67], nota.1) :=
  ⟨le_refl _, by decide, by decide, by decide, by decide,
    CalculateProofRoot_anchor_first_own exampleEnv "B" 2 3 [] 0 ⟨7, 31, [50, 67]⟩
      (le_refl _) (by decide) (by decide) (by decide)⟩

theorem CalculateProofRoot_collects_in_range_witness :
    (2 : Nat) ≤ 2 ∧ (0 : Int) ≤ 3 ∧ (3 : Int) ≤ Height exampleEnv.chainActive ∧
    CalculateProofRootLoop exampleEnv "B" 2 3 NOTARISATION_SCAN_LIMIT_BLOCKS 0 ⟨0, 0, []⟩
      = some (⟨7, 31, [50, 67]⟩, true) ∧
    (ownNotarisations "B" (scanWindow exampleEnv 3 (1 + 1) 0)).length = 1 ∧
    exampleNota 21 "A" 67 ∈ blockNotarisations exampleEnv (3 - (1 : Nat)) ∧
    ∃ root out anchor,
      CalculateProofRoot exampleEnv "B" 2 3 [] 0 = some (root, out, anchor) ∧
      (exampleNota 21 "A" 67).2.MoM ∈ out :=
  ⟨le_refl _, by decide, by decide, by decide, by decide, by decide,
    CalculateProofRoot_collects_in_range exampleEnv "B" 2 3 [] 0 ⟨7, 31, [50, 67]⟩
      (le_refl _) (by decide) (by decide) (by decide) 1 (by decide) (by decide) (by decide)
      (by decide) (exampleNota 21 "A" 67) (by decide) (by decide) (by decide)⟩

theorem ScanNotarisationsFromHeight_first_match_witness :
    (∀ h : Int, max 2 1 ≤ h → h < min (2 + 1440) (Height exampleEnv.chainActive) →
      chainAt exampleEnv.chainActive h ≠ none) ∧
    ScanNotarisationsFromHeight exampleEnv 2 (fun nota => nota.2.symbol = "B")
      emptyNotarisation = some (3, exampleNota 31 "B" 50) ∧
    ∃ r, ScanNotarisationsFromHeight exampleEnv 2 (fun nota => nota.2.symbol = "B")
        emptyNotarisation = some r ∧
      (r.1 ≠ 0 → 1 ≤ r.1 ∧ r.1 < Height exampleEnv.chainActive) := by
  have hH : Height exampleEnv.chainActive = 4 := by decide
  have hpop : ∀ h : Int, max 2 1 ≤ h → h < min (2 + 1440) (Height exampleEnv.chainActive) →
      chainAt exampleEnv.chainActive h ≠ none := by
    intro h h1 h2
    rw [hH] at h2
    exact exampleChain_populated_up h (by omega) (by omega)
  obtain ⟨r, hr, _, _, h4⟩ := ScanNotarisationsFromHeight_first_match exampleEnv 2
    (fun nota => nota.2.symbol = "B") emptyNotarisation hpop
  exact ⟨hpop, by decide, r, hr, h4⟩

theorem exampleApprovalEnv_keys (pubkeys : List PubKey) (nHeight blockTime : Int) :
    exampleApprovalEnv.squishy_notaries pubkeys nHeight blockTime
      = (8, [[1], [2], [3], [4], [5], [6], [7], [8]]) := rfl

theorem exampleApprovalEnv_valid (t : Nat) (h1 : 1 ≤ t) (h5 : t ≤ 5) :
    ValidApproval exampleApprovalEnv 500 t [t] := by
  interval_cases t <;>
    exact ⟨_, 10, 1000, _, _, ⟨77, 77, [500]⟩, rfl, rfl, rfl, rfl, rfl, by decide,
      fun pubkeys => by rw [exampleApprovalEnv_keys]; decide⟩

theorem CheckNotariesApproval_threshold_witness :
    List.Forall₂ (ValidApproval exampleApprovalEnv 500) [1, 2, 3, 4] [[1], [2], [3], [4]] ∧
    CheckNotariesApproval exampleApprovalEnv exampleKeyArray 500 [1, 2, 3, 4] = false ∧
    List.Forall₂ (ValidApproval exampleApprovalEnv 500) [1, 2, 3, 4, 5]
      [[1], [2], [3], [4], [5]] ∧
    CheckNotariesApproval exampleApprovalEnv exampleKeyArray 500 [1, 2, 3, 4, 5] = true := by
  have v1 := exampleApprovalEnv_valid 1 (by decide) (by decide)
  have v2 := exampleApprovalEnv_valid 2 (by decide) (by decide)
  have v3 := exampleApprovalEnv_valid 3 (by decide) (by decide)
  have v4 := exampleApprovalEnv_valid 4 (by decide) (by decide)
  have v5 := exampleApprovalEnv_valid 5 (by decide) (by decide)
  have h4 : List.Forall₂ (ValidApproval exampleApprovalEnv 500) [1, 2, 3, 4]
      [[1], [2], [3], [4]] :=
    List.Forall₂.cons v1 (List.Forall₂.cons v2 (List.Forall₂.cons v3
      (List.Forall₂.cons v4 List.Forall₂.nil)))
  have h5 : List.Forall₂ (ValidApproval exampleApprovalEnv 500) [1, 2, 3, 4, 5]
      [[1], [2], [3], [4], [5]] :=
    List.Forall₂.cons v1 (List.Forall₂.cons v2 (List.Forall₂.cons v3
      (List.Forall₂.cons v4 (List.Forall₂.cons v5 List.Forall₂.nil))))
  exact ⟨h4,
    ((CheckNotariesApproval_threshold exampleApprovalEnv exampleKeyArray 500
      [1, 2, 3, 4]).2.2.2.2 [[1], [2], [3], [4]] h4 (by decide)).2.2.1 rfl,
    h5,
    ((CheckNotariesApproval_threshold exampleApprovalEnv exampleKeyArray 500
      [1, 2, 3, 4, 5]).2.2.2.2 [[1], [2], [3], [4], [5]] h5 (by decide)).2.2.2 rfl⟩

theorem CheckMoMoM_spec_witness :
    CheckMoMoM exampleEnv exampleBackNotarisation 30 0 = some false ∧
    CheckMoMoM exampleEnv exampleBackNotarisation 32 0 = some false ∧
    CheckMoMoM exampleEnv exampleBackNotarisation 31 0 = some true ∧
    CheckMoMoM exampleEnv exampleBackNotarisation 31 5 = some false ∧
    ∃ r, ScanNotarisationsFromHeight exampleEnv (2 - 100)
          (fun nota => nota.2.MoMoM = 0) emptyNotarisation = some r ∧
      CheckMoMoM exampleEnv exampleBackNotarisation 31 0 = some (decide (r.1 ≠ 0)) ∧
      (r.1 ≠ 0 ↔
        ∃ h : Int, max (2 - 100) 1 ≤ h ∧
          h < min (2 - 100 + 1440) (Height exampleEnv.chainActive) ∧
          ∃ x ∈ blockNotarisations exampleEnv h, x.2.MoMoM = 0) := by
  have hH : Height exampleEnv.chainActive = 4 := by decide
  refine ⟨(CheckMoMoM_spec exampleEnv exampleBackNotarisation 30 0).1 rfl,
    (CheckMoMoM_spec exampleEnv exampleBackNotarisation 32 0).2.1 _ rfl rfl,
    by decide, by decide,
    (CheckMoMoM_spec exampleEnv exampleBackNotarisation 31 0).2.2 (exampleNota 21 "B" 0) 2
      rfl rfl ?_⟩
  intro h h1 h2
  rw [hH] at h2
  exact exampleChain_populated_up h (by omega) (by omega)

theorem exampleTables_increasing : ∀ a b, a < b → b < exampleTables.NUM_STAKED_ERAS →
    exampleTables.STAKED_NOTARIES_TIMESTAMP a < exampleTables.STAKED_NOTARIES_TIMESTAMP b := by
  intro a b hab hb
  have hb3 : b < 3 := hb
  interval_cases b <;> interval_cases a <;> decide

theorem exampleTables_fit : EraSumsFit exampleTables := by
  intro j hj
  have hj3 : j + 1 < 3 := hj
  have hj2 : j < 2 := by omega
  interval_cases j <;> decide

/-- With boundaries next to the largest `int` the sum `TS[0] + G` does not fit:
the code compares with the wrapped sum and answers era 2 for timestamps after
the first boundary, which the sum of the integers would put in the gap. -/
theorem STAKED_era_overflow_example :
    ¬ EraSumsFit exampleTablesOverflow ∧
    [2147483640, 2147483641, 2147483643, 2147483645, 2147483646, 2147483647].map
      (STAKED_era exampleTablesOverflow) = [1, 2, 2, 2, 0, 0] := by
  constructor
  · intro h
    have := (h 0 (by decide)).2
    revert this
    decide
  · decide

theorem STAKED_era_gap_zero_witness : STAKED_era exampleTables 105 = 0 :=
  STAKED_era_gap_zero exampleTables exampleTables_fit exampleTables_increasing 105 1 (by decide)
    (by decide) (by decide) (by decide)

theorem numStakedNotaries_gap_nulls_keys_witness :
    STAKED_era exampleTables 205 = 0 ∧
    numStakedNotaries exampleTables exampleDecode [[1], [2]] (STAKED_era exampleTables 205) =
      some (64, List.replicate 64 (List.replicate 33 0)) :=
  numStakedNotaries_gap_nulls_keys exampleTables exampleDecode [[1], [2]]
    exampleTables_fit exampleTables_increasing 205 2 (by decide) (by decide) (by decide) (by decide)

theorem Choose_auth_STAKED_threshold_witness :
    ∃ auth, Choose_auth_STAKED exampleTables (3 : Nat) = some auth ∧
      auth.size = exampleTables.num_notaries_STAKED (3 - 1) ∧
      5 * auth.requiredSigs ≤ auth.size ∧ auth.size < 5 * auth.requiredSigs + 5 ∧
      ∀ i : Nat, (i : Int) < auth.size →
        ∃ key, auth.notaries[i]? = some key ∧ key.length = 33 ∧
          decodeHexPairs (exampleTables.notaries_STAKED (3 - 1) i).2.data = some key :=
  Choose_auth_STAKED_threshold exampleTables 3 (by decide) (by decide) (by decide) (by decide)
    (by decide)

theorem CheckTxAuthority_empty_rejects_inputs_witness :
    CheckTxAuthority exampleGetTxUnconfirmed ⟨[⟨⟨1, 0⟩⟩], []⟩ ⟨[], 0, 0⟩ ≠ some true ∧
    ((∀ prev, exampleGetTxUnconfirmed 1 = some prev → prev.vout.length ≠ 0) →
      CheckTxAuthority exampleGetTxUnconfirmed ⟨[⟨⟨1, 0⟩⟩], []⟩ ⟨[], 0, 0⟩ = some false) :=
  CheckTxAuthority_empty_rejects_inputs exampleGetTxUnconfirmed ⟨[⟨⟨1, 0⟩⟩], []⟩ ⟨[], 0, 0⟩
    ⟨⟨1, 0⟩⟩ [] rfl rfl rfl

theorem is_STAKED_classification_witness :
    is_STAKED "LABSX" = 2 ∧
    GetSymbolAuthority "TXSCLX" = CrosschainType.CROSSCHAIN_TXSCL ∧
    c_str "LABSX" = "LABSX" :=
  ⟨(is_STAKED_classification "LABSX").2.1.mpr ⟨by decide, by decide⟩,
   (is_STAKED_classification "TXSCLX").2.2.2.2.2.2.1.mpr (by decide),
   (is_STAKED_classification "LABSX").2.2.2.2.2.2.2.2.2 (by decide)⟩

theorem CompleteImportTransaction_atomic_witness :
    CompleteImportTransaction exampleImportEnv exampleEnv 70 0 = some (Except.ok (), 31271) ∧
    CompleteImportTransaction exampleImportEnv exampleEnv 73 0
      = some (Except.error "Notarisation not found", 73) ∧
    CompleteImportTransaction exampleImportEnv exampleEnv 72 0
      = some (Except.error "Incorrect import tx proof", 72) ∧
    CompleteImportTransaction exampleImportEnv exampleEnv 71 0
      = some (Except.error "Couldn't unmarshal burnTx", 71) ∧
    CompleteImportTransaction exampleImportEnv exampleEnv 69 0
      = some (Except.error "Couldn't unmarshal importTx", 69) :=
  ⟨((((CompleteImportTransaction_atomic exampleImportEnv exampleEnv 70 0).2.1
      (some exampleProof) 7 [5] rfl).2 "B" 2 0 [] rfl).2 exampleProof rfl).2
      (31, ⟨2, [9, 50]⟩) rfl,
   ((((CompleteImportTransaction_atomic exampleImportEnv exampleEnv 73 0).2.1
      (some (99, ⟨0, [9]⟩)) 7 [5] rfl).2 "B" 2 0 [] rfl).2 (99, ⟨0, [9]⟩) rfl).1
      "Notarisation not found" rfl,
   (((CompleteImportTransaction_atomic exampleImportEnv exampleEnv 72 0).2.1
      none 7 [5] rfl).2 "B" 2 0 [] rfl).1 rfl,
   ((CompleteImportTransaction_atomic exampleImportEnv exampleEnv 71 0).2.1
      (some exampleProof) 8 [5] rfl).1 rfl,
   (CompleteImportTransaction_atomic exampleImportEnv exampleEnv 69 0).1 rfl⟩

theorem SetTip_writes_diverging_suffix_witness :
    ∃ v1 writes, SetTipTrace exampleIndex exampleChain (some 6) = some (v1, writes) ∧
      SetTip exampleIndex exampleChain (some 6) = some v1 ∧
      writes = (List.range (3 + 1 - 2)).map (fun d => 3 - d) ∧
      writes.length = 3 + 1 - 2 :=
  SetTip_writes_diverging_suffix exampleIndex exampleIndex_wellFormed exampleChain
    exampleChain_consistent 6 3 2 (by decide) (by decide)
    (by
      intro j hj
      interval_cases j <;> decide)
    (by decide)

theorem concatBranches_index_upper_shifted_witness :
    (concatBranches 1 [50] 0 [9, 8]).nIndex = (1 <<< [9, 8].length) + 0 ∧
    (concatBranches 1 [50] 0 [9, 8]).branch = [9, 8] ++ [50] ∧
    (concatBranches 1 [50] 0 [9, 8]).nIndex % 2 ^ [9, 8].length = 0 ∧
    (concatBranches 1 [50] 0 [9, 8]).nIndex / 2 ^ [9, 8].length = 1 :=
  concatBranches_index_upper_shifted 1 [50] 0 [9, 8] (by decide)

theorem CalculateProofRoot_moms_sorted_witness :
    (2 : Nat) ≤ 2 ∧ (0 : Int) ≤ 3 ∧ (3 : Int) ≤ Height exampleEnvOrder.chainActive ∧
    CalculateProofRootLoop exampleEnvOrder "B" 2 3 NOTARISATION_SCAN_LIMIT_BLOCKS 0 ⟨0, 0, []⟩
      = some (⟨7, 31, [67, 90]⟩, true) ∧
    ∃ root out anchor,
      CalculateProofRoot exampleEnvOrder "B" 2 3 [] 0 = some (root, out, anchor) ∧
      out.Pairwise (fun a b => a < b) :=
  ⟨le_refl _, by decide, by decide, by decide,
    CalculateProofRoot_moms_sorted exampleEnvOrder "B" 2 3 [] 0 ⟨7, 31, [67, 90]⟩
      (le_refl _) (by decide) (by decide) (by decide)⟩

theorem scans_examine_at_most_1440_witness :
    (CheckMoMoMTrace exampleLongEnv exampleBackNotarisation 31 77).2.length ≤ 1440 ∧
    (ScanNotarisationsFromHeightTrace exampleEnv 2
      (fun nota => nota.2.symbol = "B") emptyNotarisation).2.length ≤ 1440 ∧
    (CalculateProofRootTrace exampleEnv "B" 2 3 [] 0).2.length ≤ 1440 :=
  ⟨(scans_examine_at_most_1440 exampleLongEnv exampleBackNotarisation 31 77 2
      (fun nota => nota.2.symbol = "B") emptyNotarisation "B" 2 3 [] 0).1.2.1,
   (scans_examine_at_most_1440 exampleEnv exampleBackNotarisation 31 77 2
      (fun nota => nota.2.symbol = "B") emptyNotarisation "B" 2 3 [] 0).2.1.2.1,
   (scans_examine_at_most_1440 exampleEnv exampleBackNotarisation 31 77 2
      (fun nota => nota.2.symbol = "B") emptyNotarisation "B" 2 3 [] 0).2.2.2.1⟩

theorem GetSkipHeight_formula_witness :
    GetSkipHeight 1 = 0 ∧
    GetSkipHeight 7 = InvertLowestOne (InvertLowestOne (7 - 1)) + 1 ∧
    GetSkipHeight 12 = InvertLowestOne 12 ∧
    (0 ≤ GetSkipHeight 12 ∧ GetSkipHeight 12 < 12) :=
  ⟨(GetSkipHeight_formula 1).1 (by decide),
   (GetSkipHeight_formula 7).2.1 (by decide) (by decide),
   (GetSkipHeight_formula 12).2.2.1 (by decide) (by decide),
   (GetSkipHeight_formula 12).2.2.2.2 (by decide)⟩

theorem STAKED_era_characterisation_witness :
    (0 ≤ STAKED_era exampleTables 150 ∧
      STAKED_era exampleTables 150 ≤ exampleTables.NUM_STAKED_ERAS) ∧
    STAKED_era exampleTables 150 = 2 ∧
    STAKED_era exampleTables 301 = 0 :=
  ⟨(STAKED_era_characterisation exampleTables (by decide) exampleTables_fit
    exampleTables_increasing
      (by decide) 150).1,
   ((STAKED_era_characterisation exampleTables (by decide) exampleTables_fit
    exampleTables_increasing
      (by decide) 150).2.2.1 1 (by decide) (by decide)).mpr ⟨by decide, by decide⟩,
   (STAKED_era_characterisation exampleTables (by decide) exampleTables_fit
    exampleTables_increasing
      (by decide) 301).2.2.2.2.1 (by decide)⟩

theorem CheckTxAuthority_true_distinct_signers_witness :
    CheckTxAuthority exampleGetTxUnconfirmed ⟨[⟨⟨1, 0⟩⟩, ⟨⟨2, 0⟩⟩], []⟩ exampleAuthority
      = some true ∧
    exampleAuthority.requiredSigs ≤ ([⟨⟨1, 0⟩⟩, ⟨⟨2, 0⟩⟩] : List CTxIn).length ∧
    ∃ slots, List.Forall₂ (SpendsNotaryOutput exampleGetTxUnconfirmed exampleAuthority)
        [⟨⟨1, 0⟩⟩, ⟨⟨2, 0⟩⟩] slots ∧ slots.Nodup :=
  ⟨by decide,
   (CheckTxAuthority_true_distinct_signers exampleGetTxUnconfirmed
      ⟨[⟨⟨1, 0⟩⟩, ⟨⟨2, 0⟩⟩], []⟩ exampleAuthority (by decide)).1 (by decide)⟩

theorem SetTip_touches_diverging_suffix_witness :
    ∃ v1 writes, SetTipTrace exampleIndex exampleChain (some 6) = some (v1, writes) ∧
      SetTip exampleIndex exampleChain (some 6) = some v1 ∧
      (∀ j : Nat, j ∈ writes ↔ (1 : Int) < j ∧ j ≤ 3) ∧ writes.Nodup ∧
      (writes.length : Int) = (3 : Nat) - 1 ∧
      (∀ j : Nat, (j : Int) ≤ 1 → v1[j]? = exampleChain[j]?) :=
  SetTip_touches_diverging_suffix exampleIndex exampleIndex_wellFormed exampleChain
    exampleChain_consistent 6 3 (by decide) 1 (by decide) (by decide) (fun _ => by decide)
    (by
      intro j h1 h2
      have h3 : j = 2 ∨ j = 3 := by omega
      rcases h3 with rfl | rfl <;> decide)

theorem GetAncestor_never_overshoots_witness :
    ∃ r trace, GetAncestorTrace exampleIndex 6 1 = (some (some r), trace) ∧
      GetAncestor exampleIndex 6 1 = some (some r) ∧
      (exampleIndex r).nHeight = 1 ∧
      (∀ s ∈ trace, (exampleIndex s.1).nHeight = s.2 ∧ 1 < s.2 ∧
        s.2 ≤ (exampleIndex 6).nHeight) ∧
      trace.Pairwise (fun a b => b.2 < a.2) ∧
      (trace.length : Int) ≤ (exampleIndex 6).nHeight - 1 :=
  GetAncestor_never_overshoots exampleIndex exampleIndex_wellFormed 6 1 (by decide) (by decide)

theorem GetLocator_exponentially_sparse_witness :
    ∃ ids : List Nat,
      GetLocator exampleIndex exampleChain (some 4)
        = some (ids.map (fun a => (exampleIndex a).hashBlock)) ∧
      ids.head? = some 4 ∧
      (∀ k a b, ids[k]? = some a → ids[k + 1]? = some b →
        (k ≤ 10 → (exampleIndex b).nHeight = max ((exampleIndex a).nHeight - 1) 0) ∧
        (10 ≤ k → (exampleIndex b).nHeight
          = max ((exampleIndex a).nHeight - 2 ^ (k - 10)) 0)) ∧
      ∃ g, ids.getLast? = some g ∧ (exampleIndex g).nHeight = 0 :=
  GetLocator_exponentially_sparse exampleIndex exampleIndex_wellFormed exampleChain
    exampleChain_consistent 4

theorem CalculateProofRoot_exact_range_witness :
    (2 : Nat) ≤ 2 ∧ (0 : Int) ≤ 3 ∧ (3 : Int) ≤ Height exampleEnv.chainActive ∧
    7 ≤ (ownNotarisations "B" (scanWindow exampleEnv 3 1440 0)).length ∧
    CalculateProofRoot exampleEnv "B" 2 3 [] 0 = some (486, [50, 67], 31) ∧
    CalculateProofRootTrace exampleEnv "B" 2 3 [] 0 = (some (486, [50, 67], 31), [3, 2, 1]) ∧
    ∃ out anchor,
      CalculateProofRoot exampleEnv "B" 2 3 [] 0
        = some (exampleEnv.GetMerkleRoot out, out, anchor) ∧
      (∀ y, y ∈ out ↔
        ∃ j : Nat, j < 1440 ∧ (j : Int) ≤ 3 ∧
          1 ≤ (ownNotarisations "B" (scanWindow exampleEnv 3 (j + 1) 0)).length ∧
          (ownNotarisations "B" (scanWindow exampleEnv 3 (j + 1) 0)).length < 7 ∧
          ∃ nota ∈ blockNotarisations exampleEnv (3 - j),
            GetSymbolAuthority nota.2.symbol = GetSymbolAuthority "B" ∧
            nota.2.ccId = 2 ∧ nota.2.MoM = y) ∧
      (∀ x ∈ (CalculateProofRootTrace exampleEnv "B" 2 3 [] 0).2,
        ∃ j : Nat, j < 1440 ∧ x = 3 - j ∧
          (ownNotarisations "B" (scanWindow exampleEnv 3 j 0)).length < 7) :=
  ⟨le_refl _, by decide, by decide, by decide, by decide, by decide,
    (CalculateProofRoot_exact_range exampleEnv "B" 2 3 [] 0 (le_refl _) (by decide)
      (by decide) (fun i h0 h1 _ => exampleChain_populated i h0 h1)).2.1 (by decide)⟩

end SquishyCoin
